import Mathlib

/-!
# DataBaseSCU, Project 1: extendible hash table and LRU replacer

A shallow embedding of `src/Project1/hash/extendible_hash.cpp` and
`src/Project1/lru/lru_replacer.cpp`.

Modelling conventions.

* `std::map<K, V>` is a list of (key, value) pairs kept in strictly increasing
  key order; iteration order of the C++ map is the order of the list.
* `shared_ptr<X>` is an address (a natural number) into an explicit memory
  `Nat → X`; `make_shared` takes the next unused address. A null `shared_ptr`
  is `none` where the code can produce one.
* An operation whose C++ execution would be undefined (dereferencing a null
  pointer, decrementing `begin()`, evaluating `(1 << d) - 1` in a 32-bit `int`
  for `d ≥ 31`) returns `none` / `undefined`.
* The split of `Insert` decrements `begin()` whenever it erases the first entry
  of the bucket. A compiled program goes on from there, and `Insert` returns;
  the tables it then leaves are tables the program reaches. `InsertWith` is
  `Insert` followed beyond that point, with the position the iterator takes
  after the decrement as a parameter (`redistributeWith`); the reachable tables
  (`Reachable`, `InsertsTo`, `Step`, `ReachableWith`) are those of `InsertWith`
  for any such positions, and what is proved of them holds whatever the iterator
  does. When the erase has emptied the map there is no result either way.
* `int` and `size_t` values are natural numbers; `1 << d` is `2 ^ d`, which is
  exact for `d ≤ 30`, and every table the operations produce has a depth of at
  most 30 (`reachable_shape`).
* The hash function `std::hash<K>` is a parameter `HashKey : K → Nat`.
* The operations run alone, one after the other. Their mutexes are modelled
  apart: `FindLocks`, `RemoveLocks`, `InsertLocks` and the like give the lock
  and unlock events an operation performs, in order.
-/

namespace scudb

/-! ## std::map -/

section StdMap

variable {K V : Type} [LinearOrder K]

/-- Lookup as done by `map::find(key)`: the mapped value, `none` for `end()`. -/
def mapFind : List (K × V) → K → Option V
  | [], _ => none
  | (a, b) :: rest, key => if a = key then some b else mapFind rest key

/-- Assignment `m[key] = value`: overwrite the entry of `key`, or insert a new
entry at its place in key order. -/
def mapAssign : List (K × V) → K → V → List (K × V)
  | [], key, value => [(key, value)]
  | (a, b) :: rest, key, value =>
    if key < a then (key, value) :: (a, b) :: rest
    else if key = a then (a, value) :: rest
    else (a, b) :: mapAssign rest key value

/-- Removal `m.erase(key)`: drop the entry of `key`, if there is one. -/
def mapErase : List (K × V) → K → List (K × V)
  | [], _ => []
  | (a, b) :: rest, key => if a = key then rest else (a, b) :: mapErase rest key

/-- The keys of a map appear in strictly increasing order (the representation
invariant of `std::map`). -/
def MapSorted (m : List (K × V)) : Prop :=
  List.Pairwise (fun p q => p.1 < q.1) m

end StdMap

/-! ## ExtendibleHash -/

section Hash

variable {K V : Type} [LinearOrder K]

/-- Modelled from the spec: the declaration of `Bucket`, which is in the header
`hash/extendible_hash.h`, not among the sources. A bucket has a local depth and
its entries `map_k` (and a lock, not modelled); `map_k` is a `std::map<K, V>`,
as the iterator type in `Insert` shows. The constructor `Bucket(depth)` gives
`⟨depth, []⟩`. -/
structure Bucket (K V : Type) where
  local_depth : Nat
  map_k : List (K × V)

/-- Modelled from the spec: the data members of `ExtendibleHash`, declared in the
header `hash/extendible_hash.h`, not among the sources, with the names the
member functions use. `buckets` is the slot vector of `shared_ptr<Bucket>`,
given as addresses into `heap`, the memory holding the `Bucket` objects;
`next_addr` is the address the next `make_shared<Bucket>` returns. -/
structure ExtendibleHash (K V : Type) where
  global_depth : Nat
  bucket_size : Nat
  bucket_number : Nat
  buckets : List Nat
  heap : Nat → Bucket K V
  next_addr : Nat

/-- The constructor `ExtendibleHash(size)`: depth 0, one empty bucket of local
depth 0 in slot 0. -/
def ExtendibleHash.init (size : Nat) : ExtendibleHash K V :=
  { global_depth := 0
    bucket_size := size
    bucket_number := 1
    buckets := [0]
    heap := fun _ => ⟨0, []⟩
    next_addr := 1 }

/-- The read `buckets[i]` of the slot vector (address 0 outside the vector; the
index is inside it in every state the operations produce). -/
def ExtendibleHash.slot (t : ExtendibleHash K V) (i : Nat) : Nat :=
  t.buckets.getD i 0

/-- The bucket object `*buckets[i]`. -/
def ExtendibleHash.bucketAt (t : ExtendibleHash K V) (i : Nat) : Bucket K V :=
  t.heap (t.slot i)

/-- The table after the entries of the bucket at address `a` are replaced by
`m` (an update of `a->map_k`). -/
def ExtendibleHash.setMap (t : ExtendibleHash K V) (a : Nat) (m : List (K × V)) :
    ExtendibleHash K V :=
  { t with heap := Function.update t.heap a ⟨(t.heap a).local_depth, m⟩ }

/-- The getter `GetGlobalDepth()`. -/
def GetGlobalDepth (t : ExtendibleHash K V) : Int :=
  t.global_depth

/-- The getter `GetNumBuckets()`. -/
def GetNumBuckets (t : ExtendibleHash K V) : Int :=
  t.bucket_number

/-- The getter `GetLocalDepth(bucket_id)`: -1 for a bucket without entries, else
the bucket's local depth. The null test of the code is the `none` case; no slot
of the vector is ever null, so it stands for an index outside the vector. -/
def GetLocalDepth (t : ExtendibleHash K V) (bucket_id : Nat) : Int :=
  match t.buckets[bucket_id]? with
  | some a =>
    if (t.heap a).map_k.length = 0 then -1
    else (t.heap a).local_depth
  | none => -1

/-- The slot index of a key, `HashKey(key) & ((1 << global_depth) - 1)`. The hash
function `HashKey` (`std::hash<K>`) is a parameter. -/
def GetIndexOfBuckets (HashKey : K → Nat) (t : ExtendibleHash K V) (key : K) : Nat :=
  HashKey key &&& (2 ^ t.global_depth - 1)

/-- The lookup `Find(key, value)`: the returned flag and the content of the
output argument `value` afterwards. -/
def Find (HashKey : K → Nat) (t : ExtendibleHash K V) (key : K) (value : V) : Bool × V :=
  let bucket_idx := HashKey key &&& (2 ^ t.global_depth - 1)
  match mapFind (t.bucketAt bucket_idx).map_k key with
  | some v => (true, v)
  | none => (false, value)

/-- The removal `Remove(key)`: the returned flag and the table afterwards. -/
def Remove (HashKey : K → Nat) (t : ExtendibleHash K V) (key : K) : Bool × ExtendibleHash K V :=
  let bucket_idx := HashKey key &&& (2 ^ t.global_depth - 1)
  let current_bucket := t.slot bucket_idx
  let b := t.heap current_bucket
  match mapFind b.map_k key with
  | some _ =>
    (true, t.setMap current_bucket (mapErase b.map_k key))
  | none => (false, t)

/-- The redistribution loop of `Insert` (the `for` over `current_bucket->map_k`).
`kept` are the entries before the iterator `it` that are still in the old
bucket, the second list the entries from `it` on, `moved` is
`new_bucket->map_k`. An entry whose hash has the mask bit goes to `moved` and is
erased; `erase` leaves `it` on the following entry and `it--` steps back to the
last kept entry, so that the loop's `it++` reaches the following entry again.
When nothing is kept yet, `it` is `begin()` and `it--` is undefined. -/
def redistribute (HashKey : K → Nat) (mask : Nat) :
    List (K × V) → List (K × V) → List (K × V) → Option (List (K × V) × List (K × V))
  | kept, [], moved => some (kept, moved)
  | kept, (a, b) :: rest, moved =>
    if HashKey a &&& mask ≠ 0 then
      if kept.isEmpty then none
      else redistribute HashKey mask kept rest (mapAssign moved a b)
    else redistribute HashKey mask (kept ++ [(a, b)]) rest moved

/-- The slot vector after the doubling step: `push_back(buckets[i])` for every
`i` below the old length, when the new local depth exceeds the global depth. -/
def grow (buckets : List Nat) (local_depth global_depth : Nat) : List Nat :=
  if local_depth > global_depth then buckets ++ buckets else buckets

/-- The repointing loop of `Insert`: every slot that holds `current_bucket` and
whose index has the mask bit is set to `new_bucket`. -/
def repoint (buckets : List Nat) (current_bucket new_bucket mask : Nat) : List Nat :=
  buckets.mapIdx fun i a => if a = current_bucket ∧ i &&& mask ≠ 0 then new_bucket else a

/-- How one pass through the body of the `do ... while (true)` of `Insert` ends:
with the entry stored (`break`), with a split after which the loop runs again,
or in undefined behaviour. -/
inductive Pass (K V : Type) where
  | stored (t : ExtendibleHash K V)
  | split (t : ExtendibleHash K V)
  | undefined

/-- The split of `Insert` (the code after the `break`), applied to the bucket at
address `current_bucket`. -/
def splitBucket (HashKey : K → Nat) (t : ExtendibleHash K V) (current_bucket : Nat) :
    Option (ExtendibleHash K V) :=
  let mask := 2 ^ (t.heap current_bucket).local_depth
  let local_depth := (t.heap current_bucket).local_depth + 1
  let buckets := grow t.buckets local_depth t.global_depth
  let global_depth := if local_depth > t.global_depth then t.global_depth + 1 else t.global_depth
  let new_bucket := t.next_addr
  match redistribute HashKey mask [] (t.heap current_bucket).map_k [] with
  | none => none
  | some (kept, moved) =>
    some
      { global_depth := global_depth
        bucket_size := t.bucket_size
        bucket_number := t.bucket_number + 1
        buckets := repoint buckets current_bucket new_bucket mask
        heap := Function.update (Function.update t.heap current_bucket ⟨local_depth, kept⟩)
          new_bucket ⟨local_depth, moved⟩
        next_addr := new_bucket + 1 }

/-- One pass through the loop body of `Insert`. The pass starts with
`GetIndexOfBuckets`, whose `(1 << global_depth) - 1` is computed in `int` and is
undefined from depth 31 on. -/
def InsertPass (HashKey : K → Nat) (t : ExtendibleHash K V) (key : K) (value : V) : Pass K V :=
  if 31 ≤ t.global_depth then Pass.undefined
  else
    let bucket_idx := GetIndexOfBuckets HashKey t key
    let current_bucket := t.slot bucket_idx
    let b := t.heap current_bucket
    if (mapFind b.map_k key).isSome ∨ b.map_k.length < t.bucket_size then
      Pass.stored (t.setMap current_bucket (mapAssign b.map_k key value))
    else
      match splitBucket HashKey t current_bucket with
      | none => Pass.undefined
      | some t1 => Pass.split t1

/-- The operation `Insert(key, value)`, its loop run for at most `fuel` passes:
`some t` when the loop leaves through `break` with table `t`, `none` when it
meets undefined behaviour or has not left after `fuel` passes. -/
def Insert (HashKey : K → Nat) : Nat → ExtendibleHash K V → K → V → Option (ExtendibleHash K V)
  | 0, _, _, _ => none
  | fuel + 1, t, key, value =>
    match InsertPass HashKey t key value with
    | Pass.stored t1 => some t1
    | Pass.split t1 => Insert HashKey fuel t1 key value
    | Pass.undefined => none

/-- The number of splits `Insert` performs before it stores the entry (`none`
as for `Insert`). -/
def InsertSplits (HashKey : K → Nat) : Nat → ExtendibleHash K V → K → V → Option Nat
  | 0, _, _, _ => none
  | fuel + 1, t, key, value =>
    match InsertPass HashKey t key value with
    | Pass.stored _ => some 0
    | Pass.split t1 => (InsertSplits HashKey fuel t1 key value).map (· + 1)
    | Pass.undefined => none

/-- The redistribution loop of `Insert`, followed beyond a decrement of
`begin()`. Where `redistribute` has no result, because `it--` is applied to
`begin()`, a compiled program goes on with the iterator at a position that C++
leaves open. Here that position is a parameter: `resume` gives, for each such
decrement of the loop in turn, the number of entries behind the erased one that
the loop passes over before it examines an entry again (0 when the list is used
up). The entries passed over stay in the old bucket unexamined; they stand
before the iterator, as the kept ones do, and are collected in `kept` with
them. `skip` is the number of entries still to pass over. (A program built with
the GNU library, for one, passes over the single entry that an erase in a bucket
of two leaves behind: the list `[1]`.) When the erased entry was the only one of
the map, the iterator is `end()` of an empty map, there is no entry to go on
with, and the loop has no result. -/
def redistributeWith (HashKey : K → Nat) (mask : Nat) :
    List Nat → Nat → List (K × V) → List (K × V) → List (K × V) →
      Option (List (K × V) × List (K × V))
  | _, _, kept, [], moved => some (kept, moved)
  | resume, skip, kept, (a, b) :: rest, moved =>
    match skip with
    | skip1 + 1 => redistributeWith HashKey mask resume skip1 (kept ++ [(a, b)]) rest moved
    | 0 =>
      if HashKey a &&& mask ≠ 0 then
        if kept.isEmpty then
          if rest.isEmpty then none
          else
            redistributeWith HashKey mask resume.tail (resume.headD 0) [] rest
              (mapAssign moved a b)
        else redistributeWith HashKey mask resume 0 kept rest (mapAssign moved a b)
      else redistributeWith HashKey mask resume 0 (kept ++ [(a, b)]) rest moved

/-- The split of `Insert` with the redistribution loop followed beyond a
decrement of `begin()` (`redistributeWith`); everything else as in
`splitBucket`. -/
def splitBucketWith (HashKey : K → Nat) (resume : List Nat) (t : ExtendibleHash K V)
    (current_bucket : Nat) : Option (ExtendibleHash K V) :=
  let mask := 2 ^ (t.heap current_bucket).local_depth
  let local_depth := (t.heap current_bucket).local_depth + 1
  let buckets := grow t.buckets local_depth t.global_depth
  let global_depth := if local_depth > t.global_depth then t.global_depth + 1 else t.global_depth
  let new_bucket := t.next_addr
  match redistributeWith HashKey mask resume 0 [] (t.heap current_bucket).map_k [] with
  | none => none
  | some (kept, moved) =>
    some
      { global_depth := global_depth
        bucket_size := t.bucket_size
        bucket_number := t.bucket_number + 1
        buckets := repoint buckets current_bucket new_bucket mask
        heap := Function.update (Function.update t.heap current_bucket ⟨local_depth, kept⟩)
          new_bucket ⟨local_depth, moved⟩
        next_addr := new_bucket + 1 }

/-- One pass through the loop body of `Insert`, its split followed beyond a
decrement of `begin()`; `resume` as in `redistributeWith`. -/
def InsertPassWith (HashKey : K → Nat) (resume : List Nat) (t : ExtendibleHash K V) (key : K)
    (value : V) : Pass K V :=
  if 31 ≤ t.global_depth then Pass.undefined
  else
    let bucket_idx := GetIndexOfBuckets HashKey t key
    let current_bucket := t.slot bucket_idx
    let b := t.heap current_bucket
    if (mapFind b.map_k key).isSome ∨ b.map_k.length < t.bucket_size then
      Pass.stored (t.setMap current_bucket (mapAssign b.map_k key value))
    else
      match splitBucketWith HashKey resume t current_bucket with
      | none => Pass.undefined
      | some t1 => Pass.split t1

/-- The operation `Insert(key, value)` as a compiled program runs it, for any
position the iterator may take after a decrement of `begin()`: `resume` holds,
for each pass of the loop in turn, the list that `redistributeWith` takes. The
result is `some t` when the loop leaves through `break` with table `t`. Where
`Insert` has a result, this is the same result, whatever `resume` is. -/
def InsertWith (HashKey : K → Nat) :
    List (List Nat) → Nat → ExtendibleHash K V → K → V → Option (ExtendibleHash K V)
  | _, 0, _, _, _ => none
  | resume, fuel + 1, t, key, value =>
    match InsertPassWith HashKey (resume.headD []) t key value with
    | Pass.stored t1 => some t1
    | Pass.split t1 => InsertWith HashKey resume.tail fuel t1 key value
    | Pass.undefined => none

/-- The number of splits `InsertWith` performs before it stores the entry
(`none` as for `InsertWith`). -/
def InsertSplitsWith (HashKey : K → Nat) :
    List (List Nat) → Nat → ExtendibleHash K V → K → V → Option Nat
  | _, 0, _, _, _ => none
  | resume, fuel + 1, t, key, value =>
    match InsertPassWith HashKey (resume.headD []) t key value with
    | Pass.stored _ => some 0
    | Pass.split t1 => (InsertSplitsWith HashKey resume.tail fuel t1 key value).map (· + 1)
    | Pass.undefined => none

/-- The table states the public operations produce from a freshly constructed
table of bucket capacity `size`. An `Insert` counts whenever its loop leaves
through `break`, also when a split on the way has decremented `begin()`,
whatever position the iterator took then (`InsertWith`). -/
inductive Reachable (HashKey : K → Nat) (size : Nat) : ExtendibleHash K V → Prop where
  | init : Reachable HashKey size (ExtendibleHash.init size)
  | insert {t t1 : ExtendibleHash K V} (resume : List (List Nat)) (fuel : Nat) (key : K)
      (value : V) :
      Reachable HashKey size t → InsertWith HashKey resume fuel t key value = some t1 →
      Reachable HashKey size t1
  | remove {t : ExtendibleHash K V} (key : K) :
      Reachable HashKey size t → Reachable HashKey size (Remove HashKey t key).2

/-- A run of `Insert` calls, each given enough passes to finish: the table after
the last one, `none` if one of them does not finish. -/
def insertAll (HashKey : K → Nat) (fuel : Nat) :
    ExtendibleHash K V → List (K × V) → Option (ExtendibleHash K V)
  | t, [] => some t
  | t, (key, value) :: rest =>
    match Insert HashKey fuel t key value with
    | some t1 => insertAll HashKey fuel t1 rest
    | none => none

/-- The value of the last pair for `key` in a list of (key, value) pairs. -/
def lastValue (key : K) : List (K × V) → Option V
  | [] => none
  | (a, b) :: rest =>
    match lastValue key rest with
    | some v => some v
    | none => if a = key then some b else none

end Hash

/-! ## LRUReplacer -/

section LRU

variable {T : Type} [LinearOrder T]

/-- A `Node` of the recency list. `value` is `none` in a node built by `Node()`,
which sets no value. -/
structure Node (T : Type) where
  value : Option T
  prev_node : Option Nat
  next_node : Option Nat

/-- The members of `LRUReplacer`: the two sentinels, `node_map` from tracked
value to node address, and the memory `mem` holding the nodes. -/
structure LRUReplacer (T : Type) where
  head_node : Nat
  tail_node : Nat
  node_map : List (T × Nat)
  mem : Nat → Node T
  next_addr : Nat

/-- The constructor `LRUReplacer()`: head and tail sentinel linked to each
other, nothing tracked. -/
def LRUReplacer.init : LRUReplacer T :=
  { head_node := 0
    tail_node := 1
    node_map := []
    mem := fun a => if a = 0 then ⟨none, none, some 1⟩ else if a = 1 then ⟨none, some 0, none⟩
      else ⟨none, none, none⟩
    next_addr := 2 }

/-- The assignment `p->next_node = q`. -/
def LRUReplacer.setNext (r : LRUReplacer T) (p : Nat) (q : Option Nat) : LRUReplacer T :=
  { r with mem := Function.update r.mem p ⟨(r.mem p).value, (r.mem p).prev_node, q⟩ }

/-- The assignment `p->prev_node = q`. -/
def LRUReplacer.setPrev (r : LRUReplacer T) (p : Nat) (q : Option Nat) : LRUReplacer T :=
  { r with mem := Function.update r.mem p ⟨(r.mem p).value, q, (r.mem p).next_node⟩ }

/-- The allocation `make_shared<Node>(value)`: the replacer with the new node in
memory, and the node's address. -/
def LRUReplacer.newNode (r : LRUReplacer T) (value : T) : LRUReplacer T × Nat :=
  ({ r with mem := Function.update r.mem r.next_addr ⟨some value, none, none⟩,
            next_addr := r.next_addr + 1 }, r.next_addr)

/-- The second half of `Insert`: link `current_node` in front of the tail
sentinel and record it in `node_map`. -/
def linkLast (r : LRUReplacer T) (current_node : Nat) (value : T) : Option (LRUReplacer T) :=
  match (r.mem r.tail_node).prev_node with
  | none => none
  | some node =>
    let r1 := r.setNext current_node (some r.tail_node)
    let r2 := r1.setPrev current_node (some node)
    let r3 := r2.setNext node (some current_node)
    let r4 := r3.setPrev r.tail_node (some current_node)
    some { r4 with node_map := mapAssign r.node_map value current_node }

/-- The operation `Insert(value)`; `none` when it would dereference a null
pointer. -/
def LRUReplacer.Insert (r : LRUReplacer T) (value : T) : Option (LRUReplacer T) :=
  match mapFind r.node_map value with
  | some current_node =>
    match (r.mem current_node).prev_node, (r.mem current_node).next_node with
    | some prev, some next =>
      let r1 := r.setNext prev (some next)
      let r2 := r1.setPrev next (some prev)
      linkLast r2 current_node value
    | _, _ => none
  | none =>
    let (r1, current_node) := r.newNode value
    linkLast r1 current_node value

/-- The operation `Victim(value)`: the returned flag, the content of the output
argument `value` afterwards and the replacer afterwards; `none` when it would
dereference a null pointer or read a value that was never set. -/
def LRUReplacer.Victim (r : LRUReplacer T) (value : T) : Option (Bool × T × LRUReplacer T) :=
  if r.node_map.isEmpty then some (false, value, r)
  else
    match (r.mem r.head_node).next_node with
    | none => none
    | some node =>
      let r1 := r.setNext r.head_node (r.mem node).next_node
      match (r1.mem node).next_node with
      | none => none
      | some next =>
        let r2 := r1.setPrev next (some r.head_node)
        match (r2.mem node).value with
        | none => none
        | some x => some (true, x, { r2 with node_map := mapErase r.node_map x })

/-- The operation `Erase(value)`: the returned flag (the number of entries
`node_map.erase` removed, as a `bool`) and the replacer afterwards; `none` when
it would dereference a null pointer. -/
def LRUReplacer.Erase (r : LRUReplacer T) (value : T) : Option (Bool × LRUReplacer T) :=
  let erased := (mapFind r.node_map value).isSome
  match mapFind r.node_map value with
  | some current_node =>
    match (r.mem current_node).prev_node with
    | none => none
    | some prev =>
      let r1 := r.setNext prev (r.mem current_node).next_node
      match (r1.mem current_node).next_node with
      | none => none
      | some next =>
        let r2 := r1.setPrev next (r1.mem current_node).prev_node
        some (erased, { r2 with node_map := mapErase r.node_map value })
  | none => some (erased, { r with node_map := mapErase r.node_map value })

/-- The operation `Size()`. -/
def LRUReplacer.Size (r : LRUReplacer T) : Nat :=
  r.node_map.length

/-- A run of `Insert` calls, one for each value of the list in order. -/
def insertValues : LRUReplacer T → List T → Option (LRUReplacer T)
  | r, [] => some r
  | r, x :: rest =>
    match r.Insert x with
    | some r1 => insertValues r1 rest
    | none => none

/-- Up to `n` successive `Victim` calls, stopping at the first that returns
false: the values returned and the replacer left; `none` when a call is
undefined or the `n` calls all return true. -/
def drain : Nat → LRUReplacer T → T → Option (List T × LRUReplacer T)
  | 0, _, _ => none
  | n + 1, r, value =>
    match r.Victim value with
    | none => none
    | some (false, _, r1) => some ([], r1)
    | some (true, x, r1) =>
      match drain n r1 x with
      | none => none
      | some (xs, r2) => some (x :: xs, r2)

/-- The victim order of a replacer: the values successive `Victim` calls return
until the first one that returns false. -/
def victimOrder (r : LRUReplacer T) (value : T) : Option (List T) :=
  (drain (r.Size + 1) r value).map Prod.fst

end LRU

/-! ## ExtendibleHash: invariants and vocabulary of the theorems -/

section HashVocabulary

variable {K V : Type} [LinearOrder K]

/-- The structural invariant of the table as the split is meant to keep it:
the slot vector and the local depths fit together, and every entry lies in the
bucket its hash resolves to (`home`). It holds after every run of calls none of
which decrements `begin()` (`insertAll_spec`, `remove_spec`); a split that
decrements `begin()` can break `home`, and then only `Shape` is left. -/
structure Inv0 (HashKey : K → Nat) (t : ExtendibleHash K V) : Prop where
  len : t.buckets.length = 2 ^ t.global_depth
  alloc : ∀ i < 2 ^ t.global_depth, t.slot i < t.next_addr
  depth : ∀ i < 2 ^ t.global_depth, (t.bucketAt i).local_depth ≤ t.global_depth
  share : ∀ i < 2 ^ t.global_depth, ∀ j < 2 ^ t.global_depth,
    (t.slot i = t.slot j ↔
      i % 2 ^ (t.bucketAt i).local_depth = j % 2 ^ (t.bucketAt i).local_depth)
  home : ∀ i < 2 ^ t.global_depth, ∀ p ∈ (t.bucketAt i).map_k,
    HashKey p.1 % 2 ^ (t.bucketAt i).local_depth = i % 2 ^ (t.bucketAt i).local_depth
  sorted : ∀ i < 2 ^ t.global_depth, MapSorted (t.bucketAt i).map_k
  cap : ∀ i < 2 ^ t.global_depth, (t.bucketAt i).map_k.length ≤ t.bucket_size

/-- The key has an entry in a bucket that the slot vector references. -/
def Stored (t : ExtendibleHash K V) (key : K) : Prop :=
  ∃ i, i < t.buckets.length ∧ (mapFind (t.bucketAt i).map_k key).isSome = true

/-- A sequence of completed `Insert` calls, one for each pair of the list in
order, leading from the first table to the second. A call is completed when its
loop leaves through `break`, also when a split on the way has decremented
`begin()` (`InsertWith`). -/
inductive InsertsTo (HashKey : K → Nat) :
    ExtendibleHash K V → List (K × V) → ExtendibleHash K V → Prop where
  | nil (t : ExtendibleHash K V) : InsertsTo HashKey t [] t
  | cons {t t1 t2 : ExtendibleHash K V} (resume : List (List Nat)) (fuel : Nat) (key : K)
      (value : V) (rest : List (K × V)) :
      InsertWith HashKey resume fuel t key value = some t1 → InsertsTo HashKey t1 rest t2 →
      InsertsTo HashKey t ((key, value) :: rest) t2

/-- The table without its entries: every bucket emptied, the slot vector, the
local depths and the counters as they are. -/
def ExtendibleHash.skeleton (t : ExtendibleHash K V) : ExtendibleHash K V :=
  { t with heap := fun a => ⟨(t.heap a).local_depth, []⟩ }

/-- The invariant of the table that holds after every completed `Insert`, also
one whose split has decremented `begin()`: the slot vector and the local depths
are as in `Inv0`, and every bucket has its entries in key order and at most
`bucket_size` of them. Where the entries lie is not part of it. -/
structure Shape (t : ExtendibleHash K V) : Prop where
  len : t.buckets.length = 2 ^ t.global_depth
  alloc : ∀ i < 2 ^ t.global_depth, t.slot i < t.next_addr
  depth : ∀ i < 2 ^ t.global_depth, (t.bucketAt i).local_depth ≤ t.global_depth
  share : ∀ i < 2 ^ t.global_depth, ∀ j < 2 ^ t.global_depth,
    (t.slot i = t.slot j ↔
      i % 2 ^ (t.bucketAt i).local_depth = j % 2 ^ (t.bucketAt i).local_depth)
  sorted : ∀ a, MapSorted (t.heap a).map_k
  cap : ∀ a, (t.heap a).map_k.length ≤ t.bucket_size

/-- The entry of `key` in its bucket, as `Find` looks it up. -/
def lookup (HashKey : K → Nat) (t : ExtendibleHash K V) (key : K) : Option V :=
  mapFind (t.bucketAt (HashKey key &&& (2 ^ t.global_depth - 1))).map_k key

/-- The table `t1` is `t` after one split of the bucket at address `cur`: the
depth grows when the bucket's new local depth exceeds it, a slot that held
`cur` and whose index has the bit of the old local depth holds the new bucket,
every other slot holds what its index held before (modulo the old vector
length), and the entries of `cur` are divided by that bit of their hash. -/
structure IsSplit (HashKey : K → Nat) (t : ExtendibleHash K V) (cur : Nat)
    (t1 : ExtendibleHash K V) : Prop where
  gd : t1.global_depth =
    if (t.heap cur).local_depth + 1 > t.global_depth then t.global_depth + 1 else t.global_depth
  size : t1.bucket_size = t.bucket_size
  number : t1.bucket_number = t.bucket_number + 1
  addr : t1.next_addr = t.next_addr + 1
  len : t1.buckets.length = 2 ^ t1.global_depth
  slot : ∀ i < 2 ^ t1.global_depth, t1.slot i =
    if t.slot (i % 2 ^ t.global_depth) = cur ∧ i.testBit (t.heap cur).local_depth = true
    then t.next_addr else t.slot (i % 2 ^ t.global_depth)
  heap_new : t1.heap t.next_addr = ⟨(t.heap cur).local_depth + 1,
    (t.heap cur).map_k.filter (fun p => (HashKey p.1).testBit (t.heap cur).local_depth)⟩
  heap_cur : t1.heap cur = ⟨(t.heap cur).local_depth + 1,
    (t.heap cur).map_k.filter (fun p => !(HashKey p.1).testBit (t.heap cur).local_depth)⟩
  heap_other : ∀ a, a ≠ cur → a ≠ t.next_addr → t1.heap a = t.heap a

/-- The table obtained from a freshly constructed one of bucket capacity `size`
by `Insert` of the given pairs in order, each call given `fuel` passes. -/
def tableOf (HashKey : K → Nat) (size fuel : Nat) (ops : List (K × V)) : ExtendibleHash K V :=
  (insertAll HashKey fuel (ExtendibleHash.init size) ops).getD (ExtendibleHash.init size)

end HashVocabulary

/-! ## LRUReplacer: invariants and vocabulary of the theorems -/

section LRUVocabulary

variable {T : Type} [LinearOrder T]

/-- The runs of the public operations from a freshly constructed replacer:
`LRURun log r` when a run ends in state `r`, `log` being the values it passed to
`Insert`, the most recent first. -/
inductive LRURun : List T → LRUReplacer T → Prop where
  | init : LRURun [] LRUReplacer.init
  | insert {log : List T} {r r1 : LRUReplacer T} (value : T) :
      LRURun log r → r.Insert value = some r1 → LRURun (value :: log) r1
  | victim {log : List T} {r r1 : LRUReplacer T} (value x : T) (b : Bool) :
      LRURun log r → r.Victim value = some (b, x, r1) → LRURun log r1
  | erase {log : List T} {r r1 : LRUReplacer T} (value : T) (b : Bool) :
      LRURun log r → r.Erase value = some (b, r1) → LRURun log r1

/-- The replacer states the public operations produce from a freshly
constructed replacer. -/
def LRUReachable (r : LRUReplacer T) : Prop :=
  ∃ log, LRURun log r

/-- The value `x` is tracked: it has an entry in `node_map`. -/
def LRUReplacer.tracked (r : LRUReplacer T) (x : T) : Bool :=
  (mapFind r.node_map x).isSome

/-- The states reached from `r` by operations none of which is `Insert(x)`. -/
inductive Without (x : T) : LRUReplacer T → LRUReplacer T → Prop where
  | refl (r : LRUReplacer T) : Without x r r
  | insert {r r1 r2 : LRUReplacer T} (value : T) :
      Without x r r1 → value ≠ x → r1.Insert value = some r2 → Without x r r2
  | victim {r r1 r2 : LRUReplacer T} (value y : T) (b : Bool) :
      Without x r r1 → r1.Victim value = some (b, y, r2) → Without x r r2
  | erase {r r1 r2 : LRUReplacer T} (value : T) (b : Bool) :
      Without x r r1 → r1.Erase value = some (b, r2) → Without x r r2

/-- The recency list is ordered by age: of two tracked values the one nearer
the head had its last `Insert` longer ago. -/
def Aged (log : List T) (L : List T) : Prop :=
  List.Pairwise (fun a b => log.indexOf b < log.indexOf a) L

/-- The replacer obtained from a freshly constructed one by `Insert` of the
given values in order. -/
def replacerOf (xs : List T) : LRUReplacer T :=
  (insertValues LRUReplacer.init xs).getD LRUReplacer.init

/-- Forward links: each node of the list has the following one as `next_node`. -/
def Fwd (r : LRUReplacer T) (c : List Nat) : Prop :=
  List.Chain' (fun a b => (r.mem a).next_node = some b) c

/-- Backward links: each node of the list has the preceding one as `prev_node`. -/
def Bwd (r : LRUReplacer T) (c : List Nat) : Prop :=
  List.Chain' (fun a b => (r.mem b).prev_node = some a) c

/-- The representation invariant of a replacer: `ps` lists the tracked values,
least recently used first, each with the address of its node. The nodes are
linked in this order between the two sentinels, in both directions, and
`node_map` holds exactly these pairs. -/
structure Rep (r : LRUReplacer T) (ps : List (T × Nat)) : Prop where
  fwd : Fwd r (r.head_node :: ps.map Prod.snd ++ [r.tail_node])
  bwd : Bwd r (r.head_node :: ps.map Prod.snd ++ [r.tail_node])
  nodup : (r.head_node :: ps.map Prod.snd ++ [r.tail_node]).Nodup
  alloc : ∀ a ∈ r.head_node :: ps.map Prod.snd ++ [r.tail_node], a < r.next_addr
  vals : ∀ p ∈ ps, (r.mem p.2).value = some p.1
  keys : (ps.map Prod.fst).Nodup
  sorted : MapSorted r.node_map
  map : ∀ x a, mapFind r.node_map x = some a ↔ (x, a) ∈ ps
  size : r.node_map.length = ps.length

end LRUVocabulary

/-! ## Examples -/

/-- An example table: capacity 2, keys hashed by the identity, after
`Insert(0, 10)`, `Insert(1, 11)`, `Insert(2, 12)`; the third call splits the
first bucket. -/
def exampleTable : ExtendibleHash Nat Nat :=
  tableOf id 2 4 [(0, 10), (1, 11), (2, 12)]

/-- An example replacer: after `Insert(1)`, `Insert(2)`. -/
def exampleReplacer : LRUReplacer Nat :=
  replacerOf [1, 2]

/-! ## ExtendibleHash: further vocabulary -/

section HashVocabulary2

variable {K V : Type} [LinearOrder K]

/-- One call of a public operation, as the table before and the table after.
`Find` and the three getters write no member, so they leave the table as it
is. An `Insert` is a step whenever its loop leaves through `break`
(`InsertWith`). -/
inductive Step (HashKey : K → Nat) : ExtendibleHash K V → ExtendibleHash K V → Prop where
  | insert {t t1 : ExtendibleHash K V} (resume : List (List Nat)) (fuel : Nat) (key : K)
      (value : V) :
      InsertWith HashKey resume fuel t key value = some t1 → Step HashKey t t1
  | remove (t : ExtendibleHash K V) (key : K) : Step HashKey t (Remove HashKey t key).2
  | find (t : ExtendibleHash K V) (key : K) (value : V) : Step HashKey t t
  | getGlobalDepth (t : ExtendibleHash K V) : Step HashKey t t
  | getLocalDepth (t : ExtendibleHash K V) (bucket_id : Nat) : Step HashKey t t
  | getNumBuckets (t : ExtendibleHash K V) : Step HashKey t t

/-- The first `n` passes of the loop of `Insert`, when each of them ends in a
split: the table after them. `none` when one of them stores the entry or is
undefined. -/
def splitPasses (HashKey : K → Nat) : Nat → ExtendibleHash K V → K → V → Option (ExtendibleHash K V)
  | 0, t, _, _ => some t
  | n + 1, t, key, value =>
    match InsertPass HashKey t key value with
    | Pass.split t1 => splitPasses HashKey n t1 key value
    | Pass.stored _ => none
    | Pass.undefined => none

/-- The bucket that `key` resolves to: `*buckets[GetIndexOfBuckets(key)]`. -/
def targetBucket (HashKey : K → Nat) (t : ExtendibleHash K V) (key : K) : Bucket K V :=
  t.bucketAt (GetIndexOfBuckets HashKey t key)

/-- The table has not split yet: depth 0, the one bucket of the constructor in
slot 0, and `done` are the keys stored in it. -/
structure Unsplit (size : Nat) (t : ExtendibleHash K V) (done : List K) : Prop where
  gd : t.global_depth = 0
  slots : t.buckets = [0]
  number : t.bucket_number = 1
  cap : t.bucket_size = size
  depth : (t.heap 0).local_depth = 0
  sorted : MapSorted (t.heap 0).map_k
  count : (t.heap 0).map_k.length = done.length
  keys : ∀ k, (mapFind (t.heap 0).map_k k).isSome = true ↔ k ∈ done

/-- The buckets are counted and all referenced: `bucket_number` is the number
of buckets allocated so far, and each of them is held by some slot. -/
structure Counted (t : ExtendibleHash K V) : Prop where
  number : t.bucket_number = t.next_addr
  onto : ∀ a < t.next_addr, ∃ i < 2 ^ t.global_depth, t.slot i = a

/-- The runs of the public operations from a freshly constructed table of
bucket capacity `size`, with the number of splits the run has performed. An
`Insert` counts whenever its loop leaves through `break` (`InsertWith`). -/
inductive ReachableWith (HashKey : K → Nat) (size : Nat) :
    Nat → ExtendibleHash K V → Prop where
  | init : ReachableWith HashKey size 0 (ExtendibleHash.init size)
  | insert {n : Nat} {t t1 : ExtendibleHash K V} (resume : List (List Nat)) (fuel : Nat)
      (key : K) (value : V) (s : Nat) :
      ReachableWith HashKey size n t → InsertWith HashKey resume fuel t key value = some t1 →
      InsertSplitsWith HashKey resume fuel t key value = some s →
      ReachableWith HashKey size (n + s) t1
  | remove {n : Nat} {t : ExtendibleHash K V} (key : K) :
      ReachableWith HashKey size n t → ReachableWith HashKey size n (Remove HashKey t key).2

end HashVocabulary2

/-- An example table: capacity 2, keys hashed by the identity, after
`Insert(1, 0)`, `Insert(3, 10)`; its one bucket holds the keys 1 and 3. -/
def oddTable : ExtendibleHash Nat Nat :=
  tableOf id 2 1 [(1, 0), (3, 10)]

/-- An example table: capacity 2, keys hashed by the identity, after
`Insert(1, 0)`, `Insert(3, 10)`, `Insert(5, 20)`. The third call splits the one
bucket; the first entry (key 1) moves and is erased, `it--` decrements
`begin()`, and the loop goes on behind the entry of key 3, which it passes
over. Key 3 stays in the bucket of slot 0, the keys 1 and 5 are in the bucket of
slot 1. -/
def strandedTable : ExtendibleHash Nat Nat :=
  (InsertWith id [[1]] 2 oddTable 5 20).getD oddTable

/-- An example table: capacity 1, keys hashed by the identity, after
`Insert(1, 0)`; its one bucket is full. -/
def singleTable : ExtendibleHash Nat Nat :=
  tableOf id 1 1 [(1, 0)]

/-- An example table: capacity 1, every key hashed to 0, after `Insert(0, 0)`;
its one bucket is full, and every further key collides with the stored one. -/
def collidingTable : ExtendibleHash Nat Nat :=
  tableOf (fun _ => 0) 1 1 [(0, 0)]

/-! ## LRUReplacer: further vocabulary -/

section LRUVocabulary2

variable {T : Type} [LinearOrder T]

/-- The runs of the public operations from a freshly constructed replacer,
with the values inserted and not since removed by `Victim` or `Erase`:
`LRUHistory live r` when a run ends in state `r` and `live` lists these values,
each once. -/
inductive LRUHistory : List T → LRUReplacer T → Prop where
  | init : LRUHistory [] LRUReplacer.init
  | insert {live : List T} {r r1 : LRUReplacer T} (value : T) :
      LRUHistory live r → r.Insert value = some r1 → LRUHistory (value :: live.erase value) r1
  | victim {live : List T} {r r1 : LRUReplacer T} (value x : T) (b : Bool) :
      LRUHistory live r → r.Victim value = some (b, x, r1) →
      LRUHistory (if b then live.erase x else live) r1
  | erase {live : List T} {r r1 : LRUReplacer T} (value : T) (b : Bool) :
      LRUHistory live r → r.Erase value = some (b, r1) → LRUHistory (live.erase value) r1

end LRUVocabulary2

/-! ## ExtendibleHash: the mutexes -/

section HashLocks

variable {K V : Type} [LinearOrder K]

/-- The mutexes of a table: the member `latch_table`, and the `latch_bucket` of
the bucket at an address. -/
inductive Latch where
  | latch_table
  | latch_bucket (bucket : Nat)
  deriving DecidableEq

/-- What an operation does to a mutex: the constructor of a `lock_guard` locks
it, the end of the scope of the guard unlocks it. -/
inductive LockEvent where
  | lock (m : Latch)
  | unlock (m : Latch)
  deriving DecidableEq

/-- The lock events of `GetGlobalDepth()`. -/
def GetGlobalDepthLocks : List LockEvent :=
  [LockEvent.lock Latch.latch_table, LockEvent.unlock Latch.latch_table]

/-- The lock events of `GetNumBuckets()`. -/
def GetNumBucketsLocks : List LockEvent :=
  [LockEvent.lock Latch.latch_table, LockEvent.unlock Latch.latch_table]

/-- The lock events of `GetLocalDepth(bucket_id)`. -/
def GetLocalDepthLocks (t : ExtendibleHash K V) (bucket_id : Nat) : List LockEvent :=
  match t.buckets[bucket_id]? with
  | some a => [LockEvent.lock (Latch.latch_bucket a), LockEvent.unlock (Latch.latch_bucket a)]
  | none => []

/-- The lock events of `GetIndexOfBuckets(key)`. -/
def GetIndexOfBucketsLocks : List LockEvent :=
  [LockEvent.lock Latch.latch_table, LockEvent.unlock Latch.latch_table]

/-- The lock events of `Find(key, value)`: the guard `lck0` of `latch_table`,
then the guard `lck` of the target bucket; both live to the end of the function
and are destroyed in reverse order. -/
def FindLocks (HashKey : K → Nat) (t : ExtendibleHash K V) (key : K) : List LockEvent :=
  let bucket_idx := HashKey key &&& (2 ^ t.global_depth - 1)
  [LockEvent.lock Latch.latch_table,
   LockEvent.lock (Latch.latch_bucket (t.slot bucket_idx)),
   LockEvent.unlock (Latch.latch_bucket (t.slot bucket_idx)),
   LockEvent.unlock Latch.latch_table]

/-- The lock events of `Remove(key)`: as in `Find`. -/
def RemoveLocks (HashKey : K → Nat) (t : ExtendibleHash K V) (key : K) : List LockEvent :=
  let bucket_idx := HashKey key &&& (2 ^ t.global_depth - 1)
  [LockEvent.lock Latch.latch_table,
   LockEvent.lock (Latch.latch_bucket (t.slot bucket_idx)),
   LockEvent.unlock (Latch.latch_bucket (t.slot bucket_idx)),
   LockEvent.unlock Latch.latch_table]

/-- The lock events of one pass through the loop body of `Insert`: the call of
`GetIndexOfBuckets`, the guard `lck` of `current_bucket`, and in a pass that
splits the guard `lck2` of `latch_table` inside the scope of `lck`. -/
def InsertPassLocks (HashKey : K → Nat) (t : ExtendibleHash K V) (key : K) : List LockEvent :=
  let bucket_idx := GetIndexOfBuckets HashKey t key
  let current_bucket := t.slot bucket_idx
  let b := t.heap current_bucket
  if (mapFind b.map_k key).isSome ∨ b.map_k.length < t.bucket_size then
    GetIndexOfBucketsLocks
      ++ [LockEvent.lock (Latch.latch_bucket current_bucket),
          LockEvent.unlock (Latch.latch_bucket current_bucket)]
  else
    GetIndexOfBucketsLocks
      ++ [LockEvent.lock (Latch.latch_bucket current_bucket),
          LockEvent.lock Latch.latch_table,
          LockEvent.unlock Latch.latch_table,
          LockEvent.unlock (Latch.latch_bucket current_bucket)]

/-- The lock events of `Insert(key, value)`, pass after pass (`none` as for
`Insert`). -/
def InsertLocks (HashKey : K → Nat) :
    Nat → ExtendibleHash K V → K → V → Option (List LockEvent)
  | 0, _, _, _ => none
  | fuel + 1, t, key, value =>
    match InsertPass HashKey t key value with
    | Pass.stored _ => some (InsertPassLocks HashKey t key)
    | Pass.split t1 =>
      (InsertLocks HashKey fuel t1 key value).map (InsertPassLocks HashKey t key ++ ·)
    | Pass.undefined => none

/-- Whether a `latch_bucket` is locked while `latch_table` is held, in a
sequence of lock events of one thread that holds the mutexes `held` before. -/
def bucketUnderTable : List Latch → List LockEvent → Bool
  | _, [] => false
  | held, LockEvent.lock Latch.latch_table :: rest =>
    bucketUnderTable (Latch.latch_table :: held) rest
  | held, LockEvent.lock (Latch.latch_bucket a) :: rest =>
    decide (Latch.latch_table ∈ held) || bucketUnderTable (Latch.latch_bucket a :: held) rest
  | held, LockEvent.unlock m :: rest => bucketUnderTable (held.erase m) rest

/-- Whether `latch_table` is locked while a `latch_bucket` is held, in a
sequence of lock events of one thread that holds the mutexes `held` before. -/
def tableUnderBucket : List Latch → List LockEvent → Bool
  | _, [] => false
  | held, LockEvent.lock Latch.latch_table :: rest =>
    held.any (fun m => decide (m ≠ Latch.latch_table))
      || tableUnderBucket (Latch.latch_table :: held) rest
  | held, LockEvent.lock (Latch.latch_bucket a) :: rest =>
    tableUnderBucket (Latch.latch_bucket a :: held) rest
  | held, LockEvent.unlock m :: rest => tableUnderBucket (held.erase m) rest

/-- A thread inside an operation: the mutexes it holds and the lock events it
has still to perform. -/
structure Thread where
  held : List Latch
  todo : List LockEvent

/-- The thread `me` performs its next lock event, `other` being the other
thread; `none` when it has none left, or has to wait because the mutex to lock
is held. -/
def Thread.step (me other : Thread) : Option Thread :=
  match me.todo with
  | [] => none
  | LockEvent.lock m :: rest =>
    if m ∈ me.held ∨ m ∈ other.held then none else some ⟨m :: me.held, rest⟩
  | LockEvent.unlock m :: rest => some ⟨me.held.erase m, rest⟩

/-- Two threads run under a schedule: `true` lets the first thread perform its
next lock event, `false` the second; `none` when the scheduled thread cannot
perform it. -/
def runThreads : List Bool → Thread × Thread → Option (Thread × Thread)
  | [], s => some s
  | true :: rest, (a, b) =>
    match a.step b with
    | some a1 => runThreads rest (a1, b)
    | none => none
  | false :: rest, (a, b) =>
    match b.step a with
    | some b1 => runThreads rest (a, b1)
    | none => none

/-- Both threads have lock events left and neither can perform its next one. -/
def deadlocked (s : Thread × Thread) : Bool :=
  !s.1.todo.isEmpty && !s.2.todo.isEmpty && (s.1.step s.2).isNone && (s.2.step s.1).isNone

end HashLocks

/-! # Theorems -/

set_option linter.unusedSectionVars false

/-! ## std::map -/

section MapLemmas

variable {K V : Type} [LinearOrder K]

theorem mapFind_mapAssign (m : List (K × V)) (k : K) (v : V) (k' : K) :
    mapFind (mapAssign m k v) k' = if k = k' then some v else mapFind m k' := by
  induction m with
  | nil => simp [mapAssign, mapFind]
  | cons p rest ih =>
    obtain ⟨a, b⟩ := p
    simp only [mapAssign]
    by_cases h1 : k < a
    · simp only [h1, if_true, mapFind]
    · by_cases h2 : k = a
      · subst h2
        simp only [h1, if_false, if_true, mapFind]
        by_cases h3 : k = k' <;> simp [h3]
      · simp only [h1, h2, if_false, mapFind, ih]
        by_cases h3 : k = k'
        · have : ¬ a = k' := fun e => h2 (h3.trans e.symm)
          simp [h3, this]
        · simp [h3]

theorem mapAssign_lower (a : K) (k : K) (v : V) (hak : a < k) (l : List (K × V))
    (hl : ∀ q ∈ l, a < q.1) : ∀ q ∈ mapAssign l k v, a < q.1 := by
  induction l with
  | nil =>
    intro q hq
    simp [mapAssign] at hq
    subst hq; exact hak
  | cons p2 l2 ih2 =>
    obtain ⟨a2, b2⟩ := p2
    intro q hq
    simp only [mapAssign] at hq
    split_ifs at hq with g1 g2
    · rcases List.mem_cons.1 hq with rfl | hq
      · exact hak
      · exact hl q hq
    · rcases List.mem_cons.1 hq with rfl | hq
      · exact hl (a2, b2) (List.mem_cons_self _ _)
      · exact hl q (List.mem_cons_of_mem _ hq)
    · rcases List.mem_cons.1 hq with rfl | hq
      · exact hl (a2, b2) (List.mem_cons_self _ _)
      · exact ih2 (fun q hq => hl q (List.mem_cons_of_mem _ hq)) q hq

theorem mapSorted_mapAssign (m : List (K × V)) (k : K) (v : V) (h : MapSorted m) :
    MapSorted (mapAssign m k v) := by
  induction m with
  | nil => simp [mapAssign, MapSorted]
  | cons p rest ih =>
    obtain ⟨a, b⟩ := p
    unfold MapSorted at h ih ⊢
    rw [List.pairwise_cons] at h
    simp only [mapAssign]
    split_ifs with h1 h2
    · refine List.Pairwise.cons ?_ (List.Pairwise.cons h.1 h.2)
      intro q hq
      rcases List.mem_cons.1 hq with rfl | hq
      · exact h1
      · exact lt_trans h1 (h.1 q hq)
    · exact List.Pairwise.cons h.1 h.2
    · refine List.Pairwise.cons ?_ (ih h.2)
      have hak : a < k := lt_of_le_of_ne (not_lt.1 h1) (fun e => h2 e.symm)
      exact mapAssign_lower a k v hak rest h.1

theorem mapFind_eq_none_of_lt (m : List (K × V)) (k : K) (h : ∀ q ∈ m, k < q.1) :
    mapFind m k = none := by
  induction m with
  | nil => rfl
  | cons p rest ih =>
    obtain ⟨a, b⟩ := p
    have h1 : k < a := h (a, b) (List.mem_cons_self _ _)
    have h2 : ¬ a = k := fun e => absurd (e ▸ h1) (lt_irrefl _)
    simp only [mapFind, h2, if_false]
    exact ih (fun q hq => h q (List.mem_cons_of_mem _ hq))

theorem length_mapAssign (m : List (K × V)) (hs : MapSorted m) (k : K) (v : V) :
    (mapAssign m k v).length = if (mapFind m k).isSome then m.length else m.length + 1 := by
  induction m with
  | nil => simp [mapAssign, mapFind]
  | cons p rest ih =>
    obtain ⟨a, b⟩ := p
    unfold MapSorted at hs ih
    rw [List.pairwise_cons] at hs
    simp only [mapAssign, mapFind]
    by_cases h1 : k < a
    · have h2 : ¬ a = k := fun e => absurd (e ▸ h1) (lt_irrefl _)
      have h3 : mapFind rest k = none :=
        mapFind_eq_none_of_lt rest k (fun q hq => lt_trans h1 (hs.1 q hq))
      simp [h1, h2, h3]
    · by_cases h2 : k = a
      · subst h2
        simp [h1]
      · have h3 : ¬ a = k := fun e => h2 e.symm
        simp only [h1, h2, h3, if_false, List.length_cons, ih hs.2]
        split_ifs <;> rfl

theorem mapFind_eq_some_iff (m : List (K × V)) (hs : MapSorted m) (k : K) (v : V) :
    mapFind m k = some v ↔ (k, v) ∈ m := by
  induction m with
  | nil => simp [mapFind]
  | cons p rest ih =>
    obtain ⟨a, b⟩ := p
    unfold MapSorted at hs ih
    rw [List.pairwise_cons] at hs
    simp only [mapFind, List.mem_cons, Prod.mk.injEq]
    by_cases h : a = k
    · subst h
      simp only [if_true, Option.some.injEq, true_and]
      constructor
      · intro e; exact Or.inl e.symm
      · rintro (e | e)
        · exact e.symm
        · exact absurd (hs.1 _ e) (lt_irrefl _)
    · simp only [h, if_false, ih hs.2]
      constructor
      · intro e; exact Or.inr e
      · rintro (e | e)
        · exact absurd e.1.symm h
        · exact e

theorem mapFind_mapErase (m : List (K × V)) (hs : MapSorted m) (k k' : K) :
    mapFind (mapErase m k) k' = if k = k' then none else mapFind m k' := by
  induction m with
  | nil => simp [mapErase, mapFind]
  | cons p rest ih =>
    obtain ⟨a, b⟩ := p
    unfold MapSorted at hs ih
    rw [List.pairwise_cons] at hs
    simp only [mapErase]
    by_cases h : a = k
    · subst h
      simp only [if_true, mapFind]
      by_cases h3 : a = k'
      · subst h3
        simp only [if_true]
        exact mapFind_eq_none_of_lt rest a hs.1
      · simp [h3]
    · simp only [h, if_false, mapFind, ih hs.2]
      by_cases h3 : k = k'
      · have : ¬ a = k' := fun e => h (e.trans h3.symm)
        simp [h3, this]
      · simp [h3]

theorem mem_mapErase (m : List (K × V)) (k : K) : ∀ q ∈ mapErase m k, q ∈ m := by
  induction m with
  | nil => simp [mapErase]
  | cons p rest ih =>
    obtain ⟨a, b⟩ := p
    intro q hq
    simp only [mapErase] at hq
    split_ifs at hq with h
    · exact List.mem_cons_of_mem _ hq
    · rcases List.mem_cons.1 hq with rfl | hq
      · exact List.mem_cons_self _ _
      · exact List.mem_cons_of_mem _ (ih q hq)

theorem mapSorted_mapErase (m : List (K × V)) (k : K) (h : MapSorted m) :
    MapSorted (mapErase m k) := by
  induction m with
  | nil => simp [mapErase, MapSorted]
  | cons p rest ih =>
    obtain ⟨a, b⟩ := p
    unfold MapSorted at h ih ⊢
    rw [List.pairwise_cons] at h
    simp only [mapErase]
    split_ifs with h1
    · exact h.2
    · exact List.Pairwise.cons (fun q hq => h.1 q (mem_mapErase rest k q hq)) (ih h.2)

theorem mapErase_of_not_found (m : List (K × V)) (k : K) (h : mapFind m k = none) :
    mapErase m k = m := by
  induction m with
  | nil => rfl
  | cons p rest ih =>
    obtain ⟨a, b⟩ := p
    simp only [mapFind] at h
    by_cases h1 : a = k
    · simp [h1] at h
    · simp only [h1, if_false] at h
      simp only [mapErase, h1, if_false, ih h]

theorem length_mapErase (m : List (K × V)) (k : K) (h : (mapFind m k).isSome) :
    (mapErase m k).length + 1 = m.length := by
  induction m with
  | nil => simp [mapFind] at h
  | cons p rest ih =>
    obtain ⟨a, b⟩ := p
    simp only [mapFind] at h
    by_cases h1 : a = k
    · simp [mapErase, h1]
    · simp only [h1, if_false] at h
      simp only [mapErase, h1, if_false, List.length_cons, ih h]

end MapLemmas

/-! ## ExtendibleHash -/

section Bits

theorem mask_test (x d : Nat) : (x &&& 2 ^ d ≠ 0) ↔ x.testBit d = true := by
  rw [Nat.and_two_pow]
  cases h : x.testBit d
  · simp
  · simp

theorem index_mask (x g : Nat) : x &&& (2 ^ g - 1) = x % 2 ^ g :=
  Nat.and_pow_two_sub_one_eq_mod x g

theorem mod_two_pow_eq_iff (a b n : Nat) :
    a % 2 ^ n = b % 2 ^ n ↔ ∀ i < n, a.testBit i = b.testBit i := by
  constructor
  · intro h i hi
    have h1 := Nat.testBit_mod_two_pow a n i
    have h2 := Nat.testBit_mod_two_pow b n i
    rw [h] at h1
    rw [h1] at h2
    simpa [hi] using h2
  · intro h
    apply Nat.eq_of_testBit_eq
    intro i
    rw [Nat.testBit_mod_two_pow, Nat.testBit_mod_two_pow]
    by_cases hi : i < n
    · simp [hi, h i hi]
    · simp [hi]

theorem mod_succ_eq_iff (a b d : Nat) :
    a % 2 ^ (d + 1) = b % 2 ^ (d + 1) ↔ a % 2 ^ d = b % 2 ^ d ∧ a.testBit d = b.testBit d := by
  rw [mod_two_pow_eq_iff, mod_two_pow_eq_iff]
  constructor
  · intro h
    exact ⟨fun i hi => h i (by omega), h d (by omega)⟩
  · rintro ⟨h1, h2⟩ i hi
    rcases Nat.lt_succ_iff_lt_or_eq.1 hi with h | h
    · exact h1 i h
    · rw [h]; exact h2

theorem mod_mod_pow (x e g : Nat) (h : e ≤ g) : x % 2 ^ g % 2 ^ e = x % 2 ^ e :=
  Nat.mod_mod_of_dvd x (pow_dvd_pow 2 h)

theorem testBit_mod_pow (x d g : Nat) (h : d < g) : (x % 2 ^ g).testBit d = x.testBit d := by
  rw [Nat.testBit_mod_two_pow]
  simp [h]

theorem mod_eq_of_le (a b e g : Nat) (h : e ≤ g) (hab : a % 2 ^ g = b % 2 ^ g) :
    a % 2 ^ e = b % 2 ^ e := by
  rw [← mod_mod_pow a e g h, ← mod_mod_pow b e g h, hab]

end Bits

section Redistribute

variable {K V : Type} [LinearOrder K]

theorem mapAssign_append_of_lt (m : List (K × V)) (k : K) (v : V) (h : ∀ q ∈ m, q.1 < k) :
    mapAssign m k v = m ++ [(k, v)] := by
  induction m with
  | nil => rfl
  | cons p rest ih =>
    obtain ⟨a, b⟩ := p
    have h1 : a < k := h (a, b) (List.mem_cons_self _ _)
    have h2 : ¬ k < a := not_lt.2 (le_of_lt h1)
    have h3 : ¬ k = a := fun e => absurd (e ▸ h1) (lt_irrefl _)
    simp only [mapAssign, h2, h3, if_false, List.cons_append,
      ih (fun q hq => h q (List.mem_cons_of_mem _ hq))]

/-- What the redistribution loop computes when it is defined: the entries
without the mask bit stay, in order, and those with the bit are moved. -/
theorem redistribute_eq (HashKey : K → Nat) (mask : Nat) (kept rest moved : List (K × V))
    (res : List (K × V) × List (K × V))
    (hs : MapSorted (moved ++ rest))
    (h : redistribute HashKey mask kept rest moved = some res) :
    res.1 = kept ++ rest.filter (fun p => decide (HashKey p.1 &&& mask = 0))
    ∧ res.2 = moved ++ rest.filter (fun p => decide (HashKey p.1 &&& mask ≠ 0)) := by
  induction rest generalizing kept moved with
  | nil =>
    simp only [redistribute, Option.some.injEq] at h
    subst h
    simp
  | cons p rest ih =>
    obtain ⟨a, b⟩ := p
    simp only [redistribute] at h
    by_cases hb : HashKey a &&& mask ≠ 0
    · simp only [hb, if_true, ne_eq, not_false_eq_true] at h
      cases hk : kept.isEmpty with
      | true => rw [hk] at h; simp at h
      | false =>
        rw [hk] at h
        simp only [Bool.false_eq_true, if_false] at h
        have hlt : ∀ q ∈ moved, q.1 < a := by
          intro q hq
          unfold MapSorted at hs
          rw [List.pairwise_append] at hs
          exact hs.2.2 q hq (a, b) (List.mem_cons_self _ _)
        rw [mapAssign_append_of_lt moved a b hlt] at h
        have hs2 : MapSorted ((moved ++ [(a, b)]) ++ rest) := by
          simpa using hs
        have := ih kept (moved ++ [(a, b)]) hs2 h
        simp only [List.filter_cons, hb, decide_True, decide_False, if_true, if_false,
          Bool.false_eq_true, not_false_eq_true, ne_eq]
        simpa using this
    · simp only [hb, if_false] at h
      have hs2 : MapSorted (moved ++ rest) := by
        unfold MapSorted at hs ⊢
        rw [List.pairwise_append] at hs ⊢
        refine ⟨hs.1, (List.pairwise_cons.1 hs.2.1).2, ?_⟩
        intro q hq q2 hq2
        exact hs.2.2 q hq q2 (List.mem_cons_of_mem _ hq2)
      have := ih (kept ++ [(a, b)]) moved hs2 h
      have hb' : HashKey a &&& mask = 0 := not_not.1 hb
      simp only [List.filter_cons, hb', decide_True, if_true, ne_eq, not_true_eq_false,
        decide_False, Bool.false_eq_true, if_false]
      simpa using this

/-- The redistribution loop is defined exactly when the map is empty or its
first entry stays. -/
theorem redistribute_isSome_iff (HashKey : K → Nat) (mask : Nat) (m : List (K × V)) :
    (redistribute HashKey mask [] m []).isSome
      ↔ ∀ p ∈ m.head?, HashKey p.1 &&& mask = 0 := by
  have key : ∀ (rest kept moved : List (K × V)), kept ≠ [] →
      (redistribute HashKey mask kept rest moved).isSome := by
    intro rest
    induction rest with
    | nil => intro kept moved _; rfl
    | cons p rest ih =>
      obtain ⟨a, b⟩ := p
      intro kept moved hk
      simp only [redistribute]
      have hke : kept.isEmpty = false := by
        cases kept with
        | nil => exact absurd rfl hk
        | cons _ _ => rfl
      by_cases h1 : HashKey a &&& mask ≠ 0
      · simp only [h1, hke, ne_eq, not_false_eq_true, if_true, Bool.false_eq_true, if_false]
        exact ih kept _ hk
      · simp only [h1, if_false]
        exact ih _ _ (by simp)
  cases m with
  | nil => simp [redistribute]
  | cons p rest =>
    obtain ⟨a, b⟩ := p
    simp only [redistribute, List.head?_cons, Option.mem_def, Option.some.injEq, forall_eq',
      List.isEmpty_nil, if_true, List.nil_append]
    by_cases h1 : HashKey a &&& mask = 0
    · simp only [h1, ne_eq, not_true_eq_false, if_false, iff_true]
      exact key rest _ _ (by simp)
    · simp [h1]

end Redistribute

section MapFilter

variable {K V : Type} [LinearOrder K]

theorem mapFind_filter (m : List (K × V)) (P : K → Bool) (k : K) :
    mapFind (m.filter (fun p => P p.1)) k = if P k then mapFind m k else none := by
  induction m with
  | nil => simp [mapFind]
  | cons p rest ih =>
    obtain ⟨a, b⟩ := p
    simp only [List.filter_cons]
    by_cases h : P a = true
    · simp only [h, if_true, mapFind, ih]
      by_cases e : a = k
      · subst e; simp [h]
      · simp [e]
    · simp only [h, Bool.false_eq_true, if_false, ih, mapFind]
      by_cases e : a = k
      · subst e; simp [h]
      · simp [e]

theorem mapSorted_filter (m : List (K × V)) (P : K × V → Bool) (h : MapSorted m) :
    MapSorted (m.filter P) :=
  List.Pairwise.sublist (List.filter_sublist m) h

theorem mem_mapAssign (m : List (K × V)) (k : K) (v : V) (q : K × V)
    (h : q ∈ mapAssign m k v) : q = (k, v) ∨ q ∈ m := by
  induction m with
  | nil => simp [mapAssign] at h; exact Or.inl h
  | cons p rest ih =>
    obtain ⟨a, b⟩ := p
    simp only [mapAssign] at h
    split_ifs at h with h1 h2
    · rcases List.mem_cons.1 h with e | e
      · exact Or.inl e
      · exact Or.inr e
    · rcases List.mem_cons.1 h with e | e
      · subst h2; exact Or.inl e
      · exact Or.inr (List.mem_cons_of_mem _ e)
    · rcases List.mem_cons.1 h with e | e
      · exact Or.inr (e ▸ List.mem_cons_self _ _)
      · rcases ih e with e2 | e2
        · exact Or.inl e2
        · exact Or.inr (List.mem_cons_of_mem _ e2)

end MapFilter

section SlotLemmas

variable {K V : Type} [LinearOrder K]

theorem getD_double (l : List Nat) (i : Nat) (hi : i < 2 * l.length) :
    (l ++ l).getD i 0 = l.getD (i % l.length) 0 := by
  by_cases h : i < l.length
  · rw [List.getD_append _ _ _ _ h, Nat.mod_eq_of_lt h]
  · have h1 : l.length ≤ i := not_lt.1 h
    rw [List.getD_append_right _ _ _ _ h1, Nat.mod_eq_sub_mod h1, Nat.mod_eq_of_lt (by omega)]

theorem getD_repoint (l : List Nat) (cur new mask i : Nat) (hi : i < l.length) :
    (repoint l cur new mask).getD i 0
      = if l.getD i 0 = cur ∧ i &&& mask ≠ 0 then new else l.getD i 0 := by
  unfold repoint
  rw [List.getD_eq_getElem _ _ (by simpa using hi), List.getElem_mapIdx,
    List.getD_eq_getElem _ _ hi]

theorem length_repoint (l : List Nat) (cur new mask : Nat) :
    (repoint l cur new mask).length = l.length := by
  unfold repoint; simp

end SlotLemmas

section Split

variable {K V : Type} [LinearOrder K]

theorem filter_mask_set (HashKey : K → Nat) (d : Nat) (m : List (K × V)) :
    m.filter (fun p => decide (HashKey p.1 &&& 2 ^ d ≠ 0))
      = m.filter (fun p => (HashKey p.1).testBit d) := by
  apply List.filter_congr
  intro p _
  cases h : (HashKey p.1).testBit d
  · have := (mask_test (HashKey p.1) d).not.2 (by simp [h])
    simpa using this
  · have := (mask_test (HashKey p.1) d).2 h
    simpa using this

theorem filter_mask_clear (HashKey : K → Nat) (d : Nat) (m : List (K × V)) :
    m.filter (fun p => decide (HashKey p.1 &&& 2 ^ d = 0))
      = m.filter (fun p => !(HashKey p.1).testBit d) := by
  apply List.filter_congr
  intro p _
  cases h : (HashKey p.1).testBit d
  · have := (mask_test (HashKey p.1) d).not.2 (by simp [h])
    simpa using this
  · have := (mask_test (HashKey p.1) d).2 h
    simpa using this

theorem slot_eq_getD (t : ExtendibleHash K V) (i : Nat) : t.slot i = t.buckets.getD i 0 := rfl

/-- The split of the code is a split as described by `IsSplit`. -/
theorem splitBucket_isSplit (HashKey : K → Nat) (t t1 : ExtendibleHash K V) (cur : Nat)
    (hlen : t.buckets.length = 2 ^ t.global_depth)
    (hs : MapSorted (t.heap cur).map_k)
    (hcur : cur < t.next_addr)
    (h : splitBucket HashKey t cur = some t1) : IsSplit HashKey t cur t1 := by
  unfold splitBucket at h
  simp only at h
  cases hr : redistribute HashKey (2 ^ (t.heap cur).local_depth) [] (t.heap cur).map_k [] with
  | none => rw [hr] at h; exact Option.noConfusion h
  | some res =>
    obtain ⟨kept, moved⟩ := res
    rw [hr] at h
    simp only [Option.some.injEq] at h
    obtain ⟨hk, hm⟩ := redistribute_eq HashKey _ [] _ [] _ (by simpa using hs) hr
    simp only [List.nil_append] at hk hm
    rw [filter_mask_clear] at hk
    rw [filter_mask_set] at hm
    have hglen : (grow t.buckets ((t.heap cur).local_depth + 1) t.global_depth).length
        = 2 ^ (if (t.heap cur).local_depth + 1 > t.global_depth then t.global_depth + 1
            else t.global_depth) := by
      unfold grow
      split_ifs with h1
      · rw [List.length_append, hlen, pow_succ]; omega
      · exact hlen
    have hgget : ∀ i, i < (grow t.buckets ((t.heap cur).local_depth + 1) t.global_depth).length →
        (grow t.buckets ((t.heap cur).local_depth + 1) t.global_depth).getD i 0
          = t.buckets.getD (i % 2 ^ t.global_depth) 0 := by
      intro i hi
      unfold grow at hi ⊢
      split_ifs at hi ⊢ with h1
      · rw [getD_double _ _ (by rw [List.length_append] at hi; omega), hlen]
      · rw [Nat.mod_eq_of_lt (by omega)]
    subst h
    constructor
    · rfl
    · rfl
    · rfl
    · rfl
    · show (repoint _ _ _ _).length = _
      rw [length_repoint, hglen]
    · intro i hi
      show (repoint _ _ _ _).getD i 0 = _
      have hi2 : i < (grow t.buckets ((t.heap cur).local_depth + 1) t.global_depth).length := by
        rw [hglen]; exact hi
      rw [getD_repoint _ _ _ _ _ hi2, hgget i hi2, slot_eq_getD]
      simp only [mask_test]
    · show Function.update _ _ _ _ = _
      rw [Function.update_same, hm]
    · show Function.update _ _ _ _ = _
      rw [Function.update_noteq (Nat.ne_of_lt hcur), Function.update_same, hk]
    · intro a h1 h2
      show Function.update _ _ _ _ = _
      rw [Function.update_noteq h2, Function.update_noteq h1]

end Split

section SplitInv

variable {K V : Type} [LinearOrder K]

theorem bucketAt_eq (t : ExtendibleHash K V) (i : Nat) : t.bucketAt i = t.heap (t.slot i) := rfl

/-- The three kinds of slot after a split. -/
theorem split_cases (HashKey : K → Nat) (t t1 : ExtendibleHash K V) (cur : Nat)
    (hi : Inv0 HashKey t) (hsp : IsSplit HashKey t cur t1)
    (i : Nat) (hlt : i < 2 ^ t1.global_depth) :
    (t.slot (i % 2 ^ t.global_depth) ≠ cur ∧ t1.slot i = t.slot (i % 2 ^ t.global_depth)
      ∧ t1.bucketAt i = t.bucketAt (i % 2 ^ t.global_depth))
    ∨ (t.slot (i % 2 ^ t.global_depth) = cur ∧ i.testBit (t.heap cur).local_depth = false
      ∧ t1.slot i = cur
      ∧ t1.bucketAt i = ⟨(t.heap cur).local_depth + 1,
          (t.heap cur).map_k.filter (fun p => !(HashKey p.1).testBit (t.heap cur).local_depth)⟩)
    ∨ (t.slot (i % 2 ^ t.global_depth) = cur ∧ i.testBit (t.heap cur).local_depth = true
      ∧ t1.slot i = t.next_addr
      ∧ t1.bucketAt i = ⟨(t.heap cur).local_depth + 1,
          (t.heap cur).map_k.filter (fun p => (HashKey p.1).testBit (t.heap cur).local_depth)⟩) := by
  have hs := hsp.slot i hlt
  have hm : i % 2 ^ t.global_depth < 2 ^ t.global_depth := Nat.mod_lt _ (Nat.two_pow_pos _)
  by_cases h1 : t.slot (i % 2 ^ t.global_depth) = cur
  · cases h2 : i.testBit (t.heap cur).local_depth
    · right; left
      have : t1.slot i = cur := by rw [hs]; simp [h1, h2]
      refine ⟨h1, rfl, this, ?_⟩
      rw [bucketAt_eq, this, hsp.heap_cur]
    · right; right
      have : t1.slot i = t.next_addr := by rw [hs]; simp [h1, h2]
      refine ⟨h1, rfl, this, ?_⟩
      rw [bucketAt_eq, this, hsp.heap_new]
  · left
    have : t1.slot i = t.slot (i % 2 ^ t.global_depth) := by rw [hs]; simp [h1]
    refine ⟨h1, this, ?_⟩
    rw [bucketAt_eq, this, hsp.heap_other _ h1 (Nat.ne_of_lt (hi.alloc _ hm))]
    rfl

theorem split_depth_facts (HashKey : K → Nat) (t t1 : ExtendibleHash K V) (cur : Nat)
    (hd : (t.heap cur).local_depth ≤ t.global_depth) (hsp : IsSplit HashKey t cur t1) :
    t.global_depth ≤ t1.global_depth ∧ (t.heap cur).local_depth + 1 ≤ t1.global_depth := by
  have := hsp.gd
  split_ifs at this with h <;> omega

/-- A split preserves the structural invariant. -/
theorem inv0_split (HashKey : K → Nat) (t t1 : ExtendibleHash K V) (idx : Nat)
    (hi : Inv0 HashKey t) (hidx : idx < 2 ^ t.global_depth)
    (hsp : IsSplit HashKey t (t.slot idx) t1) : Inv0 HashKey t1 := by
  have hcur : t.slot idx < t.next_addr := hi.alloc idx hidx
  have hd : (t.heap (t.slot idx)).local_depth ≤ t.global_depth := hi.depth idx hidx
  obtain ⟨hg, hg1⟩ := split_depth_facts HashKey t t1 _ hd hsp
  have hmod : ∀ i, i % 2 ^ t.global_depth < 2 ^ t.global_depth :=
    fun i => Nat.mod_lt _ (Nat.two_pow_pos _)
  have hcases := split_cases HashKey t t1 _ hi hsp
  -- agreement of old slots, in terms of the new indices
  have hold : ∀ i j, (t.slot (i % 2 ^ t.global_depth) = t.slot (j % 2 ^ t.global_depth) ↔
      i % 2 ^ (t.bucketAt (i % 2 ^ t.global_depth)).local_depth
        = j % 2 ^ (t.bucketAt (i % 2 ^ t.global_depth)).local_depth) := by
    intro i j
    rw [hi.share _ (hmod i) _ (hmod j),
      mod_mod_pow _ _ _ (hi.depth _ (hmod i)), mod_mod_pow _ _ _ (hi.depth _ (hmod i))]
  constructor
  · exact hsp.len
  · intro i hlt
    rw [hsp.addr]
    rcases hcases i hlt with ⟨-, h2, -⟩ | ⟨-, -, h2, -⟩ | ⟨-, -, h2, -⟩
    · rw [h2]; exact Nat.lt_succ_of_lt (hi.alloc _ (hmod i))
    · rw [h2]; exact Nat.lt_succ_of_lt hcur
    · rw [h2]; exact Nat.lt_succ_self _
  · intro i hlt
    rcases hcases i hlt with ⟨-, -, h3⟩ | ⟨-, -, -, h3⟩ | ⟨-, -, -, h3⟩
    · rw [h3]; exact le_trans (hi.depth _ (hmod i)) hg
    · rw [h3]; exact hg1
    · rw [h3]; exact hg1
  · intro i hlt j hlt2
    have hoij := hold i j
    rcases hcases i hlt with ⟨a1, a2, a3⟩ | ⟨a1, a2, a3, a4⟩ | ⟨a1, a2, a3, a4⟩
    · rw [a3]
      rcases hcases j hlt2 with ⟨b1, b2, b3⟩ | ⟨b1, b2, b3, b4⟩ | ⟨b1, b2, b3, b4⟩
      · rw [a2, b2]; exact hoij
      · rw [a2, b3, ← hoij, b1]
      · rw [a2, b3, ← hoij, b1]
        constructor
        · intro e
          exact absurd (e ▸ hi.alloc _ (hmod i)) (lt_irrefl _)
        · intro e; exact absurd e a1
    · rw [a4]
      simp only
      rw [bucketAt_eq, a1] at hoij
      rw [mod_succ_eq_iff, ← hoij, a3, a2]
      rcases hcases j hlt2 with ⟨b1, b2, b3⟩ | ⟨b1, b2, b3, b4⟩ | ⟨b1, b2, b3, b4⟩
      · rw [b2]
        constructor
        · intro e; exact absurd e.symm b1
        · intro e; exact absurd e.1.symm b1
      · rw [b3, b2, b1]; simp
      · rw [b3, b2, b1]
        constructor
        · intro e
          exact absurd (e ▸ hcur) (lt_irrefl _)
        · intro e; exact absurd e.2 (by simp)
    · rw [a4]
      simp only
      rw [bucketAt_eq, a1] at hoij
      rw [mod_succ_eq_iff, ← hoij, a3, a2]
      rcases hcases j hlt2 with ⟨b1, b2, b3⟩ | ⟨b1, b2, b3, b4⟩ | ⟨b1, b2, b3, b4⟩
      · rw [b2]
        constructor
        · intro e
          exact absurd (e ▸ hi.alloc _ (hmod j)) (lt_irrefl _)
        · intro e; exact absurd e.1.symm b1
      · rw [b3, b2, b1]
        constructor
        · intro e
          exact absurd (e ▸ hcur) (lt_irrefl _)
        · intro e; exact absurd e.2 (by simp)
      · rw [b3, b2, b1]; simp
  · intro i hlt p hp
    rcases hcases i hlt with ⟨a1, a2, a3⟩ | ⟨a1, a2, a3, a4⟩ | ⟨a1, a2, a3, a4⟩
    · rw [a3] at hp ⊢
      rw [hi.home _ (hmod i) p hp, mod_mod_pow _ _ _ (hi.depth _ (hmod i))]
    · rw [a4] at hp ⊢
      simp only at hp ⊢
      rw [List.mem_filter] at hp
      have h5 := hi.home _ (hmod i) p (by rw [bucketAt_eq, a1]; exact hp.1)
      rw [bucketAt_eq, a1, mod_mod_pow _ _ _ hd] at h5
      rw [mod_succ_eq_iff]
      refine ⟨h5, ?_⟩
      rw [a2]
      simpa using hp.2
    · rw [a4] at hp ⊢
      simp only at hp ⊢
      rw [List.mem_filter] at hp
      have h5 := hi.home _ (hmod i) p (by rw [bucketAt_eq, a1]; exact hp.1)
      rw [bucketAt_eq, a1, mod_mod_pow _ _ _ hd] at h5
      rw [mod_succ_eq_iff]
      refine ⟨h5, ?_⟩
      rw [a2]
      exact hp.2
  · intro i hlt
    rcases hcases i hlt with ⟨a1, a2, a3⟩ | ⟨a1, a2, a3, a4⟩ | ⟨a1, a2, a3, a4⟩
    · rw [a3]; exact hi.sorted _ (hmod i)
    · rw [a4]
      have := hi.sorted _ (hmod i)
      rw [bucketAt_eq, a1] at this
      exact mapSorted_filter _ _ this
    · rw [a4]
      have := hi.sorted _ (hmod i)
      rw [bucketAt_eq, a1] at this
      exact mapSorted_filter _ _ this
  · intro i hlt
    rw [hsp.size]
    rcases hcases i hlt with ⟨a1, a2, a3⟩ | ⟨a1, a2, a3, a4⟩ | ⟨a1, a2, a3, a4⟩
    · rw [a3]; exact hi.cap _ (hmod i)
    · rw [a4]
      have := hi.cap _ (hmod i)
      rw [bucketAt_eq, a1] at this
      exact le_trans (List.length_filter_le _ _) this
    · rw [a4]
      have := hi.cap _ (hmod i)
      rw [bucketAt_eq, a1] at this
      exact le_trans (List.length_filter_le _ _) this

/-- A split does not change what `Find` returns, for any key. -/
theorem lookup_split (HashKey : K → Nat) (t t1 : ExtendibleHash K V) (idx : Nat)
    (hi : Inv0 HashKey t) (hidx : idx < 2 ^ t.global_depth)
    (hsp : IsSplit HashKey t (t.slot idx) t1) (key : K) :
    lookup HashKey t1 key = lookup HashKey t key := by
  have hcur : t.slot idx < t.next_addr := hi.alloc idx hidx
  have hd : (t.heap (t.slot idx)).local_depth ≤ t.global_depth := hi.depth idx hidx
  obtain ⟨hg, hg1⟩ := split_depth_facts HashKey t t1 _ hd hsp
  unfold lookup
  rw [index_mask, index_mask]
  have hlt : HashKey key % 2 ^ t1.global_depth < 2 ^ t1.global_depth :=
    Nat.mod_lt _ (Nat.two_pow_pos _)
  have hmm : HashKey key % 2 ^ t1.global_depth % 2 ^ t.global_depth
      = HashKey key % 2 ^ t.global_depth := mod_mod_pow _ _ _ hg
  have hbit : (HashKey key % 2 ^ t1.global_depth).testBit (t.heap (t.slot idx)).local_depth
      = (HashKey key).testBit (t.heap (t.slot idx)).local_depth :=
    testBit_mod_pow _ _ _ (by omega)
  rcases split_cases HashKey t t1 _ hi hsp _ hlt with
    ⟨a1, a2, a3⟩ | ⟨a1, a2, a3, a4⟩ | ⟨a1, a2, a3, a4⟩
  · rw [a3, hmm]
  · rw [a4]
    rw [hmm] at a1
    rw [hbit] at a2
    simp only
    rw [mapFind_filter (t.heap (t.slot idx)).map_k
      (fun k => !(HashKey k).testBit (t.heap (t.slot idx)).local_depth) key]
    simp only [a2, Bool.not_false, if_true]
    rw [bucketAt_eq, a1]
  · rw [a4]
    rw [hmm] at a1
    rw [hbit] at a2
    simp only
    rw [mapFind_filter (t.heap (t.slot idx)).map_k
      (fun k => (HashKey k).testBit (t.heap (t.slot idx)).local_depth) key]
    simp only [a2, if_true]
    rw [bucketAt_eq, a1]

end SplitInv

section Update

variable {K V : Type} [LinearOrder K]

theorem bucketAt_setMap (t : ExtendibleHash K V) (a : Nat) (m : List (K × V)) (i : Nat) :
    (t.setMap a m).bucketAt i
      = if t.slot i = a then ⟨(t.heap a).local_depth, m⟩ else t.bucketAt i := by
  show Function.update t.heap a _ (t.slot i) = _
  by_cases h : t.slot i = a
  · rw [h, Function.update_same]; simp
  · rw [Function.update_noteq h]; simp [h, bucketAt_eq]

/-- Replacing the entries of the bucket of slot `idx` by entries that belong
there preserves the structural invariant. -/
theorem inv0_update (HashKey : K → Nat) (t : ExtendibleHash K V) (idx : Nat) (m : List (K × V))
    (hi : Inv0 HashKey t) (hidx : idx < 2 ^ t.global_depth)
    (hm : ∀ p ∈ m, p ∈ (t.bucketAt idx).map_k ∨ HashKey p.1 % 2 ^ t.global_depth = idx)
    (hs : MapSorted m) (hc : m.length ≤ t.bucket_size) :
    Inv0 HashKey (t.setMap (t.slot idx) m) := by
  have hb : ∀ i, (t.setMap (t.slot idx) m).bucketAt i
      = if t.slot i = t.slot idx then ⟨(t.heap (t.slot idx)).local_depth, m⟩ else t.bucketAt i :=
    fun i => bucketAt_setMap t _ m i
  have hld : ∀ i, ((t.setMap (t.slot idx) m).bucketAt i).local_depth
      = (t.bucketAt i).local_depth := by
    intro i
    rw [hb]
    split_ifs with h
    · rw [bucketAt_eq, h]
    · rfl
  constructor
  · exact hi.len
  · exact hi.alloc
  · intro i hlt
    rw [hld]
    exact hi.depth i hlt
  · intro i hlt j hlt2
    rw [hld]
    exact hi.share i hlt j hlt2
  · intro i hlt p hp
    rw [hld]
    rw [hb] at hp
    split_ifs at hp with h
    · simp only at hp
      rcases hm p hp with h1 | h1
      · have := hi.home idx hidx p h1
        have e := (hi.share idx hidx i hlt).1 h.symm
        rw [bucketAt_eq, ← h, ← bucketAt_eq] at this e
        rw [this, e]
      · have e := (hi.share i hlt idx hidx).1 h
        rw [e, ← h1, mod_mod_pow _ _ _ (hi.depth i hlt)]
    · exact hi.home i hlt p hp
  · intro i hlt
    rw [hb]
    split_ifs with h
    · exact hs
    · exact hi.sorted i hlt
  · intro i hlt
    rw [hb]
    split_ifs with h
    · exact hc
    · exact hi.cap i hlt

theorem lookup_eq (HashKey : K → Nat) (t : ExtendibleHash K V) (key : K) :
    lookup HashKey t key = mapFind (t.heap (t.slot (HashKey key % 2 ^ t.global_depth))).map_k key := by
  unfold lookup
  rw [index_mask]
  rfl

theorem lookup_update (HashKey : K → Nat) (t : ExtendibleHash K V) (idx : Nat) (m : List (K × V))
    (key : K) :
    lookup HashKey (t.setMap (t.slot idx) m) key
    = if t.slot (HashKey key % 2 ^ t.global_depth) = t.slot idx then mapFind m key
      else lookup HashKey t key := by
  rw [lookup_eq, lookup_eq]
  show mapFind ((t.setMap (t.slot idx) m).bucketAt (HashKey key % 2 ^ t.global_depth)).map_k key = _
  rw [bucketAt_setMap]
  split_ifs with h <;> rfl

theorem find_eq (HashKey : K → Nat) (t : ExtendibleHash K V) (key : K) (value : V) :
    Find HashKey t key value =
      match lookup HashKey t key with
      | some v => (true, v)
      | none => (false, value) := rfl

end Update

section InsertLoop

variable {K V : Type} [LinearOrder K]

/-- What a pass of the loop of `Insert` that stores the entry does. -/
theorem insertPass_stored (HashKey : K → Nat) (t t1 : ExtendibleHash K V) (key : K) (value : V)
    (hi : Inv0 HashKey t) (h : InsertPass HashKey t key value = Pass.stored t1) :
    Inv0 HashKey t1 ∧ t1.global_depth ≤ 30 ∧ t1.bucket_size = t.bucket_size
      ∧ t1.global_depth = t.global_depth ∧ t1.bucket_number = t.bucket_number
      ∧ t1.buckets = t.buckets ∧ t1.next_addr = t.next_addr
      ∧ lookup HashKey t1 key = some value
      ∧ (∀ k, k ≠ key → lookup HashKey t1 k = lookup HashKey t k)
      ∧ t1 = t.setMap (t.slot (HashKey key % 2 ^ t.global_depth))
          (mapAssign (t.heap (t.slot (HashKey key % 2 ^ t.global_depth))).map_k key value)
      ∧ ((mapFind (t.heap (t.slot (HashKey key % 2 ^ t.global_depth))).map_k key).isSome = true
          ∨ (t.heap (t.slot (HashKey key % 2 ^ t.global_depth))).map_k.length < t.bucket_size) := by
  unfold InsertPass at h
  by_cases hg : 31 ≤ t.global_depth
  · simp [hg] at h
  · simp only [hg, if_false, GetIndexOfBuckets, index_mask] at h
    have hidx : HashKey key % 2 ^ t.global_depth < 2 ^ t.global_depth :=
      Nat.mod_lt _ (Nat.two_pow_pos _)
    split_ifs at h with hc
    · simp only [Pass.stored.injEq] at h
      subst h
      have hso := hi.sorted _ hidx
      rw [bucketAt_eq] at hso
      refine ⟨?_, by show t.global_depth ≤ 30; omega, rfl, rfl, rfl, rfl, rfl, ?_, ?_, rfl, hc⟩
      · apply inv0_update HashKey t _ _ hi hidx
        · intro p hp
          rcases mem_mapAssign _ _ _ _ hp with e | e
          · right; rw [e]
          · left; exact e
        · exact mapSorted_mapAssign _ _ _ hso
        · rw [length_mapAssign _ hso]
          have hcap := hi.cap _ hidx
          rw [bucketAt_eq] at hcap
          split_ifs with h2
          · exact hcap
          · rcases hc with h3 | h3
            · exact absurd h3 h2
            · exact h3
      · rw [lookup_update]
        simp [mapFind_mapAssign]
      · intro k hk
        rw [lookup_update]
        split_ifs with h2
        · rw [mapFind_mapAssign, lookup_eq, h2]
          simp [Ne.symm hk]
        · rfl
    · cases hsp : splitBucket HashKey t (t.slot (HashKey key % 2 ^ t.global_depth)) with
      | none => rw [hsp] at h; simp at h
      | some t2 => rw [hsp] at h; simp at h

/-- What a pass of the loop of `Insert` that splits does. -/
theorem insertPass_split (HashKey : K → Nat) (t t1 : ExtendibleHash K V) (key : K) (value : V)
    (hi : Inv0 HashKey t) (h : InsertPass HashKey t key value = Pass.split t1) :
    IsSplit HashKey t (t.slot (HashKey key % 2 ^ t.global_depth)) t1
      ∧ t.global_depth ≤ 30
      ∧ (mapFind (t.heap (t.slot (HashKey key % 2 ^ t.global_depth))).map_k key) = none
      ∧ t.bucket_size ≤ (t.heap (t.slot (HashKey key % 2 ^ t.global_depth))).map_k.length := by
  unfold InsertPass at h
  by_cases hg : 31 ≤ t.global_depth
  · simp [hg] at h
  · simp only [hg, if_false, GetIndexOfBuckets, index_mask] at h
    have hidx : HashKey key % 2 ^ t.global_depth < 2 ^ t.global_depth :=
      Nat.mod_lt _ (Nat.two_pow_pos _)
    split_ifs at h with hc
    cases hsp : splitBucket HashKey t (t.slot (HashKey key % 2 ^ t.global_depth)) with
    | none => rw [hsp] at h; simp at h
    | some t2 =>
      rw [hsp] at h
      simp only [Pass.split.injEq] at h
      subst h
      have hso := hi.sorted _ hidx
      rw [bucketAt_eq] at hso
      rw [not_or] at hc
      refine ⟨splitBucket_isSplit HashKey t t2 _ hi.len hso (hi.alloc _ hidx) hsp, by omega, ?_, ?_⟩
      · have := hc.1
        cases hf : mapFind (t.heap (t.slot (HashKey key % 2 ^ t.global_depth))).map_k key with
        | none => rfl
        | some v => rw [hf] at this; simp at this
      · exact not_lt.1 hc.2

theorem insert_spec (HashKey : K → Nat) (fuel : Nat) (t t1 : ExtendibleHash K V) (key : K)
    (value : V) (hi : Inv0 HashKey t) (h : Insert HashKey fuel t key value = some t1) :
    Inv0 HashKey t1 ∧ t1.global_depth ≤ 30 ∧ t1.bucket_size = t.bucket_size
      ∧ t.global_depth ≤ t1.global_depth ∧ t.bucket_number ≤ t1.bucket_number
      ∧ lookup HashKey t1 key = some value
      ∧ (∀ k, k ≠ key → lookup HashKey t1 k = lookup HashKey t k) := by
  induction fuel generalizing t with
  | zero => simp [Insert] at h
  | succ n ih =>
    simp only [Insert] at h
    cases hp : InsertPass HashKey t key value with
    | stored t2 =>
      rw [hp] at h
      simp only [Option.some.injEq] at h
      subst h
      obtain ⟨h1, h2, h3, h4, h5, -, -, h6, h7, -⟩ := insertPass_stored HashKey t t2 key value hi hp
      exact ⟨h1, h2, h3, by omega, by omega, h6, h7⟩
    | split t2 =>
      rw [hp] at h
      obtain ⟨hsp, -⟩ := insertPass_split HashKey t t2 key value hi hp
      have hidx : HashKey key % 2 ^ t.global_depth < 2 ^ t.global_depth :=
        Nat.mod_lt _ (Nat.two_pow_pos _)
      have hi2 := inv0_split HashKey t t2 _ hi hidx hsp
      obtain ⟨h1, h2, h3, h4, h5, h6, h7⟩ := ih t2 hi2 h
      have hd := split_depth_facts HashKey t t2 _ (hi.depth _ hidx) hsp
      refine ⟨h1, h2, by rw [h3, hsp.size], by omega, by rw [hsp.number] at h5; omega, h6, ?_⟩
      intro k hk
      rw [h7 k hk, lookup_split HashKey t t2 _ hi hidx hsp]
    | undefined =>
      rw [hp] at h
      simp at h

end InsertLoop

section HashOps

variable {K V : Type} [LinearOrder K]

theorem inv0_init (HashKey : K → Nat) (size : Nat) :
    Inv0 HashKey (ExtendibleHash.init size : ExtendibleHash K V) := by
  have h0 : ∀ i, i < 2 ^ (ExtendibleHash.init size : ExtendibleHash K V).global_depth → i = 0 := by
    intro i hi
    have : i < 1 := hi
    omega
  constructor
  · rfl
  · intro i hi
    rw [h0 i hi]
    exact Nat.lt_succ_self 0
  · intro i _; exact Nat.le_refl _
  · intro i hi j hj
    rw [h0 i hi, h0 j hj]
    simp
  · intro i _ p hp
    simp [ExtendibleHash.init, ExtendibleHash.bucketAt] at hp
  · intro i _
    simp [ExtendibleHash.init, ExtendibleHash.bucketAt, MapSorted]
  · intro i _
    simp [ExtendibleHash.init, ExtendibleHash.bucketAt]

theorem stored_iff (HashKey : K → Nat) (t : ExtendibleHash K V) (hi : Inv0 HashKey t)
    (key : K) : Stored t key ↔ (lookup HashKey t key).isSome = true := by
  have hidx : HashKey key % 2 ^ t.global_depth < 2 ^ t.global_depth :=
    Nat.mod_lt _ (Nat.two_pow_pos _)
  constructor
  · rintro ⟨i, hlt, hs⟩
    rw [hi.len] at hlt
    obtain ⟨v, hv⟩ := Option.isSome_iff_exists.1 hs
    have hmem := (mapFind_eq_some_iff _ (hi.sorted i hlt) key v).1 hv
    have hh := hi.home i hlt _ hmem
    have hsh := (hi.share i hlt _ hidx).2 (by
      rw [mod_mod_pow _ _ _ (hi.depth i hlt)]
      exact hh.symm)
    rw [lookup_eq, ← hsh, ← bucketAt_eq]
    exact hs
  · intro hs
    refine ⟨HashKey key % 2 ^ t.global_depth, by rw [hi.len]; exact hidx, ?_⟩
    rw [lookup_eq] at hs
    exact hs

theorem remove_spec (HashKey : K → Nat) (t : ExtendibleHash K V) (hi : Inv0 HashKey t) (key : K) :
    (Remove HashKey t key).1 = (lookup HashKey t key).isSome
    ∧ ((lookup HashKey t key).isSome = false → (Remove HashKey t key).2 = t)
    ∧ Inv0 HashKey (Remove HashKey t key).2
    ∧ (Remove HashKey t key).2.global_depth = t.global_depth
    ∧ (Remove HashKey t key).2.bucket_size = t.bucket_size
    ∧ (Remove HashKey t key).2.bucket_number = t.bucket_number
    ∧ (Remove HashKey t key).2.buckets = t.buckets
    ∧ lookup HashKey (Remove HashKey t key).2 key = none
    ∧ (∀ k, k ≠ key → lookup HashKey (Remove HashKey t key).2 k = lookup HashKey t k) := by
  have hidx : HashKey key % 2 ^ t.global_depth < 2 ^ t.global_depth :=
    Nat.mod_lt _ (Nat.two_pow_pos _)
  have hso := hi.sorted _ hidx
  rw [bucketAt_eq] at hso
  have hcap := hi.cap _ hidx
  rw [bucketAt_eq] at hcap
  unfold Remove
  simp only [index_mask]
  rw [lookup_eq]
  cases hf : mapFind (t.heap (t.slot (HashKey key % 2 ^ t.global_depth))).map_k key with
  | none =>
    refine ⟨rfl, fun _ => rfl, hi, rfl, rfl, rfl, rfl, ?_, fun _ _ => rfl⟩
    show lookup HashKey t key = none
    rw [lookup_eq, hf]
  | some v =>
    refine ⟨rfl, fun h => absurd h (by simp), ?_, rfl, rfl, rfl, rfl, ?_, ?_⟩
    · apply inv0_update HashKey t _ _ hi hidx
      · intro p hp
        left
        exact mem_mapErase _ _ p hp
      · exact mapSorted_mapErase _ _ hso
      · have := length_mapErase _ key (by rw [hf]; rfl)
        omega
    · rw [lookup_update]
      simp [mapFind_mapErase _ hso]
    · intro k hk
      rw [lookup_update]
      split_ifs with h2
      · rw [mapFind_mapErase _ hso, lookup_eq, h2]
        simp [Ne.symm hk]
      · rfl

/-- A run of `Insert` calls none of which decrements `begin()` keeps the
structural invariant, and `Find` then sees the last value inserted for each
key. -/
theorem insertAll_spec (HashKey : K → Nat) (fuel : Nat) (t t1 : ExtendibleHash K V)
    (ops : List (K × V)) (hi : Inv0 HashKey t) (h : insertAll HashKey fuel t ops = some t1) :
    Inv0 HashKey t1 ∧ t1.bucket_size = t.bucket_size
      ∧ (t.global_depth ≤ 30 → t1.global_depth ≤ 30)
      ∧ ∀ k, lookup HashKey t1 k =
        match lastValue k ops with
        | some v => some v
        | none => lookup HashKey t k := by
  induction ops generalizing t with
  | nil =>
    simp only [insertAll, Option.some.injEq] at h
    subst h
    exact ⟨hi, rfl, fun hg => hg, fun k => rfl⟩
  | cons p rest ih =>
    obtain ⟨key, value⟩ := p
    simp only [insertAll] at h
    cases hins : Insert HashKey fuel t key value with
    | none => rw [hins] at h; exact Option.noConfusion h
    | some t2 =>
      rw [hins] at h
      obtain ⟨h1, h2, h3, -, -, h6, h7⟩ := insert_spec HashKey fuel t t2 key value hi hins
      obtain ⟨h8, h9, h10, h11⟩ := ih t2 h1 h
      refine ⟨h8, by rw [h9, h3], fun _ => h10 h2, ?_⟩
      intro k
      rw [h11 k]
      simp only [lastValue]
      cases hl : lastValue k rest with
      | some v => rfl
      | none =>
        simp only
        by_cases e : key = k
        · subst e; simp [h6]
        · simp [e, h7 k (Ne.symm e)]

theorem lastValue_isSome (key : K) (ops : List (K × V)) (h : key ∈ ops.map Prod.fst) :
    ∃ v, lastValue key ops = some v := by
  induction ops with
  | nil => simp at h
  | cons p rest ih =>
    obtain ⟨a, b⟩ := p
    simp only [lastValue]
    cases hl : lastValue key rest with
    | some v => exact ⟨v, rfl⟩
    | none =>
      simp only [List.map_cons, List.mem_cons] at h
      rcases h with e | e
      · exact ⟨b, by simp [e]⟩
      · obtain ⟨v, hv⟩ := ih e
        rw [hl] at hv
        exact Option.noConfusion hv

end HashOps

section Count

theorem count_eq_range (n r : Nat) :
    ((List.range n).filter (fun j => decide (j = r))).length = if r < n then 1 else 0 := by
  induction n with
  | zero => simp
  | succ n ih =>
    rw [List.range_succ, List.filter_append, List.length_append, ih]
    by_cases h1 : r < n
    · have : ¬ n = r := by omega
      simp [h1, this, Nat.lt_succ_of_lt h1]
    · by_cases h2 : n = r
      · subst h2; simp
      · have : ¬ r < n + 1 := by omega
        simp [h1, h2, this]

theorem count_mod (e k r : Nat) (hr : r < 2 ^ e) :
    ((List.range (2 ^ (e + k))).filter (fun j => decide (j % 2 ^ e = r))).length = 2 ^ k := by
  induction k with
  | zero =>
    have : (List.range (2 ^ (e + 0))).filter (fun j => decide (j % 2 ^ e = r))
        = (List.range (2 ^ e)).filter (fun j => decide (j = r)) := by
      apply List.filter_congr
      intro j hj
      rw [List.mem_range, Nat.add_zero] at hj
      rw [Nat.mod_eq_of_lt hj]
    rw [this, count_eq_range]
    simp [hr]
  | succ k ih =>
    have e1 : 2 ^ (e + (k + 1)) = 2 ^ (e + k) + 2 ^ (e + k) := by
      rw [← Nat.add_assoc, pow_succ]; omega
    rw [e1, List.range_add, List.filter_append, List.length_append, ih, List.filter_map,
      List.length_map]
    have : (List.range (2 ^ (e + k))).filter ((fun j => decide (j % 2 ^ e = r)) ∘ fun x => 2 ^ (e + k) + x)
        = (List.range (2 ^ (e + k))).filter (fun j => decide (j % 2 ^ e = r)) := by
      apply List.filter_congr
      intro j _
      simp only [Function.comp]
      have : (2 ^ (e + k) + j) % 2 ^ e = j % 2 ^ e := by
        rw [pow_add, Nat.mul_add_mod]
      rw [this]
    rw [this, ih, pow_succ]
    omega

end Count

section HashHelpers

variable {K V : Type} [LinearOrder K]

theorem mapAssign_idem (m : List (K × V)) (k : K) (v : V) :
    mapAssign (mapAssign m k v) k v = mapAssign m k v := by
  induction m with
  | nil => simp [mapAssign]
  | cons p rest ih =>
    obtain ⟨a, b⟩ := p
    simp only [mapAssign]
    by_cases h1 : k < a
    · simp [h1, mapAssign]
    · by_cases h2 : k = a
      · subst h2
        simp [mapAssign]
      · simp [h1, h2, mapAssign, ih]

theorem setMap_setMap (t : ExtendibleHash K V) (a : Nat) (m m1 : List (K × V)) :
    (t.setMap a m).setMap a m1 = t.setMap a m1 := by
  unfold ExtendibleHash.setMap
  simp [Function.update_idem]

theorem insertPass_of_found (HashKey : K → Nat) (t : ExtendibleHash K V) (key : K) (value : V)
    (hg : t.global_depth ≤ 30)
    (hf : (mapFind (t.heap (t.slot (HashKey key % 2 ^ t.global_depth))).map_k key).isSome = true) :
    InsertPass HashKey t key value
      = Pass.stored (t.setMap (t.slot (HashKey key % 2 ^ t.global_depth))
          (mapAssign (t.heap (t.slot (HashKey key % 2 ^ t.global_depth))).map_k key value)) := by
  unfold InsertPass
  have : ¬ 31 ≤ t.global_depth := by omega
  simp only [this, if_false, GetIndexOfBuckets, index_mask, hf, true_or, if_true]

theorem find_of_lookup (HashKey : K → Nat) (t t1 : ExtendibleHash K V) (k : K)
    (h : lookup HashKey t1 k = lookup HashKey t k) (d : V) :
    Find HashKey t1 k d = Find HashKey t k d := by
  rw [find_eq, find_eq, h]

theorem heap_setMap (t : ExtendibleHash K V) (cur : Nat) (m : List (K × V)) (a : Nat) :
    (t.setMap cur m).heap a = if a = cur then ⟨(t.heap a).local_depth, m⟩ else t.heap a := by
  show Function.update t.heap _ _ a = _
  by_cases e : a = cur
  · rw [e, Function.update_same]; simp
  · rw [Function.update_noteq e]; simp [e]

end HashHelpers

section Followed

variable {K V : Type} [LinearOrder K]

/-- Where the redistribution loop is defined, following it beyond a decrement
of `begin()` changes nothing. -/
theorem redistributeWith_of_redistribute (HashKey : K → Nat) (mask : Nat) (resume : List Nat)
    (kept rest moved : List (K × V)) (res : List (K × V) × List (K × V))
    (h : redistribute HashKey mask kept rest moved = some res) :
    redistributeWith HashKey mask resume 0 kept rest moved = some res := by
  induction rest generalizing kept moved with
  | nil => simpa [redistribute, redistributeWith] using h
  | cons p rest ih =>
    obtain ⟨a, b⟩ := p
    simp only [redistribute] at h
    simp only [redistributeWith]
    by_cases hb : HashKey a &&& mask ≠ 0
    · simp only [hb, if_true, ne_eq, not_false_eq_true] at h ⊢
      cases hk : kept.isEmpty with
      | true => rw [hk] at h; simp at h
      | false =>
        rw [hk] at h
        simp only [Bool.false_eq_true, if_false] at h ⊢
        exact ih _ _ h
    · simp only [hb, if_false] at h ⊢
      exact ih _ _ h

theorem length_mapAssign_le (m : List (K × V)) (k : K) (v : V) :
    (mapAssign m k v).length ≤ m.length + 1 := by
  induction m with
  | nil => simp [mapAssign]
  | cons p rest ih =>
    obtain ⟨a, b⟩ := p
    simp only [mapAssign]
    split_ifs
    · simp
    · simp
    · simp only [List.length_cons]
      omega

/-- What the followed redistribution loop leaves, whatever positions the
iterator takes: the old bucket keeps some of its entries, in order, and every
entry of the new bucket was moved there. -/
theorem redistributeWith_spec (HashKey : K → Nat) (mask : Nat) (resume : List Nat) (skip : Nat)
    (kept rest moved : List (K × V)) (res : List (K × V) × List (K × V))
    (hs : MapSorted moved)
    (h : redistributeWith HashKey mask resume skip kept rest moved = some res) :
    List.Sublist res.1 (kept ++ rest) ∧ MapSorted res.2
      ∧ res.2.length ≤ moved.length + rest.length := by
  induction rest generalizing resume skip kept moved with
  | nil =>
    simp only [redistributeWith, Option.some.injEq] at h
    subst h
    exact ⟨by simp, hs, by simp⟩
  | cons p rest ih =>
    obtain ⟨a, b⟩ := p
    simp only [redistributeWith] at h
    cases skip with
    | succ j =>
      simp only at h
      obtain ⟨h1, h2, h3⟩ := ih resume j _ moved hs h
      refine ⟨by simpa using h1, h2, ?_⟩
      simp only [List.length_cons]
      omega
    | zero =>
      simp only at h
      by_cases hb : HashKey a &&& mask ≠ 0
      · simp only [hb, if_true, ne_eq, not_false_eq_true] at h
        have hlen := length_mapAssign_le moved a b
        cases hk : kept.isEmpty with
        | true =>
          rw [hk] at h
          simp only [if_true] at h
          cases hr : rest.isEmpty with
          | true => rw [hr] at h; simp at h
          | false =>
            rw [hr] at h
            simp only [Bool.false_eq_true, if_false] at h
            obtain ⟨h1, h2, h3⟩ := ih _ _ _ _ (mapSorted_mapAssign _ _ _ hs) h
            refine ⟨?_, h2, ?_⟩
            · simp only [List.nil_append] at h1
              exact h1.trans ((List.sublist_cons_self _ _).trans (List.sublist_append_right _ _))
            · simp only [List.length_cons]
              omega
        | false =>
          rw [hk] at h
          simp only [Bool.false_eq_true, if_false] at h
          obtain ⟨h1, h2, h3⟩ := ih _ _ _ _ (mapSorted_mapAssign _ _ _ hs) h
          refine ⟨?_, h2, ?_⟩
          · exact h1.trans (List.Sublist.append_left (List.sublist_cons_self _ _) _)
          · simp only [List.length_cons]
            omega
      · simp only [hb, if_false] at h
        obtain ⟨h1, h2, h3⟩ := ih _ _ _ _ hs h
        refine ⟨by simpa using h1, h2, ?_⟩
        simp only [List.length_cons]
        omega

theorem skeleton_slot (t : ExtendibleHash K V) (i : Nat) : t.skeleton.slot i = t.slot i := rfl

theorem skeleton_depth (t : ExtendibleHash K V) (i : Nat) :
    (t.skeleton.bucketAt i).local_depth = (t.bucketAt i).local_depth := rfl

theorem skeleton_setMap (t : ExtendibleHash K V) (a : Nat) (m : List (K × V)) :
    (t.setMap a m).skeleton = t.skeleton := by
  unfold ExtendibleHash.skeleton ExtendibleHash.setMap
  simp only
  congr 1
  funext x
  by_cases e : x = a
  · rw [e, Function.update_same]
  · rw [Function.update_noteq e]

/-- The slot vector of a table of the shape `Shape` satisfies the structural
invariant, whatever the hash function. -/
theorem inv0_skeleton (HashKey : K → Nat) (t : ExtendibleHash K V) (h : Shape t) :
    Inv0 HashKey t.skeleton := by
  constructor
  · exact h.len
  · exact h.alloc
  · exact h.depth
  · exact h.share
  · intro i _ p hp
    simp [ExtendibleHash.skeleton, ExtendibleHash.bucketAt] at hp
  · intro i _
    simp [ExtendibleHash.skeleton, ExtendibleHash.bucketAt, MapSorted]
  · intro i _
    simp [ExtendibleHash.skeleton, ExtendibleHash.bucketAt]

theorem shape_of_skeleton (HashKey : K → Nat) (t : ExtendibleHash K V)
    (h : Inv0 HashKey t.skeleton) (hs : ∀ a, MapSorted (t.heap a).map_k)
    (hc : ∀ a, (t.heap a).map_k.length ≤ t.bucket_size) : Shape t :=
  ⟨h.len, h.alloc, h.depth, h.share, hs, hc⟩

theorem shape_of_inv0 (HashKey : K → Nat) (t : ExtendibleHash K V) (h : Inv0 HashKey t)
    (hs : ∀ a, MapSorted (t.heap a).map_k)
    (hc : ∀ a, (t.heap a).map_k.length ≤ t.bucket_size) : Shape t :=
  ⟨h.len, h.alloc, h.depth, h.share, hs, hc⟩

theorem shape_init (size : Nat) : Shape (ExtendibleHash.init size : ExtendibleHash K V) :=
  shape_of_inv0 (fun _ => 0) _ (inv0_init _ size)
    (fun _ => by simp [ExtendibleHash.init, MapSorted])
    (fun _ => by simp [ExtendibleHash.init])

/-- Replacing the entries of a bucket by entries in key order that fit keeps
the shape. -/
theorem shape_setMap (t : ExtendibleHash K V) (a : Nat) (m : List (K × V)) (h : Shape t)
    (hs : MapSorted m) (hc : m.length ≤ t.bucket_size) : Shape (t.setMap a m) := by
  have hi := inv0_skeleton (fun _ => 0) t h
  rw [← skeleton_setMap t a m] at hi
  refine shape_of_skeleton (fun _ => 0) _ hi ?_ ?_
  · intro x
    rw [heap_setMap]
    split_ifs
    · exact hs
    · exact h.sorted x
  · intro x
    rw [heap_setMap]
    split_ifs
    · exact hc
    · exact h.cap x

/-- The followed split does to the slot vector, the depths and the counters
what the split does on the table without its entries. -/
theorem splitBucketWith_skeleton (HashKey : K → Nat) (resume : List Nat)
    (t t1 : ExtendibleHash K V) (cur : Nat)
    (h : splitBucketWith HashKey resume t cur = some t1) :
    splitBucket HashKey t.skeleton cur = some t1.skeleton := by
  unfold splitBucketWith at h
  simp only at h
  cases hr : redistributeWith HashKey (2 ^ (t.heap cur).local_depth) resume 0 []
      (t.heap cur).map_k [] with
  | none => rw [hr] at h; exact Option.noConfusion h
  | some res =>
    obtain ⟨kept, moved⟩ := res
    rw [hr] at h
    simp only [Option.some.injEq] at h
    subst h
    unfold splitBucket ExtendibleHash.skeleton
    simp only [redistribute, Option.some.injEq]
    congr 1
    funext x
    by_cases e1 : x = t.next_addr
    · rw [e1, Function.update_same, Function.update_same]
    · rw [Function.update_noteq e1, Function.update_noteq e1]
      by_cases e2 : x = cur
      · rw [e2, Function.update_same, Function.update_same]
      · rw [Function.update_noteq e2, Function.update_noteq e2]

/-- The entries after a followed split: other buckets are as before, the split
bucket keeps some of its entries, in order, and the new bucket holds no more
entries than the split bucket held. -/
theorem splitBucketWith_heap (HashKey : K → Nat) (resume : List Nat)
    (t t1 : ExtendibleHash K V) (cur : Nat) (hcur : cur < t.next_addr)
    (h : splitBucketWith HashKey resume t cur = some t1) :
    (∀ a, a ≠ cur → a ≠ t.next_addr → t1.heap a = t.heap a)
    ∧ List.Sublist (t1.heap cur).map_k (t.heap cur).map_k
    ∧ MapSorted (t1.heap t.next_addr).map_k
    ∧ (t1.heap t.next_addr).map_k.length ≤ (t.heap cur).map_k.length
    ∧ t1.bucket_size = t.bucket_size := by
  unfold splitBucketWith at h
  simp only at h
  cases hr : redistributeWith HashKey (2 ^ (t.heap cur).local_depth) resume 0 []
      (t.heap cur).map_k [] with
  | none => rw [hr] at h; exact Option.noConfusion h
  | some res =>
    obtain ⟨kept, moved⟩ := res
    rw [hr] at h
    simp only [Option.some.injEq] at h
    subst h
    obtain ⟨h1, h2, h3⟩ := redistributeWith_spec HashKey _ resume 0 [] _ [] _
      (by simp [MapSorted]) hr
    simp only [List.nil_append, List.length_nil, Nat.zero_add] at h1 h3
    refine ⟨?_, ?_, ?_, ?_, rfl⟩
    · intro a e1 e2
      show Function.update _ _ _ _ = _
      rw [Function.update_noteq e2, Function.update_noteq e1]
    · dsimp only
      rw [Function.update_noteq (Nat.ne_of_lt hcur), Function.update_same]
      exact h1
    · dsimp only
      rw [Function.update_same]
      exact h2
    · dsimp only
      rw [Function.update_same]
      exact h3

/-- A pass stores with the loop followed exactly when it stores as such, and
then with the same table. -/
theorem insertPassWith_stored_iff (HashKey : K → Nat) (resume : List Nat)
    (t t1 : ExtendibleHash K V) (key : K) (value : V) :
    InsertPassWith HashKey resume t key value = Pass.stored t1
      ↔ InsertPass HashKey t key value = Pass.stored t1 := by
  unfold InsertPassWith InsertPass
  by_cases hg : 31 ≤ t.global_depth
  · simp [hg]
  · simp only [hg, if_false]
    split_ifs with hc
    · exact Iff.rfl
    · cases splitBucketWith HashKey resume t (t.slot (GetIndexOfBuckets HashKey t key)) <;>
        cases splitBucket HashKey t (t.slot (GetIndexOfBuckets HashKey t key)) <;> simp

/-- A pass that splits as such splits with the loop followed, with the same
table. -/
theorem insertPassWith_of_split (HashKey : K → Nat) (resume : List Nat)
    (t t1 : ExtendibleHash K V) (key : K) (value : V)
    (h : InsertPass HashKey t key value = Pass.split t1) :
    InsertPassWith HashKey resume t key value = Pass.split t1 := by
  unfold InsertPass at h
  unfold InsertPassWith
  by_cases hg : 31 ≤ t.global_depth
  · simp [hg] at h
  · simp only [hg, if_false] at h ⊢
    split_ifs at h ⊢ with hc
    cases hsp : splitBucket HashKey t (t.slot (GetIndexOfBuckets HashKey t key)) with
    | none => rw [hsp] at h; simp at h
    | some t2 =>
      rw [hsp] at h
      simp only [Pass.split.injEq] at h
      subst h
      have : splitBucketWith HashKey resume t (t.slot (GetIndexOfBuckets HashKey t key))
          = some t2 := by
        unfold splitBucket at hsp
        unfold splitBucketWith
        simp only at hsp ⊢
        cases hr : redistribute HashKey
            (2 ^ (t.heap (t.slot (GetIndexOfBuckets HashKey t key))).local_depth) []
            (t.heap (t.slot (GetIndexOfBuckets HashKey t key))).map_k [] with
        | none => rw [hr] at hsp; exact Option.noConfusion hsp
        | some res =>
          rw [hr] at hsp
          rw [redistributeWith_of_redistribute HashKey _ resume _ _ _ _ hr]
          exact hsp
      rw [this]

/-- Where `Insert` has a result, `InsertWith` has the same result, whatever
positions are given. -/
theorem insertWith_of_insert (HashKey : K → Nat) (resume : List (List Nat)) (fuel : Nat)
    (t t1 : ExtendibleHash K V) (key : K) (value : V)
    (h : Insert HashKey fuel t key value = some t1) :
    InsertWith HashKey resume fuel t key value = some t1 := by
  induction fuel generalizing t resume with
  | zero => simp [Insert] at h
  | succ n ih =>
    simp only [Insert] at h
    simp only [InsertWith]
    cases hp : InsertPass HashKey t key value with
    | stored t2 =>
      rw [hp] at h
      rw [(insertPassWith_stored_iff HashKey _ t t2 key value).2 hp]
      exact h
    | split t2 =>
      rw [hp] at h
      rw [insertPassWith_of_split HashKey _ t t2 key value hp]
      exact ih _ t2 h
    | undefined => rw [hp] at h; exact Option.noConfusion h

theorem insertSplitsWith_of_insertSplits (HashKey : K → Nat) (resume : List (List Nat))
    (fuel : Nat) (t : ExtendibleHash K V) (key : K) (value : V) (s : Nat)
    (h : InsertSplits HashKey fuel t key value = some s) :
    InsertSplitsWith HashKey resume fuel t key value = some s := by
  induction fuel generalizing t resume s with
  | zero => simp [InsertSplits] at h
  | succ n ih =>
    simp only [InsertSplits] at h
    simp only [InsertSplitsWith]
    cases hp : InsertPass HashKey t key value with
    | stored t2 =>
      rw [hp] at h
      rw [(insertPassWith_stored_iff HashKey _ t t2 key value).2 hp]
      exact h
    | split t2 =>
      rw [hp] at h
      rw [insertPassWith_of_split HashKey _ t t2 key value hp]
      simp only at h ⊢
      obtain ⟨s2, hs2, rfl⟩ := Option.map_eq_some'.1 h
      rw [ih _ t2 s2 hs2]
      rfl
    | undefined => rw [hp] at h; exact Option.noConfusion h

/-- What a followed pass that stores the entry does. -/
theorem insertPassWith_stored (HashKey : K → Nat) (resume : List Nat)
    (t t1 : ExtendibleHash K V) (key : K) (value : V) (hs : Shape t)
    (h : InsertPassWith HashKey resume t key value = Pass.stored t1) :
    Shape t1 ∧ t1.global_depth ≤ 30
      ∧ t1 = t.setMap (t.slot (HashKey key % 2 ^ t.global_depth))
          (mapAssign (t.heap (t.slot (HashKey key % 2 ^ t.global_depth))).map_k key value)
      ∧ ((mapFind (t.heap (t.slot (HashKey key % 2 ^ t.global_depth))).map_k key).isSome = true
          ∨ (t.heap (t.slot (HashKey key % 2 ^ t.global_depth))).map_k.length < t.bucket_size) := by
  unfold InsertPassWith at h
  by_cases hg : 31 ≤ t.global_depth
  · simp [hg] at h
  · simp only [hg, if_false, GetIndexOfBuckets, index_mask] at h
    split_ifs at h with hc
    · simp only [Pass.stored.injEq] at h
      subst h
      have hso := hs.sorted (t.slot (HashKey key % 2 ^ t.global_depth))
      refine ⟨?_, by show t.global_depth ≤ 30; omega, rfl, hc⟩
      apply shape_setMap t _ _ hs (mapSorted_mapAssign _ _ _ hso)
      rw [length_mapAssign _ hso]
      have hcap := hs.cap (t.slot (HashKey key % 2 ^ t.global_depth))
      split_ifs with h2
      · exact hcap
      · rcases hc with h3 | h3
        · exact absurd h3 h2
        · exact h3
    · cases hsp : splitBucketWith HashKey resume t (t.slot (HashKey key % 2 ^ t.global_depth)) with
      | none => rw [hsp] at h; simp at h
      | some t2 => rw [hsp] at h; simp at h

/-- What a followed pass that splits does: to the slot vector, the depths and
the counters what `IsSplit` says, and the shape is kept. -/
theorem insertPassWith_split (HashKey : K → Nat) (resume : List Nat)
    (t t1 : ExtendibleHash K V) (key : K) (value : V) (hs : Shape t)
    (h : InsertPassWith HashKey resume t key value = Pass.split t1) :
    Shape t1
      ∧ IsSplit HashKey t.skeleton (t.slot (HashKey key % 2 ^ t.global_depth)) t1.skeleton
      ∧ t.global_depth ≤ 30
      ∧ (mapFind (t.heap (t.slot (HashKey key % 2 ^ t.global_depth))).map_k key) = none
      ∧ t.bucket_size ≤ (t.heap (t.slot (HashKey key % 2 ^ t.global_depth))).map_k.length := by
  unfold InsertPassWith at h
  by_cases hg : 31 ≤ t.global_depth
  · simp [hg] at h
  · simp only [hg, if_false, GetIndexOfBuckets, index_mask] at h
    have hidx : HashKey key % 2 ^ t.global_depth < 2 ^ t.global_depth :=
      Nat.mod_lt _ (Nat.two_pow_pos _)
    split_ifs at h with hc
    cases hsp : splitBucketWith HashKey resume t (t.slot (HashKey key % 2 ^ t.global_depth)) with
    | none => rw [hsp] at h; simp at h
    | some t2 =>
      rw [hsp] at h
      simp only [Pass.split.injEq] at h
      subst h
      have hcur := hs.alloc _ hidx
      have hi := inv0_skeleton HashKey t hs
      have hsk := splitBucketWith_skeleton HashKey resume t t2 _ hsp
      have hsplit : IsSplit HashKey t.skeleton (t.slot (HashKey key % 2 ^ t.global_depth))
          t2.skeleton :=
        splitBucket_isSplit HashKey t.skeleton t2.skeleton _ hi.len
          (by simp [ExtendibleHash.skeleton, MapSorted]) hcur hsk
      have hi2 : Inv0 HashKey t2.skeleton := inv0_split HashKey t.skeleton t2.skeleton _ hi hidx hsplit
      obtain ⟨h1, h2, h3, h4, h5⟩ := splitBucketWith_heap HashKey resume t t2 _ hcur hsp
      rw [not_or] at hc
      refine ⟨shape_of_skeleton HashKey t2 hi2 ?_ ?_, hsplit, by omega, ?_, not_lt.1 hc.2⟩
      · intro a
        by_cases e1 : a = t.next_addr
        · rw [e1]; exact h3
        · by_cases e2 : a = t.slot (HashKey key % 2 ^ t.global_depth)
          · rw [e2]
            exact List.Pairwise.sublist h2 (hs.sorted _)
          · rw [h1 a e2 e1]; exact hs.sorted a
      · intro a
        rw [h5]
        by_cases e1 : a = t.next_addr
        · rw [e1]; exact le_trans h4 (hs.cap _)
        · by_cases e2 : a = t.slot (HashKey key % 2 ^ t.global_depth)
          · rw [e2]
            exact le_trans h2.length_le (hs.cap _)
          · rw [h1 a e2 e1]; exact hs.cap a
      · have := hc.1
        cases hf : mapFind (t.heap (t.slot (HashKey key % 2 ^ t.global_depth))).map_k key with
        | none => rfl
        | some v => rw [hf] at this; simp at this

/-- A completed `Insert`, followed or not, keeps the shape, ends at a depth of
at most 30, and lowers neither the depth nor the bucket count. -/
theorem insertWith_spec (HashKey : K → Nat) (resume : List (List Nat)) (fuel : Nat)
    (t t1 : ExtendibleHash K V) (key : K) (value : V) (hs : Shape t)
    (h : InsertWith HashKey resume fuel t key value = some t1) :
    Shape t1 ∧ t1.global_depth ≤ 30 ∧ t1.bucket_size = t.bucket_size
      ∧ t.global_depth ≤ t1.global_depth ∧ t.bucket_number ≤ t1.bucket_number := by
  induction fuel generalizing t resume with
  | zero => simp [InsertWith] at h
  | succ n ih =>
    simp only [InsertWith] at h
    cases hp : InsertPassWith HashKey (resume.headD []) t key value with
    | stored t2 =>
      rw [hp] at h
      simp only [Option.some.injEq] at h
      subst h
      obtain ⟨h1, h2, h3, -⟩ := insertPassWith_stored HashKey _ t t2 key value hs hp
      have e1 : t2.bucket_size = t.bucket_size := by rw [h3]; rfl
      have e2 : t2.global_depth = t.global_depth := by rw [h3]; rfl
      have e3 : t2.bucket_number = t.bucket_number := by rw [h3]; rfl
      exact ⟨h1, h2, e1, by omega, by omega⟩
    | split t2 =>
      rw [hp] at h
      obtain ⟨h1, hsp, -⟩ := insertPassWith_split HashKey _ t t2 key value hs hp
      have hidx : HashKey key % 2 ^ t.global_depth < 2 ^ t.global_depth :=
        Nat.mod_lt _ (Nat.two_pow_pos _)
      obtain ⟨h2, h3, h4, h5, h6⟩ := ih _ t2 h1 h
      have hd := split_depth_facts HashKey t.skeleton t2.skeleton _ (hs.depth _ hidx) hsp
      have hn : t2.bucket_number = t.bucket_number + 1 := hsp.number
      have hz : t2.bucket_size = t.bucket_size := hsp.size
      have hd1 : t.global_depth ≤ t2.global_depth := hd.1
      exact ⟨h2, h3, by rw [h4, hz], by omega, by omega⟩
    | undefined =>
      rw [hp] at h
      simp at h

theorem shape_remove (HashKey : K → Nat) (t : ExtendibleHash K V) (hs : Shape t) (key : K) :
    Shape (Remove HashKey t key).2
    ∧ (Remove HashKey t key).2.global_depth = t.global_depth
    ∧ (Remove HashKey t key).2.bucket_size = t.bucket_size
    ∧ (Remove HashKey t key).2.bucket_number = t.bucket_number
    ∧ (Remove HashKey t key).2.buckets = t.buckets
    ∧ (Remove HashKey t key).2.next_addr = t.next_addr := by
  unfold Remove
  simp only
  cases hf : mapFind (t.heap (t.slot (HashKey key &&& (2 ^ t.global_depth - 1)))).map_k key with
  | none => exact ⟨hs, rfl, rfl, rfl, rfl, rfl⟩
  | some v =>
    refine ⟨?_, rfl, rfl, rfl, rfl, rfl⟩
    apply shape_setMap t _ _ hs (mapSorted_mapErase _ _ (hs.sorted _))
    have := length_mapErase _ key (by rw [hf]; rfl)
    have := hs.cap (t.slot (HashKey key &&& (2 ^ t.global_depth - 1)))
    omega

/-- Every table the operations produce has the shape `Shape`, a depth of at
most 30 and the capacity it was constructed with. -/
theorem reachable_shape (HashKey : K → Nat) (size : Nat) (t : ExtendibleHash K V)
    (h : Reachable HashKey size t) : Shape t ∧ t.global_depth ≤ 30 ∧ t.bucket_size = size := by
  induction h with
  | init => exact ⟨shape_init size, Nat.zero_le _, rfl⟩
  | @insert t t1 resume fuel key value _ hins ih =>
    obtain ⟨h1, h2, h3, -⟩ := insertWith_spec HashKey resume fuel t t1 key value ih.1 hins
    exact ⟨h1, h2, by rw [h3, ih.2.2]⟩
  | @remove t key _ ih =>
    obtain ⟨h1, h2, h3, -⟩ := shape_remove HashKey t ih.1 key
    exact ⟨h1, by rw [h2]; exact ih.2.1, by rw [h3]; exact ih.2.2⟩

theorem insertsTo_reachable (HashKey : K → Nat) (size : Nat) (t t1 : ExtendibleHash K V)
    (ops : List (K × V)) (hr : Reachable HashKey size t) (h : InsertsTo HashKey t ops t1) :
    Reachable HashKey size t1 := by
  induction h with
  | nil t => exact hr
  | @cons t t2 t3 resume fuel key value rest hins _ ih =>
    exact ih (Reachable.insert resume fuel key value hr hins)

theorem insertAll_insertsTo (HashKey : K → Nat) (fuel : Nat) (t t1 : ExtendibleHash K V)
    (ops : List (K × V)) (h : insertAll HashKey fuel t ops = some t1) :
    InsertsTo HashKey t ops t1 := by
  induction ops generalizing t with
  | nil =>
    simp only [insertAll, Option.some.injEq] at h
    subst h
    exact InsertsTo.nil t
  | cons p rest ih =>
    obtain ⟨key, value⟩ := p
    simp only [insertAll] at h
    cases hins : Insert HashKey fuel t key value with
    | none => rw [hins] at h; exact Option.noConfusion h
    | some t2 =>
      rw [hins] at h
      exact InsertsTo.cons [] fuel key value rest
        (insertWith_of_insert HashKey [] fuel t t2 key value hins) (ih t2 h)

/-- Where `Insert` has a result, every completed run of the call ends in that
result, whatever positions are given. -/
theorem insertWith_unique (HashKey : K → Nat) (resume : List (List Nat)) (fuel0 fuel : Nat)
    (t t1 t2 : ExtendibleHash K V) (key : K) (value : V)
    (h : Insert HashKey fuel0 t key value = some t1)
    (h2 : InsertWith HashKey resume fuel t key value = some t2) : t2 = t1 := by
  induction fuel0 generalizing t fuel resume with
  | zero => simp [Insert] at h
  | succ n ih =>
    cases fuel with
    | zero => simp [InsertWith] at h2
    | succ m =>
      simp only [Insert] at h
      simp only [InsertWith] at h2
      cases hp : InsertPass HashKey t key value with
      | stored t3 =>
        rw [hp] at h
        rw [(insertPassWith_stored_iff HashKey _ t t3 key value).2 hp] at h2
        simp only [Option.some.injEq] at h h2
        rw [← h, ← h2]
      | split t3 =>
        rw [hp] at h
        rw [insertPassWith_of_split HashKey _ t t3 key value hp] at h2
        exact ih _ _ t3 h h2
      | undefined => rw [hp] at h; exact Option.noConfusion h

theorem insertSplitsWith_of_insertWith (HashKey : K → Nat) (resume : List (List Nat))
    (fuel : Nat) (t t1 : ExtendibleHash K V) (key : K) (value : V)
    (h : InsertWith HashKey resume fuel t key value = some t1) :
    ∃ s, InsertSplitsWith HashKey resume fuel t key value = some s := by
  induction fuel generalizing t resume with
  | zero => simp [InsertWith] at h
  | succ n ih =>
    simp only [InsertWith] at h
    simp only [InsertSplitsWith]
    cases hp : InsertPassWith HashKey (resume.headD []) t key value with
    | stored t2 => exact ⟨0, rfl⟩
    | undefined => rw [hp] at h; exact Option.noConfusion h
    | split t2 =>
      rw [hp] at h
      obtain ⟨s, hs⟩ := ih _ t2 h
      exact ⟨s + 1, by simp [hs]⟩

/-- A sequence of completed `Insert` calls keeps the shape. -/
theorem insertsTo_shape (HashKey : K → Nat) (t t1 : ExtendibleHash K V) (ops : List (K × V))
    (hs : Shape t) (h : InsertsTo HashKey t ops t1) :
    Shape t1 ∧ t1.bucket_size = t.bucket_size := by
  induction h with
  | nil t => exact ⟨hs, rfl⟩
  | @cons t t2 t3 resume fuel key value rest hins _ ih =>
    obtain ⟨h1, -, h3, -⟩ := insertWith_spec HashKey resume fuel t t2 key value hs hins
    obtain ⟨h4, h5⟩ := ih h1
    exact ⟨h4, by rw [h5, h3]⟩

end Followed


section HashTheorems

variable {K V : Type} [LinearOrder K]

theorem exampleTable_reachable : Reachable id 2 exampleTable :=
  insertsTo_reachable id 2 _ _ [(0, 10), (1, 11), (2, 12)] Reachable.init
    (insertAll_insertsTo id 4 _ _ [(0, 10), (1, 11), (2, 12)] rfl)

theorem oddTable_reachable : Reachable id 2 oddTable :=
  insertsTo_reachable id 2 _ _ [(1, 0), (3, 10)] Reachable.init
    (insertAll_insertsTo id 1 _ _ [(1, 0), (3, 10)] rfl)

theorem strandedTable_insert : InsertWith id [[1]] 2 oddTable 5 20 = some strandedTable := rfl

theorem strandedTable_insertsTo :
    InsertsTo id (ExtendibleHash.init 2) [(1, 0), (3, 10), (5, 20)] strandedTable :=
  InsertsTo.cons [] 1 1 0 _
    (rfl : InsertWith id [] 1 (ExtendibleHash.init 2) 1 0 = some (tableOf id 2 1 [(1, 0)]))
    (InsertsTo.cons [] 1 3 10 _
      (rfl : InsertWith id [] 1 (tableOf id 2 1 [(1, 0)]) 3 10 = some oddTable)
      (InsertsTo.cons [[1]] 2 5 20 _ strandedTable_insert (InsertsTo.nil _)))

theorem strandedTable_reachable : Reachable id 2 strandedTable :=
  insertsTo_reachable id 2 _ _ _ Reachable.init strandedTable_insertsTo

/-- After a sequence of `Insert` calls none of which decrements `begin()`, on
a freshly constructed table (of any bucket capacity), `Find` of a key that
occurs in the sequence returns true and yields the value of the last `Insert`
for that key, whatever splits and doublings the calls caused. -/
theorem insert_find_roundtrip (HashKey : K → Nat) (size fuel : Nat) (ops : List (K × V))
    (t : ExtendibleHash K V) (key : K) (d : V)
    (h : insertAll HashKey fuel (ExtendibleHash.init size) ops = some t)
    (hk : key ∈ ops.map Prod.fst) :
    ∃ v, lastValue key ops = some v ∧ Find HashKey t key d = (true, v) := by
  obtain ⟨-, -, -, h2⟩ := insertAll_spec HashKey fuel _ t ops (inv0_init HashKey size) h
  obtain ⟨v, hv⟩ := lastValue_isSome key ops hk
  refine ⟨v, hv, ?_⟩
  have := h2 key
  rw [hv] at this
  rw [find_eq, this]

/-- In a table that satisfies the structural invariant (as every table does
that is reached without a decrement of `begin()`), `Remove(key)` returns true
exactly when the key is stored. When it returns false the table is unchanged.
When it returns true, `Find(key)` afterwards returns false and leaves its output
argument, the key is no longer stored, `Find` of every other key is unchanged,
and the slot vector, `GetGlobalDepth()` and `GetNumBuckets()` are unchanged. -/
theorem remove_contract (HashKey : K → Nat) (t : ExtendibleHash K V) (key : K) (d : V)
    (hi : Inv0 HashKey t) :
    ((Remove HashKey t key).1 = true ↔ Stored t key)
    ∧ ((Remove HashKey t key).1 = false → (Remove HashKey t key).2 = t)
    ∧ ((Remove HashKey t key).1 = true →
        Find HashKey (Remove HashKey t key).2 key d = (false, d)
        ∧ ¬ Stored (Remove HashKey t key).2 key
        ∧ (∀ k d1, k ≠ key →
            Find HashKey (Remove HashKey t key).2 k d1 = Find HashKey t k d1)
        ∧ (Remove HashKey t key).2.buckets = t.buckets
        ∧ GetGlobalDepth (Remove HashKey t key).2 = GetGlobalDepth t
        ∧ GetNumBuckets (Remove HashKey t key).2 = GetNumBuckets t) := by
  obtain ⟨h1, h2, h3, h4, h5, h6, h7, h8, h9⟩ := remove_spec HashKey t hi key
  refine ⟨?_, ?_, ?_⟩
  · rw [h1, stored_iff HashKey t hi]
  · intro hf
    rw [h1] at hf
    exact h2 hf
  · intro _
    refine ⟨by rw [find_eq, h8], ?_, ?_, h7, ?_, ?_⟩
    · rw [stored_iff HashKey _ h3, h8]
      simp
    · intro k d1 hk
      exact find_of_lookup HashKey _ _ k (h9 k hk) d1
    · unfold GetGlobalDepth; rw [h4]
    · unfold GetNumBuckets; rw [h6]

/-- Claim C7. In a reachable table (a table after any completed operations,
also `Insert` calls whose split has decremented `begin()`) the slot vector has length
`2 ^ global_depth`, the bucket of every slot has a local depth of at most the
global depth, two slots hold the same bucket exactly when their indices agree
on the low `local_depth` bits of that bucket, and the bucket of slot `i` is held
by exactly `2 ^ (global_depth - local_depth)` slots. -/
theorem directory_shape (HashKey : K → Nat) (size : Nat) (t : ExtendibleHash K V) (i j : Nat)
    (hr : Reachable HashKey size t) (hi : i < t.buckets.length) (hj : j < t.buckets.length) :
    t.buckets.length = 2 ^ t.global_depth
    ∧ (t.bucketAt i).local_depth ≤ t.global_depth
    ∧ (t.slot i = t.slot j ↔
        i % 2 ^ (t.bucketAt i).local_depth = j % 2 ^ (t.bucketAt i).local_depth)
    ∧ ((List.range t.buckets.length).filter (fun k => decide (t.slot k = t.slot i))).length
        = 2 ^ (t.global_depth - (t.bucketAt i).local_depth) := by
  have h0 := (reachable_shape HashKey size t hr).1
  have hi2 : i < 2 ^ t.global_depth := by rw [← h0.len]; exact hi
  have hj2 : j < 2 ^ t.global_depth := by rw [← h0.len]; exact hj
  refine ⟨h0.len, h0.depth i hi2, h0.share i hi2 j hj2, ?_⟩
  have hd := h0.depth i hi2
  have e1 : (List.range t.buckets.length).filter (fun k => decide (t.slot k = t.slot i))
      = (List.range (2 ^ ((t.bucketAt i).local_depth + (t.global_depth - (t.bucketAt i).local_depth)))).filter
          (fun k => decide (k % 2 ^ (t.bucketAt i).local_depth = i % 2 ^ (t.bucketAt i).local_depth)) := by
    rw [h0.len, Nat.add_sub_cancel' hd]
    apply List.filter_congr
    intro k hk
    rw [List.mem_range] at hk
    have := h0.share i hi2 k hk
    rw [decide_eq_decide]
    constructor
    · intro e; exact (this.1 e.symm).symm
    · intro e; exact (this.2 e.symm).symm
  rw [e1, count_mod _ _ _ (Nat.mod_lt _ (Nat.two_pow_pos _))]

theorem directory_shape_witness :
    Reachable id 2 strandedTable ∧ 0 < strandedTable.buckets.length
    ∧ 1 < strandedTable.buckets.length
    ∧ strandedTable.buckets.length = 2 ^ strandedTable.global_depth
    ∧ (strandedTable.bucketAt 0).local_depth ≤ strandedTable.global_depth
    ∧ (strandedTable.slot 0 = strandedTable.slot 1 ↔
        0 % 2 ^ (strandedTable.bucketAt 0).local_depth
          = 1 % 2 ^ (strandedTable.bucketAt 0).local_depth)
    ∧ ((List.range strandedTable.buckets.length).filter
          (fun k => decide (strandedTable.slot k = strandedTable.slot 0))).length
        = 2 ^ (strandedTable.global_depth - (strandedTable.bucketAt 0).local_depth) :=
  ⟨strandedTable_reachable, by decide, by decide,
    directory_shape id 2 strandedTable 0 1 strandedTable_reachable (by decide) (by decide)⟩

/-- Claim C8. In a reachable table constructed with bucket capacity `size` (a
table after any completed operations, also `Insert` calls whose split has
decremented `begin()`), the bucket of every slot holds at most `size`
entries. -/
theorem bucket_capacity (HashKey : K → Nat) (size : Nat) (t : ExtendibleHash K V) (i : Nat)
    (hr : Reachable HashKey size t) (hi : i < t.buckets.length) :
    (t.bucketAt i).map_k.length ≤ size := by
  obtain ⟨h0, -, h2⟩ := reachable_shape HashKey size t hr
  rw [← h2, bucketAt_eq, slot_eq_getD, List.getD_eq_getElem _ _ hi]
  exact h0.cap _

theorem bucket_capacity_witness :
    Reachable id 2 strandedTable ∧ 1 < strandedTable.buckets.length
    ∧ (strandedTable.bucketAt 1).map_k.length ≤ 2 :=
  ⟨strandedTable_reachable, by decide,
    bucket_capacity id 2 strandedTable 1 strandedTable_reachable (by decide)⟩

/-- In a table that satisfies the structural invariant (as every table does
that is reached without a decrement of `begin()`), `Insert(key, value)` of a
key that is already stored finishes in its first pass, without a split, also when the
bucket is full: `GetNumBuckets()`, `GetGlobalDepth()`, the slot vector, every
local depth, every bucket size and the entry of every other key are unchanged,
`Find(key)` yields `value`, and repeating the call leaves the table as it
is. -/
theorem insert_existing (HashKey : K → Nat) (t : ExtendibleHash K V)
    (key : K) (value d : V) (fuel : Nat)
    (h0 : Inv0 HashKey t) (hg : t.global_depth ≤ 30) (hk : Stored t key) :
    ∃ t1, Insert HashKey (fuel + 1) t key value = some t1
      ∧ InsertSplits HashKey (fuel + 1) t key value = some 0
      ∧ GetNumBuckets t1 = GetNumBuckets t
      ∧ GetGlobalDepth t1 = GetGlobalDepth t
      ∧ t1.buckets = t.buckets
      ∧ (∀ a, (t1.heap a).local_depth = (t.heap a).local_depth)
      ∧ (∀ a k, k ≠ key → mapFind (t1.heap a).map_k k = mapFind (t.heap a).map_k k)
      ∧ (∀ a, (t1.heap a).map_k.length = (t.heap a).map_k.length)
      ∧ Find HashKey t1 key d = (true, value)
      ∧ (∀ k d1, k ≠ key → Find HashKey t1 k d1 = Find HashKey t k d1)
      ∧ ∀ fuel1, Insert HashKey (fuel1 + 1) t1 key value = some t1 := by
  have hf := (stored_iff HashKey t h0 key).1 hk
  rw [lookup_eq] at hf
  have hp := insertPass_of_found HashKey t key value hg hf
  obtain ⟨-, -, -, -, -, -, -, h6, h7, -⟩ := insertPass_stored HashKey t _ key value h0 hp
  have hidx : HashKey key % 2 ^ t.global_depth < 2 ^ t.global_depth :=
    Nat.mod_lt _ (Nat.two_pow_pos _)
  have hso := h0.sorted _ hidx
  rw [bucketAt_eq] at hso
  obtain ⟨cur, hcur⟩ : ∃ cur, cur = t.slot (HashKey key % 2 ^ t.global_depth) := ⟨_, rfl⟩
  rw [← hcur] at hf hp h6 h7 hso
  obtain ⟨m, hm⟩ : ∃ m, m = mapAssign (t.heap cur).map_k key value := ⟨_, rfl⟩
  rw [← hm] at hp h6 h7
  have hmfind : (mapFind m key).isSome = true := by
    rw [hm, mapFind_mapAssign]; simp
  refine ⟨t.setMap cur m, by simp only [Insert, hp], by simp only [InsertSplits, hp], rfl, rfl,
    rfl, ?_, ?_, ?_, by rw [find_eq, h6],
    fun k d1 hk1 => find_of_lookup HashKey _ _ k (h7 k hk1) d1, ?_⟩
  · intro a
    rw [heap_setMap]
    split_ifs <;> rfl
  · intro a k hk1
    rw [heap_setMap]
    split_ifs with e
    · simp only
      rw [hm, mapFind_mapAssign, e]
      simp [Ne.symm hk1]
    · rfl
  · intro a
    rw [heap_setMap]
    split_ifs with e
    · simp only
      rw [hm, length_mapAssign _ hso, hf, e]
      simp
    · rfl
  · intro fuel1
    have hslot : (t.setMap cur m).slot (HashKey key % 2 ^ (t.setMap cur m).global_depth) = cur :=
      hcur.symm
    have hheap : (t.setMap cur m).heap cur = ⟨(t.heap cur).local_depth, m⟩ := by
      rw [heap_setMap]; simp
    have hp2 := insertPass_of_found HashKey (t.setMap cur m) key value hg (by
      rw [hslot, hheap]; exact hmfind)
    rw [hslot, hheap] at hp2
    simp only [Insert, hp2, Option.some.injEq]
    rw [setMap_setMap, hm, mapAssign_idem]

/-- Claim C10. For a slot index inside the slot vector `GetLocalDepth` returns
-1 when the bucket of the slot holds no entries, and the local depth of the
bucket otherwise; in particular it returns -1 for slot 0 of a freshly
constructed table. -/
theorem getLocalDepth_contract (t : ExtendibleHash K V) (i size : Nat) (hi : i < t.buckets.length) :
    GetLocalDepth t i =
      (if (t.bucketAt i).map_k.length = 0 then -1 else ((t.bucketAt i).local_depth : Int))
    ∧ GetLocalDepth (ExtendibleHash.init size : ExtendibleHash K V) 0 = -1 := by
  constructor
  · unfold GetLocalDepth
    rw [List.getElem?_eq_getElem hi]
    simp only
    rw [bucketAt_eq, slot_eq_getD, List.getD_eq_getElem _ _ hi]
  · rfl

theorem getLocalDepth_contract_witness :
    1 < exampleTable.buckets.length
    ∧ GetLocalDepth exampleTable 1 =
      (if (exampleTable.bucketAt 1).map_k.length = 0 then -1
        else ((exampleTable.bucketAt 1).local_depth : Int))
    ∧ GetLocalDepth (ExtendibleHash.init 2 : ExtendibleHash Nat Nat) 0 = -1 :=
  ⟨by decide, getLocalDepth_contract exampleTable 1 2 (by decide)⟩

end HashTheorems

/-! ## LRUReplacer -/

section LRULemmas

variable {T : Type} [LinearOrder T]

@[simp] theorem setNext_next (r : LRUReplacer T) (p : Nat) (q : Option Nat) (a : Nat) :
    ((r.setNext p q).mem a).next_node = if a = p then q else (r.mem a).next_node := by
  unfold LRUReplacer.setNext
  by_cases h : a = p
  · subst h; simp
  · simp [h, Function.update_noteq h]

@[simp] theorem setNext_prev (r : LRUReplacer T) (p : Nat) (q : Option Nat) (a : Nat) :
    ((r.setNext p q).mem a).prev_node = (r.mem a).prev_node := by
  unfold LRUReplacer.setNext
  by_cases h : a = p
  · subst h; simp
  · simp [Function.update_noteq h]

@[simp] theorem setNext_value (r : LRUReplacer T) (p : Nat) (q : Option Nat) (a : Nat) :
    ((r.setNext p q).mem a).value = (r.mem a).value := by
  unfold LRUReplacer.setNext
  by_cases h : a = p
  · subst h; simp
  · simp [Function.update_noteq h]

@[simp] theorem setPrev_prev (r : LRUReplacer T) (p : Nat) (q : Option Nat) (a : Nat) :
    ((r.setPrev p q).mem a).prev_node = if a = p then q else (r.mem a).prev_node := by
  unfold LRUReplacer.setPrev
  by_cases h : a = p
  · subst h; simp
  · simp [h, Function.update_noteq h]

@[simp] theorem setPrev_next (r : LRUReplacer T) (p : Nat) (q : Option Nat) (a : Nat) :
    ((r.setPrev p q).mem a).next_node = (r.mem a).next_node := by
  unfold LRUReplacer.setPrev
  by_cases h : a = p
  · subst h; simp
  · simp [Function.update_noteq h]

@[simp] theorem setPrev_value (r : LRUReplacer T) (p : Nat) (q : Option Nat) (a : Nat) :
    ((r.setPrev p q).mem a).value = (r.mem a).value := by
  unfold LRUReplacer.setPrev
  by_cases h : a = p
  · subst h; simp
  · simp [Function.update_noteq h]

@[simp] theorem setNext_head (r : LRUReplacer T) (p : Nat) (q : Option Nat) :
    (r.setNext p q).head_node = r.head_node := rfl
@[simp] theorem setNext_tail (r : LRUReplacer T) (p : Nat) (q : Option Nat) :
    (r.setNext p q).tail_node = r.tail_node := rfl
@[simp] theorem setNext_map (r : LRUReplacer T) (p : Nat) (q : Option Nat) :
    (r.setNext p q).node_map = r.node_map := rfl
@[simp] theorem setNext_addr (r : LRUReplacer T) (p : Nat) (q : Option Nat) :
    (r.setNext p q).next_addr = r.next_addr := rfl
@[simp] theorem setPrev_head (r : LRUReplacer T) (p : Nat) (q : Option Nat) :
    (r.setPrev p q).head_node = r.head_node := rfl
@[simp] theorem setPrev_tail (r : LRUReplacer T) (p : Nat) (q : Option Nat) :
    (r.setPrev p q).tail_node = r.tail_node := rfl
@[simp] theorem setPrev_map (r : LRUReplacer T) (p : Nat) (q : Option Nat) :
    (r.setPrev p q).node_map = r.node_map := rfl
@[simp] theorem setPrev_addr (r : LRUReplacer T) (p : Nat) (q : Option Nat) :
    (r.setPrev p q).next_addr = r.next_addr := rfl

theorem fwd_frame (r r1 : LRUReplacer T) (l : List Nat) (z : Nat)
    (h : ∀ a ∈ l, (r1.mem a).next_node = (r.mem a).next_node) (hc : Fwd r (l ++ [z])) :
    Fwd r1 (l ++ [z]) := by
  unfold Fwd at hc ⊢
  induction l with
  | nil => simp
  | cons a l ih =>
    rw [List.cons_append, List.chain'_cons'] at hc ⊢
    refine ⟨?_, ih (fun b hb => h b (List.mem_cons_of_mem _ hb)) hc.2⟩
    intro y hy
    rw [h a (List.mem_cons_self _ _)]
    exact hc.1 y hy

theorem bwd_frame (r r1 : LRUReplacer T) (l : List Nat) (z : Nat)
    (h : ∀ a ∈ l, (r1.mem a).prev_node = (r.mem a).prev_node) (hc : Bwd r (z :: l)) :
    Bwd r1 (z :: l) := by
  unfold Bwd at hc ⊢
  induction l generalizing z with
  | nil => simp
  | cons a l ih =>
    rw [List.chain'_cons] at hc ⊢
    refine ⟨?_, ih a (fun b hb => h b (List.mem_cons_of_mem _ hb)) hc.2⟩
    rw [h a (List.mem_cons_self _ _)]
    exact hc.1

theorem fwd_frame_all (r r1 : LRUReplacer T) (l : List Nat)
    (h : ∀ a ∈ l, (r1.mem a).next_node = (r.mem a).next_node) (hc : Fwd r l) :
    Fwd r1 l := by
  rcases List.eq_nil_or_concat l with rfl | ⟨l1, z, rfl⟩
  · simp [Fwd]
  · rw [List.concat_eq_append] at *
    exact fwd_frame r r1 l1 z (fun a ha => h a (List.mem_append_left _ ha)) hc

theorem bwd_frame_all (r r1 : LRUReplacer T) (l : List Nat)
    (h : ∀ a ∈ l, (r1.mem a).prev_node = (r.mem a).prev_node) (hc : Bwd r l) :
    Bwd r1 l := by
  cases l with
  | nil => simp [Bwd]
  | cons z l => exact bwd_frame r r1 l z (fun a ha => h a (List.mem_cons_of_mem _ ha)) hc

/-- The effect of unlinking `cur` from between `p` and `n`. -/
theorem unlink_links (r : LRUReplacer T) (A B : List Nat) (p cur n : Nat)
    (hf : Fwd r (A ++ p :: cur :: n :: B)) (hb : Bwd r (A ++ p :: cur :: n :: B))
    (hn : (A ++ p :: cur :: n :: B).Nodup) :
    Fwd ((r.setNext p (some n)).setPrev n (some p)) (A ++ p :: n :: B)
    ∧ Bwd ((r.setNext p (some n)).setPrev n (some p)) (A ++ p :: n :: B) := by
  have hn1 := hn
  rw [List.nodup_append] at hn1
  obtain ⟨hA, hR, hdisj⟩ := hn1
  have hpA : p ∉ A := fun h => hdisj h (List.mem_cons_self _ _)
  have hnA : n ∉ A := fun h => hdisj h (by simp)
  simp only [List.nodup_cons, List.mem_cons, not_or] at hR
  obtain ⟨⟨hpc, hpn, hpB⟩, ⟨hcn, hcB⟩, hnB, hB⟩ := hR
  constructor
  · unfold Fwd at hf ⊢
    rw [List.chain'_split] at hf ⊢
    refine ⟨?_, ?_⟩
    · apply fwd_frame r _ A p _ hf.1
      intro a ha
      have : a ≠ p := fun e => hpA (e ▸ ha)
      simp [this]
    · have h2 := hf.2
      rw [List.chain'_cons, List.chain'_cons] at h2
      rw [List.chain'_cons]
      refine ⟨by simp, ?_⟩
      apply fwd_frame_all r _ (n :: B) _ h2.2.2
      intro a ha
      have : a ≠ p := by
        rintro rfl
        rcases List.mem_cons.1 ha with e | e
        · exact hpn e
        · exact hpB e
      simp [this]
  · unfold Bwd at hb ⊢
    rw [List.chain'_split] at hb ⊢
    refine ⟨?_, ?_⟩
    · apply bwd_frame_all r _ (A ++ [p]) _ hb.1
      intro a ha
      have : a ≠ n := by
        rintro rfl
        rcases List.mem_append.1 ha with e | e
        · exact hnA e
        · simp at e; exact hpn e.symm
      simp [this]
    · have h2 := hb.2
      rw [List.chain'_cons, List.chain'_cons] at h2
      rw [List.chain'_cons]
      refine ⟨by simp, ?_⟩
      apply bwd_frame r _ B n _ h2.2.2
      intro a ha
      have : a ≠ n := fun e => hnB (e ▸ ha)
      simp [this]

end LRULemmas

section LRURep

variable {T : Type} [LinearOrder T]

theorem rep_init : Rep (LRUReplacer.init : LRUReplacer T) [] := by
  constructor
  · simp [Fwd, LRUReplacer.init]
  · simp [Bwd, LRUReplacer.init]
  · simp [LRUReplacer.init]
  · simp [LRUReplacer.init]
  · simp
  · simp
  · simp [LRUReplacer.init, MapSorted]
  · simp [LRUReplacer.init, mapFind]
  · simp [LRUReplacer.init]

theorem keys_unique (ps : List (T × Nat)) (h : (ps.map Prod.fst).Nodup) (x : T) (a b : Nat)
    (ha : (x, a) ∈ ps) (hb : (x, b) ∈ ps) : a = b := by
  have := List.inj_on_of_nodup_map h ha hb rfl
  exact (Prod.mk.injEq _ _ _ _ ▸ this).2

/-- The specification of `linkLast`: the node `cur`, which is not in the list,
is linked in as its last node. -/
theorem linkLast_spec (r : LRUReplacer T) (ids : List Nat) (cur : Nat) (x : T)
    (hf : Fwd r (r.head_node :: ids ++ [r.tail_node]))
    (hb : Bwd r (r.head_node :: ids ++ [r.tail_node]))
    (hn : (r.head_node :: ids ++ [r.tail_node]).Nodup)
    (hcur : cur ∉ r.head_node :: ids ++ [r.tail_node]) :
    ∃ r1, linkLast r cur x = some r1
      ∧ Fwd r1 (r.head_node :: (ids ++ [cur]) ++ [r.tail_node])
      ∧ Bwd r1 (r.head_node :: (ids ++ [cur]) ++ [r.tail_node])
      ∧ r1.head_node = r.head_node ∧ r1.tail_node = r.tail_node
      ∧ r1.next_addr = r.next_addr
      ∧ r1.node_map = mapAssign r.node_map x cur
      ∧ ∀ a, (r1.mem a).value = (r.mem a).value := by
  obtain ⟨A, q, hAq⟩ : ∃ A q, r.head_node :: ids = A ++ [q] := by
    rcases List.eq_nil_or_concat (r.head_node :: ids) with h | ⟨A, q, h⟩
    · simp at h
    · exact ⟨A, q, by simpa using h⟩
  have hc : r.head_node :: ids ++ [r.tail_node] = A ++ [q, r.tail_node] := by
    rw [hAq]; simp
  have hc2 : r.head_node :: (ids ++ [cur]) ++ [r.tail_node] = A ++ [q, cur, r.tail_node] := by
    rw [← List.cons_append, hAq]; simp
  rw [hc] at hf hb hn hcur
  rw [hc2]
  have hn1 := hn
  rw [List.nodup_append] at hn1
  obtain ⟨hA, hR, hdisj⟩ := hn1
  have hqA : q ∉ A := fun h => hdisj h (by simp)
  have htA : r.tail_node ∉ A := fun h => hdisj h (by simp)
  have hqt : q ≠ r.tail_node := by
    intro e; simp [e] at hR
  simp only [List.mem_append, List.mem_cons, not_or, List.mem_singleton, List.not_mem_nil,
    or_false] at hcur
  obtain ⟨hcA, hcq, hct⟩ := hcur
  have hprev : (r.mem r.tail_node).prev_node = some q := by
    unfold Bwd at hb
    rw [List.chain'_split] at hb
    have := hb.2
    rw [List.chain'_cons] at this
    exact this.1
  simp only [linkLast, hprev]
  refine ⟨_, rfl, ?_, ?_, rfl, rfl, rfl, rfl, ?_⟩
  · unfold Fwd at hf ⊢
    rw [List.chain'_split] at hf ⊢
    refine ⟨?_, ?_⟩
    · apply fwd_frame r _ A q _ hf.1
      intro a ha
      have h1 : a ≠ q := fun e => hqA (e ▸ ha)
      have h2 : a ≠ cur := fun e => hcA (e ▸ ha)
      simp [h1, h2]
    · simp [List.chain'_cons, hcq, Ne.symm hcq, hqt, hct]
  · unfold Bwd at hb ⊢
    rw [List.chain'_split] at hb ⊢
    refine ⟨?_, ?_⟩
    · apply bwd_frame_all r _ (A ++ [q]) _ hb.1
      intro a ha
      have h1 : a ≠ r.tail_node := by
        rintro rfl
        rcases List.mem_append.1 ha with e | e
        · exact htA e
        · simp at e; exact hqt e.symm
      have h2 : a ≠ cur := by
        rintro rfl
        rcases List.mem_append.1 ha with e | e
        · exact hcA e
        · simp at e; exact hcq e
      simp [h1, h2]
    · simp [List.chain'_cons, hcq, Ne.symm hcq, hqt, hct, Ne.symm hct]
  · intro a
    simp

end LRURep

section LRUOps

variable {T : Type} [LinearOrder T]

/-- Unlinking the node `c` of the list: its neighbours `p` and `n` are read from
`c`, and after `p->next_node = n; n->prev_node = p` the list is linked without
`c`. -/
theorem unlink_spec (r : LRUReplacer T) (i1 i2 : List Nat) (c : Nat)
    (hf : Fwd r (r.head_node :: (i1 ++ c :: i2) ++ [r.tail_node]))
    (hb : Bwd r (r.head_node :: (i1 ++ c :: i2) ++ [r.tail_node]))
    (hn : (r.head_node :: (i1 ++ c :: i2) ++ [r.tail_node]).Nodup) :
    ∃ p n, (r.mem c).prev_node = some p ∧ (r.mem c).next_node = some n ∧ p ≠ c ∧ n ≠ c
      ∧ Fwd ((r.setNext p (some n)).setPrev n (some p)) (r.head_node :: (i1 ++ i2) ++ [r.tail_node])
      ∧ Bwd ((r.setNext p (some n)).setPrev n (some p)) (r.head_node :: (i1 ++ i2) ++ [r.tail_node]) := by
  obtain ⟨A, p, hA⟩ : ∃ A p, r.head_node :: i1 = A ++ [p] := by
    rcases List.eq_nil_or_concat (r.head_node :: i1) with h | ⟨A, q, h⟩
    · simp at h
    · exact ⟨A, q, by simpa using h⟩
  obtain ⟨n, B, hB⟩ : ∃ n B, i2 ++ [r.tail_node] = n :: B := by
    cases i2 with
    | nil => exact ⟨_, _, rfl⟩
    | cons n i2 => exact ⟨n, i2 ++ [r.tail_node], rfl⟩
  have e1 : r.head_node :: (i1 ++ c :: i2) ++ [r.tail_node] = A ++ p :: c :: n :: B := by
    calc r.head_node :: (i1 ++ c :: i2) ++ [r.tail_node]
        = (r.head_node :: i1) ++ c :: (i2 ++ [r.tail_node]) := by simp
      _ = A ++ p :: c :: n :: B := by rw [hA, hB]; simp
  have e2 : r.head_node :: (i1 ++ i2) ++ [r.tail_node] = A ++ p :: n :: B := by
    calc r.head_node :: (i1 ++ i2) ++ [r.tail_node]
        = (r.head_node :: i1) ++ (i2 ++ [r.tail_node]) := by simp
      _ = A ++ p :: n :: B := by rw [hA, hB]; simp
  rw [e1] at hf hb hn
  rw [e2]
  have hl := unlink_links r A B p c n hf hb hn
  have hf2 := hf
  have hb2 := hb
  unfold Fwd at hf2
  unfold Bwd at hb2
  rw [List.chain'_split, List.chain'_cons, List.chain'_cons] at hf2 hb2
  have hn1 := hn
  rw [List.nodup_append] at hn1
  have hR := hn1.2.1
  simp only [List.nodup_cons, List.mem_cons, not_or] at hR
  exact ⟨p, n, hb2.2.1, hf2.2.2.1, hR.1.1, fun e => hR.2.1.1 e.symm, hl.1, hl.2⟩

theorem chain_perm (h t : Nat) (l1 l2 : List Nat) (hp : List.Perm l1 l2) :
    List.Perm (h :: l1 ++ [t]) (h :: l2 ++ [t]) := by
  simp only [List.cons_append]
  exact List.Perm.cons _ (List.Perm.append_right _ hp)

theorem chain_concat_perm (h t a : Nat) (ids : List Nat) :
    List.Perm (h :: (ids ++ [a]) ++ [t]) (a :: (h :: ids ++ [t])) := by
  have h1 : List.Perm (ids ++ [a]) (a :: ids) := List.perm_append_singleton a ids
  exact (chain_perm h t _ _ h1).trans (List.Perm.swap _ _ _)

theorem rep_insert_untracked (r : LRUReplacer T) (ps : List (T × Nat)) (x : T)
    (h : Rep r ps) (hx : mapFind r.node_map x = none) :
    ∃ r1, r.Insert x = some r1 ∧ Rep r1 (ps ++ [(x, r.next_addr)]) := by
  have hfresh : r.next_addr ∉ r.head_node :: ps.map Prod.snd ++ [r.tail_node] :=
    fun hm => lt_irrefl _ (h.alloc _ hm)
  have hmemeq : ∀ a ∈ r.head_node :: ps.map Prod.snd ++ [r.tail_node],
      (r.newNode x).1.mem a = r.mem a := by
    intro a ha
    have : a ≠ r.next_addr := fun e => hfresh (e ▸ ha)
    simp [LRUReplacer.newNode, Function.update_noteq this]
  have hf1 : Fwd (r.newNode x).1 ((r.newNode x).1.head_node :: ps.map Prod.snd ++ [(r.newNode x).1.tail_node]) :=
    fwd_frame_all r _ _ (fun a ha => by rw [hmemeq a ha]) h.fwd
  have hb1 : Bwd (r.newNode x).1 ((r.newNode x).1.head_node :: ps.map Prod.snd ++ [(r.newNode x).1.tail_node]) :=
    bwd_frame_all r _ _ (fun a ha => by rw [hmemeq a ha]) h.bwd
  obtain ⟨r1, hr1, hf, hb, hh, ht, ha, hm, hv⟩ :=
    linkLast_spec (r.newNode x).1 (ps.map Prod.snd) r.next_addr x hf1 hb1 h.nodup hfresh
  refine ⟨r1, ?_, ?_⟩
  · simp only [LRUReplacer.Insert, hx]
    exact hr1
  · have hh' : r1.head_node = r.head_node := hh
    have ht' : r1.tail_node = r.tail_node := ht
    have ha' : r1.next_addr = r.next_addr + 1 := ha
    have hm' : r1.node_map = mapAssign r.node_map x r.next_addr := hm
    have hnotin : ∀ a, (x, a) ∉ ps := by
      intro a hmem
      rw [← h.map x a, hx] at hmem
      exact Option.noConfusion hmem
    constructor
    · rw [hh', ht']; simpa using hf
    · rw [hh', ht']; simpa using hb
    · rw [hh', ht', List.map_append]
      refine (List.Perm.nodup_iff (chain_concat_perm _ _ _ _)).2 ?_
      exact List.nodup_cons.2 ⟨hfresh, h.nodup⟩
    · rw [hh', ht', ha']
      intro a hmem
      rw [List.map_append] at hmem
      have key := List.mem_cons.1 ((chain_concat_perm _ _ _ _).mem_iff.1 hmem)
      rcases key with e | e
      · omega
      · have := h.alloc a e; omega
    · intro p hp
      rw [hv]
      rcases List.mem_append.1 hp with e | e
      · have hne : p.2 ≠ r.next_addr := by
          intro e2
          apply hfresh
          rw [← e2]
          simp only [List.cons_append, List.mem_cons, List.mem_append, List.mem_map]
          exact Or.inr (Or.inl ⟨p, e, rfl⟩)
        simp only [LRUReplacer.newNode, Function.update_noteq hne]
        exact h.vals p e
      · simp only [List.mem_singleton] at e
        subst e
        simp [LRUReplacer.newNode]
    · rw [List.map_append, List.nodup_append]
      refine ⟨h.keys, by simp, ?_⟩
      intro y hy hy2
      simp only [List.map_cons, List.map_nil, List.mem_singleton] at hy2
      subst hy2
      obtain ⟨p, hp, rfl⟩ := List.mem_map.1 hy
      exact hnotin p.2 hp
    · rw [hm']; exact mapSorted_mapAssign _ _ _ h.sorted
    · intro y a
      rw [hm', mapFind_mapAssign]
      by_cases e : x = y
      · subst e
        simp only [if_true, Option.some.injEq, List.mem_append, List.mem_singleton,
          Prod.mk.injEq, true_and]
        constructor
        · intro e; exact Or.inr e.symm
        · rintro (e | e)
          · exact absurd e (hnotin a)
          · exact e.symm
      · simp only [e, if_false, h.map, List.mem_append, List.mem_singleton, Prod.mk.injEq]
        constructor
        · intro e; exact Or.inl e
        · rintro (e2 | e2)
          · exact e2
          · exact absurd e2.1.symm e
    · rw [hm', length_mapAssign _ h.sorted, hx]
      simp [h.size]

end LRUOps

section LRUOps2

variable {T : Type} [LinearOrder T]

theorem split_perm (p1 p2 : List (T × Nat)) (q : T × Nat) :
    List.Perm (p1 ++ p2 ++ [q]) (p1 ++ q :: p2) := by
  rw [List.append_assoc]
  exact List.Perm.append_left _ (List.perm_append_singleton q p2)

theorem split_sublist (p1 p2 : List (T × Nat)) (q : T × Nat) :
    List.Sublist (p1 ++ p2) (p1 ++ q :: p2) :=
  List.Sublist.append_left (List.sublist_cons_self q p2) p1

theorem chain_sublist (h t : Nat) (l1 l2 : List Nat) (hs : List.Sublist l1 l2) :
    List.Sublist (h :: l1 ++ [t]) (h :: l2 ++ [t]) := by
  simp only [List.cons_append]
  exact List.Sublist.cons₂ _ (List.Sublist.append_right hs _)

/-- The state after unlinking the node of a tracked value: all of `Rep` but the
`node_map` part, for the list without that value. -/
theorem rep_unlink (r : LRUReplacer T) (p1 p2 : List (T × Nat)) (x : T) (c : Nat)
    (h : Rep r (p1 ++ (x, c) :: p2)) :
    ∃ p n, (r.mem c).prev_node = some p ∧ (r.mem c).next_node = some n ∧ p ≠ c ∧ n ≠ c
      ∧ Fwd ((r.setNext p (some n)).setPrev n (some p))
          (r.head_node :: (p1 ++ p2).map Prod.snd ++ [r.tail_node])
      ∧ Bwd ((r.setNext p (some n)).setPrev n (some p))
          (r.head_node :: (p1 ++ p2).map Prod.snd ++ [r.tail_node])
      ∧ (r.head_node :: (p1 ++ p2).map Prod.snd ++ [r.tail_node]).Nodup
      ∧ c ∉ r.head_node :: (p1 ++ p2).map Prod.snd ++ [r.tail_node]
      ∧ (∀ a, (x, a) ∉ p1 ++ p2) := by
  have hf := h.fwd
  have hb := h.bwd
  have hn := h.nodup
  simp only [List.map_append, List.map_cons] at hf hb hn
  obtain ⟨p, n, hp, hnx, hpc, hnc, hf2, hb2⟩ := unlink_spec r _ _ c hf hb hn
  refine ⟨p, n, hp, hnx, hpc, hnc, by simpa using hf2, by simpa using hb2, ?_, ?_, ?_⟩
  · rw [List.map_append]
    exact List.Nodup.sublist (chain_sublist _ _ _ _
      (List.Sublist.append_left (List.sublist_cons_self c _) _)) hn
  · rw [List.map_append]
    intro hmem
    have hperm : List.Perm (r.head_node :: (p1.map Prod.snd ++ c :: p2.map Prod.snd) ++ [r.tail_node])
        (c :: (r.head_node :: (p1.map Prod.snd ++ p2.map Prod.snd) ++ [r.tail_node])) :=
      (chain_perm _ _ _ _ List.perm_middle).trans (List.Perm.swap _ _ _)
    have := (List.Perm.nodup_iff hperm).1 hn
    exact (List.nodup_cons.1 this).1 hmem
  · intro a ha
    have hk := h.keys
    have hperm : List.Perm (p1 ++ (x, c) :: p2) ((x, c) :: (p1 ++ p2)) := List.perm_middle
    have hk2 := (List.Perm.nodup_iff (hperm.map Prod.fst)).1 hk
    rw [List.map_cons, List.nodup_cons] at hk2
    exact hk2.1 (List.mem_map.2 ⟨(x, a), ha, rfl⟩)

theorem rep_insert_tracked (r : LRUReplacer T) (p1 p2 : List (T × Nat)) (x : T) (c : Nat)
    (h : Rep r (p1 ++ (x, c) :: p2)) :
    ∃ r1, r.Insert x = some r1 ∧ Rep r1 (p1 ++ p2 ++ [(x, c)]) := by
  obtain ⟨p, n, hp, hnx, hpc, hnc, hf2, hb2, hn2, hc2, hx2⟩ := rep_unlink r p1 p2 x c h
  have hfind : mapFind r.node_map x = some c := (h.map x c).2 (by simp)
  obtain ⟨r1, hr1, hf, hb, hh, ht, ha, hm, hv⟩ :=
    linkLast_spec ((r.setNext p (some n)).setPrev n (some p)) ((p1 ++ p2).map Prod.snd) c x
      hf2 hb2 hn2 hc2
  refine ⟨r1, ?_, ?_⟩
  · simp only [LRUReplacer.Insert, hfind, hp, hnx]
    exact hr1
  · have hh' : r1.head_node = r.head_node := hh
    have ht' : r1.tail_node = r.tail_node := ht
    have ha' : r1.next_addr = r.next_addr := ha
    have hm' : r1.node_map = mapAssign r.node_map x c := hm
    have hperm := split_perm p1 p2 (x, c)
    have hcperm := chain_perm r.head_node r.tail_node _ _ (hperm.map Prod.snd)
    constructor
    · rw [hh', ht']; simpa using hf
    · rw [hh', ht']; simpa using hb
    · rw [hh', ht']
      exact (List.Perm.nodup_iff hcperm).2 h.nodup
    · rw [hh', ht', ha']
      intro a hmem
      exact h.alloc a (hcperm.mem_iff.1 hmem)
    · intro q hq
      rw [hv]
      simp only [setPrev_value, setNext_value]
      exact h.vals q (hperm.mem_iff.1 hq)
    · exact (List.Perm.nodup_iff (hperm.map Prod.fst)).2 h.keys
    · rw [hm']; exact mapSorted_mapAssign _ _ _ h.sorted
    · intro y a
      rw [hm', mapFind_mapAssign, hperm.mem_iff]
      by_cases e : x = y
      · subst e
        simp only [if_true, Option.some.injEq]
        constructor
        · intro e; subst e; simp
        · intro e
          exact keys_unique _ h.keys x c a (by simp) e
      · simp only [e, if_false, h.map]
    · rw [hm', length_mapAssign _ h.sorted, hfind]
      simp [h.size]

theorem rep_erase_tracked (r : LRUReplacer T) (p1 p2 : List (T × Nat)) (x : T) (c : Nat)
    (h : Rep r (p1 ++ (x, c) :: p2)) :
    ∃ r1, r.Erase x = some (true, r1) ∧ Rep r1 (p1 ++ p2) ∧ r1.Size + 1 = r.Size := by
  obtain ⟨p, n, hp, hnx, hpc, hnc, hf2, hb2, hn2, hc2, hx2⟩ := rep_unlink r p1 p2 x c h
  have hfind : mapFind r.node_map x = some c := (h.map x c).2 (by simp)
  have hsub := split_sublist p1 p2 (x, c)
  refine ⟨{ (r.setNext p (some n)).setPrev n (some p) with node_map := mapErase r.node_map x },
    ?_, ?_, ?_⟩
  · simp only [LRUReplacer.Erase, hfind, hp, hnx, setNext_next, setNext_prev, hpc.symm,
      if_false, Option.isSome_some]
  · constructor
    · exact hf2
    · exact hb2
    · exact hn2
    · intro a hmem
      exact h.alloc a ((chain_sublist _ _ _ _ (hsub.map Prod.snd)).subset hmem)
    · intro q hq
      simp only [setPrev_value, setNext_value]
      exact h.vals q (hsub.subset hq)
    · exact List.Nodup.sublist (hsub.map Prod.fst) h.keys
    · exact mapSorted_mapErase _ _ h.sorted
    · intro y a
      show mapFind (mapErase r.node_map x) y = some a ↔ _
      rw [mapFind_mapErase _ h.sorted]
      by_cases e : x = y
      · subst e
        simp only [if_true]
        constructor
        · intro e; exact Option.noConfusion e
        · intro e; exact absurd e (hx2 a)
      · simp only [e, if_false, h.map, List.mem_append, List.mem_cons, Prod.mk.injEq]
        constructor
        · rintro (e1 | e1 | e1)
          · exact Or.inl e1
          · exact absurd e1.1.symm e
          · exact Or.inr e1
        · rintro (e1 | e1)
          · exact Or.inl e1
          · exact Or.inr (Or.inr e1)
    · show (mapErase r.node_map x).length = _
      have := length_mapErase r.node_map x (by rw [hfind]; rfl)
      have h2 := h.size
      simp only [List.length_append, List.length_cons] at h2 ⊢
      omega
  · show (mapErase r.node_map x).length + 1 = r.node_map.length
    exact length_mapErase r.node_map x (by rw [hfind]; rfl)

theorem erase_untracked (r : LRUReplacer T) (x : T) (hx : mapFind r.node_map x = none) :
    r.Erase x = some (false, r) := by
  simp only [LRUReplacer.Erase, hx, mapErase_of_not_found _ _ hx]
  rfl

theorem victim_nil (r : LRUReplacer T) (v : T) (h : r.node_map = []) :
    r.Victim v = some (false, v, r) := by
  simp [LRUReplacer.Victim, h]

theorem rep_victim_cons (r : LRUReplacer T) (ps : List (T × Nat)) (x : T) (c : Nat) (v : T)
    (h : Rep r ((x, c) :: ps)) :
    ∃ r1, r.Victim v = some (true, x, r1) ∧ Rep r1 ps ∧ r1.Size + 1 = r.Size := by
  obtain ⟨r1, h1, h2, h3⟩ := rep_erase_tracked r [] ps x c h
  obtain ⟨p, n, hp, hnx, hpc, hnc, -⟩ := rep_unlink r [] ps x c h
  have hfind : mapFind r.node_map x = some c := (h.map x c).2 (by simp)
  have hne : r.node_map.isEmpty = false := by
    cases hm : r.node_map with
    | nil => rw [hm] at hfind; simp [mapFind] at hfind
    | cons q m => rfl
  have hf := h.fwd
  have hb := h.bwd
  unfold Fwd at hf
  unfold Bwd at hb
  simp only [List.map_cons, List.cons_append, List.nil_append] at hf hb
  rw [List.chain'_cons] at hf hb
  have hph : p = r.head_node := by
    have := hb.1
    rw [hp] at this
    exact Option.some.inj this
  subst hph
  have hval : (r.mem c).value = some x := h.vals (x, c) (by simp)
  simp only [LRUReplacer.Erase, hfind, hp, hnx, setNext_next, setNext_prev, hpc.symm,
      if_false, Option.isSome_some] at h1
  refine ⟨r1, ?_, h2, h3⟩
  simp only [LRUReplacer.Victim, hne, hf.1, hnx, setNext_next, hpc.symm, if_false,
    setPrev_value, setNext_value, hval]
  simpa using h1

end LRUOps2

section LRUFinal

variable {T : Type} [LinearOrder T]

theorem rep_tracked_iff (r : LRUReplacer T) (ps : List (T × Nat)) (h : Rep r ps) (x : T) :
    r.tracked x ↔ x ∈ ps.map Prod.fst := by
  unfold LRUReplacer.tracked
  rw [Option.isSome_iff_exists]
  constructor
  · rintro ⟨a, ha⟩
    exact List.mem_map.2 ⟨(x, a), (h.map x a).1 ha, rfl⟩
  · intro hx
    obtain ⟨p, hp, rfl⟩ := List.mem_map.1 hx
    exact ⟨p.2, (h.map p.1 p.2).2 hp⟩

theorem rep_split (r : LRUReplacer T) (ps : List (T × Nat)) (h : Rep r ps) (x : T)
    (hx : r.tracked x) : ∃ p1 p2 c, ps = p1 ++ (x, c) :: p2 := by
  unfold LRUReplacer.tracked at hx
  rw [Option.isSome_iff_exists] at hx
  obtain ⟨c, hc⟩ := hx
  obtain ⟨p1, p2, e⟩ := List.append_of_mem ((h.map x c).1 hc)
  exact ⟨p1, p2, c, e⟩

theorem not_tracked_iff (r : LRUReplacer T) (x : T) :
    ¬ r.tracked x ↔ mapFind r.node_map x = none := by
  unfold LRUReplacer.tracked
  cases mapFind r.node_map x <;> simp

theorem erase_split (L1 L2 : List T) (x : T) (h : x ∉ L1) :
    (L1 ++ x :: L2).erase x = L1 ++ L2 := by
  rw [List.erase_append_right _ h]
  simp

/-- The abstract effect of `Insert` on a represented state. -/
theorem rep_insert (r : LRUReplacer T) (ps : List (T × Nat)) (x : T) (h : Rep r ps) :
    ∃ r1 ps1, r.Insert x = some r1 ∧ Rep r1 ps1
      ∧ ps1.map Prod.fst = (ps.map Prod.fst).erase x ++ [x]
      ∧ (r.tracked x → r1.Size = r.Size) ∧ (¬ r.tracked x → r1.Size = r.Size + 1) := by
  by_cases hx : r.tracked x
  · obtain ⟨p1, p2, c, rfl⟩ := rep_split r ps h x hx
    obtain ⟨r1, h1, h2⟩ := rep_insert_tracked r p1 p2 x c h
    refine ⟨r1, _, h1, h2, ?_, ?_, fun hn => absurd hx hn⟩
    · have hk := h.keys
      rw [List.map_append, List.map_cons, List.nodup_append] at hk
      have hx1 : x ∉ p1.map Prod.fst := fun hm => hk.2.2 hm (List.mem_cons_self _ _)
      simp only [List.map_append, List.map_cons, List.map_nil]
      rw [erase_split _ _ _ hx1]
    · intro _
      unfold LRUReplacer.Size
      rw [h2.size, h.size]
      simp
  · have hx' := (not_tracked_iff r x).1 hx
    obtain ⟨r1, h1, h2⟩ := rep_insert_untracked r ps x h hx'
    refine ⟨r1, _, h1, h2, ?_, fun hn => absurd hn hx, ?_⟩
    · have : x ∉ ps.map Prod.fst := fun hm => hx ((rep_tracked_iff r ps h x).2 hm)
      simp only [List.map_append, List.map_cons, List.map_nil]
      rw [List.erase_of_not_mem this]
    · intro _
      unfold LRUReplacer.Size
      rw [h2.size, h.size]
      simp

/-- The abstract effect of `Erase` on a represented state. -/
theorem rep_erase (r : LRUReplacer T) (ps : List (T × Nat)) (x : T) (h : Rep r ps) :
    ∃ r1 ps1, r.Erase x = some (r.tracked x, r1) ∧ Rep r1 ps1
      ∧ ps1.map Prod.fst = (ps.map Prod.fst).erase x
      ∧ (r.tracked x → r1.Size + 1 = r.Size) ∧ (¬ r.tracked x → r1 = r) := by
  by_cases hx : r.tracked x
  · obtain ⟨p1, p2, c, rfl⟩ := rep_split r ps h x hx
    obtain ⟨r1, h1, h2, h3⟩ := rep_erase_tracked r p1 p2 x c h
    refine ⟨r1, _, by simpa [hx] using h1, h2, ?_, fun _ => h3, fun hn => absurd hx hn⟩
    have hk := h.keys
    rw [List.map_append, List.map_cons, List.nodup_append] at hk
    have hx1 : x ∉ p1.map Prod.fst := fun hm => hk.2.2 hm (List.mem_cons_self _ _)
    simp only [List.map_append, List.map_cons]
    rw [erase_split _ _ _ hx1]
  · have hx' := (not_tracked_iff r x).1 hx
    refine ⟨r, ps, by simpa [hx] using erase_untracked r x hx', h, ?_, fun hn => absurd hn hx,
      fun _ => rfl⟩
    have : x ∉ ps.map Prod.fst := fun hm => hx ((rep_tracked_iff r ps h x).2 hm)
    rw [List.erase_of_not_mem this]

/-- The abstract effect of `Victim` on a represented state. -/
theorem rep_victim (r : LRUReplacer T) (ps : List (T × Nat)) (v : T) (h : Rep r ps) :
    (ps = [] ∧ r.Victim v = some (false, v, r))
    ∨ ∃ x c ps1 r1, ps = (x, c) :: ps1 ∧ r.Victim v = some (true, x, r1) ∧ Rep r1 ps1
        ∧ r1.Size + 1 = r.Size := by
  cases ps with
  | nil =>
    left
    refine ⟨rfl, victim_nil r v ?_⟩
    have := h.size
    simpa using this
  | cons p ps1 =>
    right
    obtain ⟨x, c⟩ := p
    obtain ⟨r1, h1, h2, h3⟩ := rep_victim_cons r ps1 x c v h
    exact ⟨x, c, ps1, r1, rfl, h1, h2, h3⟩

theorem rep_drain (n : Nat) (r : LRUReplacer T) (ps : List (T × Nat)) (v : T) (h : Rep r ps)
    (hn : ps.length < n) :
    ∃ r1, drain n r v = some (ps.map Prod.fst, r1) ∧ Rep r1 [] := by
  induction n generalizing r ps v with
  | zero => omega
  | succ n ih =>
    rcases rep_victim r ps v h with ⟨rfl, hv⟩ | ⟨x, c, ps1, r1, rfl, hv, hr, -⟩
    · exact ⟨r, by simp [drain, hv], h⟩
    · have hlen : ps1.length < n := by simp at hn; omega
      obtain ⟨r2, hd, hr2⟩ := ih r1 ps1 x hr hlen
      exact ⟨r2, by simp [drain, hv, hd], hr2⟩

theorem rep_victimOrder (r : LRUReplacer T) (ps : List (T × Nat)) (v : T) (h : Rep r ps) :
    victimOrder r v = some (ps.map Prod.fst) := by
  obtain ⟨r1, hd, -⟩ := rep_drain (r.Size + 1) r ps v h (by unfold LRUReplacer.Size; rw [h.size]; omega)
  simp [victimOrder, hd]

theorem run_rep (log : List T) (r : LRUReplacer T) (h : LRURun log r) :
    ∃ ps, Rep r ps ∧ Aged log (ps.map Prod.fst) := by
  induction h with
  | init => exact ⟨[], rep_init, by simp [Aged]⟩
  | @insert log r r1 x _ hi ih =>
    obtain ⟨ps, hr, ha⟩ := ih
    obtain ⟨r2, ps1, h1, h2, h3, -⟩ := rep_insert r ps x hr
    rw [h1] at hi
    cases hi
    refine ⟨ps1, h2, ?_⟩
    rw [h3]
    unfold Aged at ha ⊢
    rw [List.pairwise_append]
    refine ⟨?_, by simp, ?_⟩
    · have hsub : List.Sublist ((ps.map Prod.fst).erase x) (ps.map Prod.fst) :=
        List.erase_sublist _ _
      have hk : (ps.map Prod.fst).Nodup := hr.keys
      have hp : List.Pairwise (fun a b => a ≠ x ∧ b ≠ x ∧ log.indexOf b < log.indexOf a)
          ((ps.map Prod.fst).erase x) := by
        have h5 := List.Pairwise.sublist hsub ha
        rw [List.pairwise_iff_forall_sublist] at h5 ⊢
        intro a b hab
        have hma : a ∈ (ps.map Prod.fst).erase x := hab.subset (by simp)
        have hmb : b ∈ (ps.map Prod.fst).erase x := hab.subset (by simp)
        exact ⟨(hk.mem_erase_iff.1 hma).1, (hk.mem_erase_iff.1 hmb).1, h5 hab⟩
      refine hp.imp ?_
      rintro a b ⟨h6, h7, h8⟩
      rw [List.indexOf_cons_ne _ (Ne.symm h6), List.indexOf_cons_ne _ (Ne.symm h7)]
      omega
    · intro a ha2 b hb
      simp only [List.mem_singleton] at hb
      subst hb
      have hk : (ps.map Prod.fst).Nodup := hr.keys
      have hne : a ≠ b := (hk.mem_erase_iff.1 ha2).1
      rw [List.indexOf_cons_self, List.indexOf_cons_ne _ (Ne.symm hne)]
      omega
  | @victim log r r1 v x b _ hv ih =>
    obtain ⟨ps, hr, ha⟩ := ih
    rcases rep_victim r ps v hr with ⟨rfl, h1⟩ | ⟨y, c, ps1, r2, rfl, h1, h2, -⟩
    · rw [h1] at hv
      cases hv
      exact ⟨[], hr, ha⟩
    · rw [h1] at hv
      cases hv
      refine ⟨ps1, h2, ?_⟩
      unfold Aged at ha ⊢
      rw [List.map_cons, List.pairwise_cons] at ha
      exact ha.2
  | @erase log r r1 x b _ he ih =>
    obtain ⟨ps, hr, ha⟩ := ih
    obtain ⟨r2, ps1, h1, h2, h3, -⟩ := rep_erase r ps x hr
    rw [h1] at he
    cases he
    refine ⟨ps1, h2, ?_⟩
    rw [h3]
    exact List.Pairwise.sublist (List.erase_sublist _ _) ha

theorem reachable_rep (r : LRUReplacer T) (h : LRUReachable r) : ∃ ps, Rep r ps := by
  obtain ⟨log, hl⟩ := h
  obtain ⟨ps, hr, -⟩ := run_rep log r hl
  exact ⟨ps, hr⟩

end LRUFinal

section LRUSequences

variable {T : Type} [LinearOrder T]

theorem rep_insertValues (xs : List T) (r : LRUReplacer T) (ps : List (T × Nat)) (h : Rep r ps)
    (hd : ∀ x ∈ xs, x ∉ ps.map Prod.fst) (hn : xs.Nodup) :
    ∃ r1 ps1, insertValues r xs = some r1 ∧ Rep r1 ps1 ∧ ps1.map Prod.fst = ps.map Prod.fst ++ xs := by
  induction xs generalizing r ps with
  | nil => exact ⟨r, ps, rfl, h, by simp⟩
  | cons x xs ih =>
    obtain ⟨r1, ps1, h1, h2, h3, -⟩ := rep_insert r ps x h
    rw [List.erase_of_not_mem (hd x (List.mem_cons_self _ _))] at h3
    rw [List.nodup_cons] at hn
    obtain ⟨r2, ps2, h4, h5, h6⟩ := ih r1 ps1 h2 (by
      intro y hy hm
      rw [h3, List.mem_append, List.mem_singleton] at hm
      rcases hm with hm | hm
      · exact hd y (List.mem_cons_of_mem _ hy) hm
      · exact hn.1 (hm ▸ hy)) hn.2
    refine ⟨r2, ps2, by simp [insertValues, h1, h4], h5, ?_⟩
    rw [h6, h3]; simp

theorem run_insertValues (xs : List T) (log : List T) (r r1 : LRUReplacer T) (h : LRURun log r)
    (hi : insertValues r xs = some r1) : LRURun (xs.reverse ++ log) r1 := by
  induction xs generalizing r log with
  | nil =>
    simp only [insertValues, Option.some.injEq] at hi
    subst hi
    simpa using h
  | cons x xs ih =>
    simp only [insertValues] at hi
    cases hx : r.Insert x with
    | none => rw [hx] at hi; exact Option.noConfusion hi
    | some r2 =>
      rw [hx] at hi
      have := ih (x :: log) r2 (LRURun.insert x h hx) hi
      simpa using this

theorem without_rep (x : T) (r r2 : LRUReplacer T) (ps : List (T × Nat)) (h : Rep r ps)
    (hx : x ∉ ps.map Prod.fst) (hw : Without x r r2) :
    ∃ ps2, Rep r2 ps2 ∧ x ∉ ps2.map Prod.fst := by
  induction hw with
  | refl => exact ⟨ps, h, hx⟩
  | @insert r1 r2 y _ hne hi ih =>
    obtain ⟨ps1, hr, hx1⟩ := ih
    obtain ⟨r3, ps3, h1, h2, h3, -⟩ := rep_insert r1 ps1 y hr
    rw [h1] at hi
    cases hi
    refine ⟨ps3, h2, ?_⟩
    rw [h3, List.mem_append, List.mem_singleton]
    rintro (hm | hm)
    · exact hx1 (List.mem_of_mem_erase hm)
    · exact hne hm.symm
  | @victim r1 r2 v y b _ hv ih =>
    obtain ⟨ps1, hr, hx1⟩ := ih
    rcases rep_victim r1 ps1 v hr with ⟨rfl, h1⟩ | ⟨z, c, ps3, r3, rfl, h1, h2, -⟩
    · rw [h1] at hv
      cases hv
      exact ⟨[], hr, hx1⟩
    · rw [h1] at hv
      cases hv
      exact ⟨ps3, h2, fun hm => hx1 (by simp [hm])⟩
  | @erase r1 r2 y b _ he ih =>
    obtain ⟨ps1, hr, hx1⟩ := ih
    obtain ⟨r3, ps3, h1, h2, h3, -⟩ := rep_erase r1 ps1 y hr
    rw [h1] at he
    cases he
    refine ⟨ps3, h2, ?_⟩
    rw [h3]
    exact fun hm => hx1 (List.mem_of_mem_erase hm)

end LRUSequences

section LRUTheorems

variable {T : Type} [LinearOrder T]

theorem exampleReplacer_run : LRURun [2, 1] exampleReplacer :=
  run_insertValues [1, 2] [] LRUReplacer.init exampleReplacer LRURun.init rfl

theorem exampleReplacer_reachable : LRUReachable exampleReplacer :=
  ⟨[2, 1], exampleReplacer_run⟩

/-- Claim C3. After `Insert` of pairwise distinct values `x1 .. xn` into a
freshly constructed replacer, `n` successive `Victim` calls return true with
`x1, .., xn` in this order, and the call after them returns false. -/
theorem victims_in_insert_order (xs : List T) (v : T) (hn : xs.Nodup) :
    ∃ r r1, insertValues LRUReplacer.init xs = some r
      ∧ drain (xs.length + 1) r v = some (xs, r1) := by
  obtain ⟨r, ps, h1, h2, h3⟩ := rep_insertValues xs LRUReplacer.init [] rep_init (by simp) hn
  simp only [List.map_nil, List.nil_append] at h3
  obtain ⟨r1, h4, -⟩ := rep_drain (xs.length + 1) r ps v h2 (by
    have : ps.length = xs.length := by rw [← h3]; simp
    omega)
  rw [h3] at h4
  exact ⟨r, r1, h1, h4⟩

theorem victims_in_insert_order_witness :
    ([1, 2, 3] : List Nat).Nodup
    ∧ ∃ r r1, insertValues LRUReplacer.init [1, 2, 3] = some r
      ∧ drain (([1, 2, 3] : List Nat).length + 1) r 0 = some ([1, 2, 3], r1) :=
  ⟨by decide, victims_in_insert_order [1, 2, 3] 0 (by decide)⟩

/-- Claim C4. In a reachable replacer with victim order `L`, `Insert(x)`
makes the victim order `L` without `x`, followed by `x`, and leaves `Size()`
as it is when `x` was tracked; and for two different values `a`, `b`, after
`Insert(a)`, `Insert(b)`, `Insert(a)` on a freshly constructed replacer the
first `Victim` yields `b` and the second `a`. -/
theorem insert_refreshes (r : LRUReplacer T) (L : List T) (x v a b : T)
    (hr : LRUReachable r) (hL : victimOrder r v = some L) (hab : a ≠ b) :
    (∃ r1, r.Insert x = some r1 ∧ victimOrder r1 v = some (L.erase x ++ [x])
      ∧ (r.tracked x = true → r1.Size = r.Size))
    ∧ ∃ r2 r3 r4 v1, insertValues LRUReplacer.init [a, b, a] = some r2
      ∧ r2.Victim v = some (true, b, r3) ∧ r3.Victim v1 = some (true, a, r4) := by
  constructor
  · obtain ⟨ps, hp⟩ := reachable_rep r hr
    rw [rep_victimOrder r ps v hp, Option.some.injEq] at hL
    subst hL
    obtain ⟨r1, ps1, h1, h2, h3, h4, -⟩ := rep_insert r ps x hp
    exact ⟨r1, h1, by rw [rep_victimOrder r1 ps1 v h2, h3], h4⟩
  · obtain ⟨r0, ps, h1, h2, h3⟩ := rep_insertValues [a, b] LRUReplacer.init [] rep_init (by simp)
      (by simp [hab])
    obtain ⟨r, ps1, h4, h5, h6, -⟩ := rep_insert r0 ps a h2
    have h7 : ps1.map Prod.fst = [b, a] := by
      rw [h6, h3]; simp
    have hins : insertValues LRUReplacer.init [a, b, a] = some r := by
      simp only [insertValues] at h1 ⊢
      cases ha : (LRUReplacer.init : LRUReplacer T).Insert a with
      | none => rw [ha] at h1; exact Option.noConfusion h1
      | some ra =>
        rw [ha] at h1
        simp only at h1 ⊢
        cases hb : ra.Insert b with
        | none => rw [hb] at h1; exact Option.noConfusion h1
        | some rb =>
          rw [hb] at h1
          simp only [Option.some.injEq] at h1 ⊢
          subst h1
          simp [h4]
    rcases rep_victim r ps1 v h5 with ⟨rfl, -⟩ | ⟨y, c, ps2, r1, e1, hv1, hr1, -⟩
    · simp at h7
    · subst e1
      simp only [List.map_cons, List.cons.injEq] at h7
      obtain ⟨rfl, h8⟩ := h7
      rcases rep_victim r1 ps2 y hr1 with ⟨rfl, -⟩ | ⟨z, c2, ps3, r2, e2, hv2, -, -⟩
      · simp at h8
      · subst e2
        simp only [List.map_cons, List.cons.injEq] at h8
        obtain ⟨rfl, -⟩ := h8
        exact ⟨r, r1, r2, y, hins, hv1, hv2⟩

theorem insert_refreshes_witness :
    LRUReachable exampleReplacer ∧ victimOrder exampleReplacer 0 = some [1, 2] ∧ (1 : Nat) ≠ 2
    ∧ (∃ r1, exampleReplacer.Insert 1 = some r1
      ∧ victimOrder r1 0 = some (([1, 2] : List Nat).erase 1 ++ [1])
      ∧ (exampleReplacer.tracked 1 = true → r1.Size = exampleReplacer.Size))
    ∧ ∃ r2 r3 r4 v1, insertValues LRUReplacer.init [1, 2, 1] = some r2
      ∧ r2.Victim 0 = some (true, 2, r3) ∧ r3.Victim v1 = some (true, 1, r4) :=
  ⟨exampleReplacer_reachable, by decide, by decide,
    insert_refreshes exampleReplacer [1, 2] 1 0 1 2 exampleReplacer_reachable (by decide)
      (by decide)⟩

/-- Claim C5. In a reachable replacer with victim order `L`, `Erase(x)` of an
untracked value returns false and changes nothing (state, `Size()`, victim
order); `Erase(x)` of a tracked value returns true, `Size()` drops by one, the
victim order is `L` without `x`, and no `Victim` call returns `x` in any state
reached afterwards by operations other than `Insert(x)`. -/
theorem erase_contract (r : LRUReplacer T) (L : List T) (x v : T)
    (hr : LRUReachable r) (hL : victimOrder r v = some L) :
    (r.tracked x = false →
      ∃ r1, r.Erase x = some (false, r1) ∧ r1 = r ∧ r1.Size = r.Size
        ∧ victimOrder r1 v = some L)
    ∧ (r.tracked x = true →
      ∃ r1, r.Erase x = some (true, r1) ∧ r1.Size + 1 = r.Size
        ∧ victimOrder r1 v = some (L.erase x)
        ∧ ∀ r2, Without x r1 r2 → ∀ v2 r3, r2.Victim v2 ≠ some (true, x, r3)) := by
  obtain ⟨ps, hp⟩ := reachable_rep r hr
  have hL0 := hL
  rw [rep_victimOrder r ps v hp, Option.some.injEq] at hL
  subst hL
  obtain ⟨r1, ps1, h1, h2, h3, h4, h5⟩ := rep_erase r ps x hp
  constructor
  · intro ht
    have := h5 (by simp [ht])
    subst this
    exact ⟨r1, by rw [h1, ht], rfl, rfl, hL0⟩
  · intro ht
    refine ⟨r1, by rw [h1, ht], h4 ht, by rw [rep_victimOrder r1 ps1 v h2, h3], ?_⟩
    intro r2 hw v2 r3 hv
    have hx1 : x ∉ ps1.map Prod.fst := by
      rw [h3]
      exact fun hm => (hp.keys.mem_erase_iff.1 hm).1 rfl
    obtain ⟨ps2, hr2, hx2⟩ := without_rep x r1 r2 ps1 h2 hx1 hw
    rcases rep_victim r2 ps2 v2 hr2 with ⟨rfl, h6⟩ | ⟨y, c, ps3, r4, rfl, h6, -, -⟩
    · rw [h6] at hv
      simp at hv
    · rw [h6] at hv
      simp only [Option.some.injEq, Prod.mk.injEq, true_and] at hv
      exact hx2 (by simp [hv.1])

theorem erase_contract_witness :
    LRUReachable exampleReplacer ∧ victimOrder exampleReplacer 0 = some [1, 2]
    ∧ (exampleReplacer.tracked 1 = false →
      ∃ r1, exampleReplacer.Erase 1 = some (false, r1) ∧ r1 = exampleReplacer
        ∧ r1.Size = exampleReplacer.Size ∧ victimOrder r1 0 = some [1, 2])
    ∧ (exampleReplacer.tracked 1 = true →
      ∃ r1, exampleReplacer.Erase 1 = some (true, r1) ∧ r1.Size + 1 = exampleReplacer.Size
        ∧ victimOrder r1 0 = some (([1, 2] : List Nat).erase 1)
        ∧ ∀ r2, Without 1 r1 r2 → ∀ v2 r3, r2.Victim v2 ≠ some (true, 1, r3)) :=
  ⟨exampleReplacer_reachable, by decide,
    erase_contract exampleReplacer [1, 2] 1 0 exampleReplacer_reachable (by decide)⟩

/-- Claim C6. After any run of operations, `Victim` returns false exactly when
`Size()` is 0, and then leaves the replacer and its output argument as they
are; otherwise it returns true with a tracked value whose last `Insert` lies
further back than that of every other tracked value, this value is no longer
tracked afterwards, every other value is tracked as before, and `Size()` has
dropped by one. -/
theorem victim_contract (log : List T) (r : LRUReplacer T) (v : T) (hr : LRURun log r) :
    (r.Size = 0 → r.Victim v = some (false, v, r))
    ∧ (r.Size ≠ 0 →
      ∃ x r1, r.Victim v = some (true, x, r1) ∧ r.tracked x = true
        ∧ (∀ z, r.tracked z = true → z ≠ x → log.indexOf x > log.indexOf z)
        ∧ r1.tracked x = false ∧ (∀ z, z ≠ x → r1.tracked z = r.tracked z)
        ∧ r1.Size + 1 = r.Size) := by
  obtain ⟨ps, hp, ha⟩ := run_rep log r hr
  rcases rep_victim r ps v hp with ⟨rfl, h1⟩ | ⟨x, c, ps1, r1, rfl, h1, h2, h3⟩
  · refine ⟨fun _ => h1, fun hs => ?_⟩
    exact absurd (by unfold LRUReplacer.Size; rw [hp.size]; rfl) hs
  · refine ⟨fun hs => by omega, fun _ => ⟨x, r1, h1, ?_, ?_, ?_, ?_, h3⟩⟩
    · exact (rep_tracked_iff r _ hp x).2 (by simp)
    · intro z hz hzx
      have hz1 := (rep_tracked_iff r _ hp z).1 hz
      rw [List.map_cons, List.mem_cons] at hz1
      rcases hz1 with e | e
      · exact absurd e hzx
      · unfold Aged at ha
        rw [List.map_cons, List.pairwise_cons] at ha
        exact ha.1 z e
    · have hk := hp.keys
      rw [List.map_cons, List.nodup_cons] at hk
      have := (rep_tracked_iff r1 ps1 h2 x).not.2 hk.1
      simpa using this
    · intro z hzx
      have e1 := rep_tracked_iff r1 ps1 h2 z
      have e2 := rep_tracked_iff r _ hp z
      rw [List.map_cons, List.mem_cons] at e2
      have : (r1.tracked z = true) ↔ (r.tracked z = true) := by
        rw [e1, e2]
        constructor
        · exact Or.inr
        · rintro (e | e)
          · exact absurd e hzx
          · exact e
      exact Bool.eq_iff_iff.2 this

theorem victim_contract_witness :
    LRURun [2, 1] exampleReplacer
    ∧ (exampleReplacer.Size = 0 → exampleReplacer.Victim 0 = some (false, 0, exampleReplacer))
    ∧ (exampleReplacer.Size ≠ 0 →
      ∃ x r1, exampleReplacer.Victim 0 = some (true, x, r1) ∧ exampleReplacer.tracked x = true
        ∧ (∀ z, exampleReplacer.tracked z = true → z ≠ x →
            ([2, 1] : List Nat).indexOf x > ([2, 1] : List Nat).indexOf z)
        ∧ r1.tracked x = false ∧ (∀ z, z ≠ x → r1.tracked z = exampleReplacer.tracked z)
        ∧ r1.Size + 1 = exampleReplacer.Size) :=
  ⟨exampleReplacer_run, victim_contract [2, 1] exampleReplacer 0 exampleReplacer_run⟩

end LRUTheorems

/-! ## ExtendibleHash: monotonicity, placement of keys, the split -/

section HashTheorems2

variable {K V : Type} [LinearOrder K]

/-- A pass of `Insert(5, 20)` on the table with the keys 1 and 3 either has no
result or splits as it does when the loop passes over the entry of key 3. -/
theorem oddTable_pass (r : List Nat) :
    InsertPassWith id r oddTable 5 20 = Pass.undefined
    ∨ InsertPassWith id r oddTable 5 20 = InsertPassWith id [1] oddTable 5 20 := by
  cases r with
  | nil => exact Or.inl rfl
  | cons j r1 =>
    cases j with
    | zero => exact Or.inl rfl
    | succ j1 => exact Or.inr rfl

theorem oddTable_pass_one :
    ∃ t2, InsertPassWith id [1] oddTable 5 20 = Pass.split t2
      ∧ Insert id 1 t2 5 20 = some strandedTable :=
  ⟨_, rfl, rfl⟩

/-- Every completed run of `Insert(5, 20)` on the table with the keys 1 and 3
ends in `strandedTable`. -/
theorem oddTable_insert_unique (resume : List (List Nat)) (fuel : Nat)
    (t : ExtendibleHash Nat Nat) (h : InsertWith id resume fuel oddTable 5 20 = some t) :
    t = strandedTable := by
  cases fuel with
  | zero => simp [InsertWith] at h
  | succ n =>
    simp only [InsertWith] at h
    obtain ⟨t2, h1, h2⟩ := oddTable_pass_one
    rcases oddTable_pass (resume.headD []) with e | e
    · rw [e] at h; exact Option.noConfusion h
    · rw [e, h1] at h
      exact insertWith_unique id _ 1 n t2 strandedTable t 5 20 h2 h

/-- Every completed run of `Insert(1, 0)`, `Insert(3, 10)`, `Insert(5, 20)` on a
fresh table of capacity 2 ends in `strandedTable`. -/
theorem stranded_unique (t : ExtendibleHash Nat Nat)
    (h : InsertsTo id (ExtendibleHash.init 2) [(1, 0), (3, 10), (5, 20)] t) :
    t = strandedTable := by
  cases h with
  | cons r1 f1 _ _ _ h1 hrest1 =>
    have d1 : Insert id 1 (ExtendibleHash.init 2) 1 0 = some (tableOf id 2 1 [(1, 0)]) := rfl
    have d2 : Insert id 1 (tableOf id 2 1 [(1, 0)]) 3 10 = some oddTable := rfl
    have e1 := insertWith_unique id r1 1 f1 (ExtendibleHash.init 2)
      (tableOf id 2 1 [(1, 0)]) _ 1 0 d1 h1
    subst e1
    cases hrest1 with
    | cons r2 f2 _ _ _ h2 hrest2 =>
      have e2 := insertWith_unique id r2 1 f2 (tableOf id 2 1 [(1, 0)]) oddTable _ 3 10 d2 h2
      subst e2
      cases hrest2 with
      | cons r3 f3 _ _ _ h3 hrest3 =>
        cases hrest3
        exact oddTable_insert_unique r3 f3 _ h3

/-- Claim C1, the code evaluated against it. With bucket capacity 2 and the
identity as hash, the calls `Insert(1, 0)`, `Insert(3, 10)`, `Insert(5, 20)`
complete (the third with a split that erases the first entry and decrements
`begin()`), the last value inserted for key 3 is 10, and `Find(3)` returns
false afterwards; this is so in every completed run of the three calls,
whatever position the iterator takes after the decrement. As C++ defines the
calls, the third has no result. -/
theorem roundtrip_loses_key :
    InsertsTo id (ExtendibleHash.init 2) [(1, 0), (3, 10), (5, 20)] strandedTable
    ∧ 3 ∈ ([(1, 0), (3, 10), (5, 20)] : List (Nat × Nat)).map Prod.fst
    ∧ lastValue 3 ([(1, 0), (3, 10), (5, 20)] : List (Nat × Nat)) = some 10
    ∧ Find id strandedTable 3 0 = (false, 0)
    ∧ (∀ t : ExtendibleHash Nat Nat,
        InsertsTo id (ExtendibleHash.init 2) [(1, 0), (3, 10), (5, 20)] t →
        Find id t 3 0 = (false, 0))
    ∧ (∀ fuel, insertAll id fuel (ExtendibleHash.init 2) [(1, 0), (3, 10), (5, 20)] = none) := by
  refine ⟨strandedTable_insertsTo, by decide, rfl, rfl, ?_, ?_⟩
  · intro t ht
    rw [stranded_unique t ht]
    rfl
  · intro fuel
    cases fuel with
    | zero => rfl
    | succ n =>
      have h1 : Insert id (n + 1) (ExtendibleHash.init 2) 1 0 = some (tableOf id 2 1 [(1, 0)]) := rfl
      have h2 : Insert id (n + 1) (tableOf id 2 1 [(1, 0)]) 3 10 = some oddTable := rfl
      have h3 : Insert id (n + 1) oddTable 5 20 = none := rfl
      simp only [insertAll, h1, h2, h3]

/-- Claim C2, the code evaluated against it. In the table that `Insert(1, 0)`,
`Insert(3, 10)`, `Insert(5, 20)` leave (capacity 2, identity hash) key 3 is
stored, in the bucket of slot 0, and `Remove(3)` returns false and leaves it
there: it looks in the bucket of slot 1. This is so in every completed run of
the three calls. -/
theorem remove_misses_stored_key :
    Reachable id 2 strandedTable
    ∧ Stored strandedTable 3
    ∧ ((3 : Nat), (10 : Nat)) ∈ (strandedTable.bucketAt 0).map_k
    ∧ GetIndexOfBuckets id strandedTable 3 = 1
    ∧ (Remove id strandedTable 3).1 = false
    ∧ Stored (Remove id strandedTable 3).2 3
    ∧ (∀ t : ExtendibleHash Nat Nat,
        InsertsTo id (ExtendibleHash.init 2) [(1, 0), (3, 10), (5, 20)] t →
        Stored t 3 ∧ (Remove id t 3).1 = false) := by
  have hst : Stored strandedTable 3 := ⟨0, by decide, by decide⟩
  refine ⟨strandedTable_reachable, hst, by decide, by decide, rfl, ⟨0, by decide, by decide⟩, ?_⟩
  intro t ht
  rw [stranded_unique t ht]
  exact ⟨hst, rfl⟩

/-- Claim C9, the code evaluated against it. In the table that `Insert(1, 0)`,
`Insert(3, 10)`, `Insert(5, 20)` leave (capacity 2, identity hash) key 3 is
stored with value 10, yet `Insert(3, 10)` splits: it resolves key 3 to the
full bucket of slot 1, where the key is not. Every completed run of the call
raises `GetGlobalDepth()` from 1 to 2 and `GetNumBuckets()` from 2 to 3, and
leaves key 3 in two buckets. -/
theorem repeated_insert_splits :
    Reachable id 2 strandedTable
    ∧ Stored strandedTable 3
    ∧ ((3 : Nat), (10 : Nat)) ∈ (strandedTable.bucketAt 0).map_k
    ∧ GetGlobalDepth strandedTable = 1 ∧ GetNumBuckets strandedTable = 2
    ∧ InsertSplits id 2 strandedTable 3 10 = some 1
    ∧ (∃ t1, Insert id 2 strandedTable 3 10 = some t1
        ∧ GetGlobalDepth t1 = 2 ∧ GetNumBuckets t1 = 3
        ∧ t1.buckets ≠ strandedTable.buckets
        ∧ ((3 : Nat), (10 : Nat)) ∈ (t1.bucketAt 0).map_k
        ∧ ((3 : Nat), (10 : Nat)) ∈ (t1.bucketAt 3).map_k
        ∧ t1.slot 0 ≠ t1.slot 3)
    ∧ (∀ (resume : List (List Nat)) (fuel : Nat) (t1 : ExtendibleHash Nat Nat),
        InsertWith id resume fuel strandedTable 3 10 = some t1 →
        GetGlobalDepth t1 = 2 ∧ GetNumBuckets t1 = 3) := by
  refine ⟨strandedTable_reachable, ⟨0, by decide, by decide⟩, by decide, rfl, rfl, rfl,
    ⟨_, rfl, rfl, rfl, by decide, by decide, by decide, by decide⟩, ?_⟩
  intro resume fuel t1 h
  have := insertWith_unique id resume 2 fuel strandedTable _ t1 3 10 rfl h
  rw [this]
  exact ⟨rfl, rfl⟩

/-- Claim C17, the code evaluated against it. In the table that `Insert(1, 0)`,
`Insert(3, 10)`, `Insert(5, 20)` leave (capacity 2, identity hash) the bucket of
slot 0 has local depth 1 and holds key 3, whose hash is odd; `hash(3) & 1`
resolves to slot 1, which holds another bucket. This is so in every completed
run of the three calls; and after a further `Insert(3, 10)` key 3 is stored in
two buckets. -/
theorem stranded_key_off_home :
    Reachable id 2 strandedTable
    ∧ 0 < strandedTable.buckets.length
    ∧ ((3 : Nat), (10 : Nat)) ∈ (strandedTable.bucketAt 0).map_k
    ∧ (strandedTable.bucketAt 0).local_depth = 1
    ∧ id 3 % 2 ^ (strandedTable.bucketAt 0).local_depth
        ≠ 0 % 2 ^ (strandedTable.bucketAt 0).local_depth
    ∧ strandedTable.slot (GetIndexOfBuckets id strandedTable 3) ≠ strandedTable.slot 0
    ∧ (∀ t : ExtendibleHash Nat Nat,
        InsertsTo id (ExtendibleHash.init 2) [(1, 0), (3, 10), (5, 20)] t →
        ((3 : Nat), (10 : Nat)) ∈ (t.bucketAt 0).map_k
        ∧ id 3 % 2 ^ (t.bucketAt 0).local_depth ≠ 0 % 2 ^ (t.bucketAt 0).local_depth
        ∧ t.slot (GetIndexOfBuckets id t 3) ≠ t.slot 0)
    ∧ (∃ t1, InsertWith id [] 2 strandedTable 3 10 = some t1
        ∧ ((3 : Nat), (10 : Nat)) ∈ (t1.bucketAt 0).map_k
        ∧ ((3 : Nat), (10 : Nat)) ∈ (t1.bucketAt 3).map_k
        ∧ t1.slot 0 ≠ t1.slot 3) := by
  refine ⟨strandedTable_reachable, by decide, by decide, rfl, by decide, by decide, ?_,
    ⟨_, rfl, by decide, by decide, by decide⟩⟩
  intro t ht
  rw [stranded_unique t ht]
  exact ⟨by decide, by decide, by decide⟩

/-- Claim C11. No public operation on a reachable table lowers
`GetGlobalDepth()` or `GetNumBuckets()`; an `Insert` is covered whenever it
completes, also when a split of it has decremented `begin()`. -/
theorem depth_and_count_monotone (HashKey : K → Nat) (size : Nat) (t t1 : ExtendibleHash K V)
    (hr : Reachable HashKey size t) (hs : Step HashKey t t1) :
    GetGlobalDepth t ≤ GetGlobalDepth t1 ∧ GetNumBuckets t ≤ GetNumBuckets t1 := by
  have hi := (reachable_shape HashKey size t hr).1
  unfold GetGlobalDepth GetNumBuckets
  cases hs with
  | insert resume fuel key value hins =>
    obtain ⟨-, -, -, h4, h5⟩ := insertWith_spec HashKey resume fuel t t1 key value hi hins
    exact ⟨by exact_mod_cast h4, by exact_mod_cast h5⟩
  | remove key =>
    obtain ⟨-, h4, -, h6, -⟩ := shape_remove HashKey t hi key
    rw [h4, h6]
    exact ⟨le_refl _, le_refl _⟩
  | find _ _ => exact ⟨le_refl _, le_refl _⟩
  | getGlobalDepth => exact ⟨le_refl _, le_refl _⟩
  | getLocalDepth _ => exact ⟨le_refl _, le_refl _⟩
  | getNumBuckets => exact ⟨le_refl _, le_refl _⟩

theorem depth_and_count_monotone_witness :
    Reachable id 2 oddTable
    ∧ Step id oddTable strandedTable
    ∧ GetGlobalDepth oddTable ≤ GetGlobalDepth strandedTable
    ∧ GetNumBuckets oddTable ≤ GetNumBuckets strandedTable :=
  ⟨oddTable_reachable, Step.insert [[1]] 2 5 20 strandedTable_insert,
    depth_and_count_monotone id 2 oddTable strandedTable oddTable_reachable
      (Step.insert [[1]] 2 5 20 strandedTable_insert)⟩

/-- In a table that satisfies the structural invariant (as every table does
that is reached without a decrement of `begin()`) every key stored in the bucket of a slot
agrees with the index of that slot on the low `local_depth` bits of its hash,
the slot its hash resolves to holds that same bucket, and a key stored in the
buckets of two slots is stored in one and the same bucket. -/
theorem stored_keys_at_home (HashKey : K → Nat) (t : ExtendibleHash K V)
    (i : Nat) (key : K) (value : V)
    (h0 : Inv0 HashKey t) (hi : i < t.buckets.length)
    (hk : (key, value) ∈ (t.bucketAt i).map_k) :
    HashKey key % 2 ^ (t.bucketAt i).local_depth = i % 2 ^ (t.bucketAt i).local_depth
    ∧ t.slot (GetIndexOfBuckets HashKey t key) = t.slot i
    ∧ ∀ j w, j < t.buckets.length → (key, w) ∈ (t.bucketAt j).map_k → t.slot j = t.slot i := by
  have hi2 : i < 2 ^ t.global_depth := by rw [← h0.len]; exact hi
  have hidx : HashKey key % 2 ^ t.global_depth < 2 ^ t.global_depth :=
    Nat.mod_lt _ (Nat.two_pow_pos _)
  have hh := h0.home i hi2 _ hk
  have htarget : ∀ j w, j < 2 ^ t.global_depth → (key, w) ∈ (t.bucketAt j).map_k →
      t.slot j = t.slot (HashKey key % 2 ^ t.global_depth) := by
    intro j w hj hw
    have h1 := h0.home j hj _ hw
    apply (h0.share j hj _ hidx).2
    rw [mod_mod_pow _ _ _ (h0.depth j hj)]
    exact h1.symm
  refine ⟨hh, ?_, ?_⟩
  · unfold GetIndexOfBuckets
    rw [index_mask]
    exact (htarget i value hi2 hk).symm
  · intro j w hj hw
    rw [h0.len] at hj
    rw [htarget j w hj hw, htarget i value hi2 hk]

/-- Claim C14, evaluated at a table in which `Insert` splits a full bucket: with
capacity 2 and the keys 1 and 3 stored, `Insert(5, 20)` finds the bucket full
and enters the split; the first entry (key 1) has the mask bit, is erased, and
the `it--` that follows decrements `begin()`, so that the pass is undefined and
`Insert` has no result. When the loop goes on behind the entry of key 3, that
entry, whose hash has the mask bit as well, stays in the old bucket. -/
theorem split_with_first_entry_moved :
    Reachable id 2 oddTable
    ∧ (oddTable.bucketAt 0).map_k = [(1, 0), (3, 10)]
    ∧ (targetBucket id oddTable 5).map_k.length = oddTable.bucket_size
    ∧ mapFind (targetBucket id oddTable 5).map_k 5 = none
    ∧ redistribute id (2 ^ (targetBucket id oddTable 5).local_depth) []
        (targetBucket id oddTable 5).map_k ([] : List (Nat × Nat)) = none
    ∧ splitBucket id oddTable (oddTable.slot (GetIndexOfBuckets id oddTable 5)) = none
    ∧ InsertPass id oddTable 5 20 = Pass.undefined
    ∧ insertAll id 1 (ExtendibleHash.init 2) [(1, 0), (3, 10)] = some oddTable
    ∧ (∃ t2, InsertPassWith id [1] oddTable 5 20 = Pass.split t2
        ∧ (t2.bucketAt 0).map_k = [(3, 10)] ∧ (t2.bucketAt 1).map_k = [(1, 0)]
        ∧ Nat.testBit (id 3) 0 = true) := by
  refine ⟨oddTable_reachable, by decide, by decide, by decide, by decide, rfl, rfl, rfl,
    ⟨_, rfl, rfl, rfl, by decide⟩⟩

theorem singleTable_reachable : Reachable id 1 singleTable :=
  insertsTo_reachable id 1 _ _ [(1, 0)] Reachable.init
    (insertAll_insertsTo id 1 _ _ [(1, 0)] rfl)

/-- Claim C18, evaluated at a reachable table of capacity 1 whose bucket holds
the key 1 and at the absent key 3: the hash of 3 differs from that of 1 (lowest
at bit 1, the local depth being 0, which gives the bound of 2 splits), yet
`Insert(3, 30)` returns for no number of passes, and neither does the count of
its splits. The first split moves the only entry to the new bucket and erases
it, and the `it--` that follows decrements the iterator of the emptied map, so
that the pass is undefined; followed beyond the decrement the call has no
result either. -/
theorem insert_without_result :
    Reachable id 1 singleTable ∧ 1 ≤ singleTable.bucket_size
    ∧ (targetBucket id singleTable 3).map_k = [(1, 0)]
    ∧ mapFind (targetBucket id singleTable 3).map_k 3 = none
    ∧ id 1 ≠ id 3
    ∧ (targetBucket id singleTable 3).local_depth = 0
    ∧ Nat.testBit (id 1) 0 = Nat.testBit (id 3) 0 ∧ Nat.testBit (id 1) 1 ≠ Nat.testBit (id 3) 1
    ∧ redistribute id (2 ^ (targetBucket id singleTable 3).local_depth) []
        (targetBucket id singleTable 3).map_k ([] : List (Nat × Nat)) = none
    ∧ InsertPass id singleTable 3 30 = Pass.undefined
    ∧ (∀ fuel, Insert id fuel singleTable 3 30 = none)
    ∧ (∀ fuel, InsertSplits id fuel singleTable 3 30 = none)
    ∧ insertAll id 1 (ExtendibleHash.init 1) [(1, 0)] = some singleTable
    ∧ (∀ resume fuel, InsertWith id resume fuel singleTable 3 30 = none) := by
  have hp : InsertPass id singleTable 3 30 = Pass.undefined := rfl
  have hq : ∀ r, InsertPassWith id r singleTable 3 30 = Pass.undefined := fun _ => rfl
  refine ⟨singleTable_reachable, by decide, by decide, by decide, by decide, by decide,
    by decide, by decide, by decide, hp, ?_, ?_, rfl, ?_⟩
  · intro fuel
    cases fuel with
    | zero => rfl
    | succ n => simp only [Insert, hp]
  · intro fuel
    cases fuel with
    | zero => rfl
    | succ n => simp only [InsertSplits, hp]
  · intro resume fuel
    cases fuel with
    | zero => rfl
    | succ n => simp only [InsertWith, hq]

theorem targetBucket_eq (HashKey : K → Nat) (t : ExtendibleHash K V) (key : K) :
    targetBucket HashKey t key = t.heap (t.slot (HashKey key % 2 ^ t.global_depth)) := by
  unfold targetBucket GetIndexOfBuckets
  rw [index_mask]
  rfl

theorem filter_eq_self_of_forall {α : Type} (p : α → Bool) (l : List α)
    (h : ∀ a ∈ l, p a = true) : l.filter p = l :=
  List.filter_eq_self.2 h

/-- A split pass leaves the entries of the target bucket of `key` as they are
when all of them have the hash of `key`. -/
theorem split_keeps_colliding (HashKey : K → Nat) (t t1 : ExtendibleHash K V) (key : K)
    (hi : Inv0 HashKey t)
    (hsame : ∀ p ∈ (targetBucket HashKey t key).map_k, HashKey p.1 = HashKey key)
    (hsp : IsSplit HashKey t (t.slot (HashKey key % 2 ^ t.global_depth)) t1) :
    (targetBucket HashKey t1 key).map_k = (targetBucket HashKey t key).map_k := by
  have hidx : HashKey key % 2 ^ t.global_depth < 2 ^ t.global_depth :=
    Nat.mod_lt _ (Nat.two_pow_pos _)
  have hd : (t.heap (t.slot (HashKey key % 2 ^ t.global_depth))).local_depth ≤ t.global_depth :=
    hi.depth _ hidx
  obtain ⟨hg, hg1⟩ := split_depth_facts HashKey t t1 _ hd hsp
  have hlt : HashKey key % 2 ^ t1.global_depth < 2 ^ t1.global_depth :=
    Nat.mod_lt _ (Nat.two_pow_pos _)
  have hmm : HashKey key % 2 ^ t1.global_depth % 2 ^ t.global_depth
      = HashKey key % 2 ^ t.global_depth := mod_mod_pow _ _ _ hg
  have hbit : (HashKey key % 2 ^ t1.global_depth).testBit
      (t.heap (t.slot (HashKey key % 2 ^ t.global_depth))).local_depth
      = (HashKey key).testBit (t.heap (t.slot (HashKey key % 2 ^ t.global_depth))).local_depth :=
    testBit_mod_pow _ _ _ (by omega)
  rw [targetBucket_eq] at hsame ⊢
  rw [targetBucket_eq, ← bucketAt_eq]
  rcases split_cases HashKey t t1 _ hi hsp _ hlt with
    ⟨a1, a2, a3⟩ | ⟨a1, a2, a3, a4⟩ | ⟨a1, a2, a3, a4⟩
  · rw [hmm] at a1
    exact absurd rfl a1
  · rw [a4]
    rw [hbit] at a2
    apply filter_eq_self_of_forall
    intro p hp
    rw [hsame p hp, a2]
    rfl
  · rw [a4]
    rw [hbit] at a2
    apply filter_eq_self_of_forall
    intro p hp
    rw [hsame p hp, a2]

theorem splitPasses_colliding (HashKey : K → Nat) (n : Nat) (t t1 : ExtendibleHash K V)
    (key : K) (value : V) (hi : Inv0 HashKey t)
    (hsame : ∀ p ∈ (targetBucket HashKey t key).map_k, HashKey p.1 = HashKey key)
    (h : splitPasses HashKey n t key value = some t1) :
    Inv0 HashKey t1
    ∧ (targetBucket HashKey t1 key).map_k = (targetBucket HashKey t key).map_k
    ∧ t1.bucket_size = t.bucket_size
    ∧ t1.global_depth ≤ t.global_depth + n
    ∧ t1.bucket_number = t.bucket_number + n := by
  induction n generalizing t with
  | zero =>
    simp only [splitPasses, Option.some.injEq] at h
    subst h
    exact ⟨hi, rfl, rfl, le_refl _, rfl⟩
  | succ n ih =>
    simp only [splitPasses] at h
    cases hp : InsertPass HashKey t key value with
    | stored t2 => rw [hp] at h; exact Option.noConfusion h
    | undefined => rw [hp] at h; exact Option.noConfusion h
    | split t2 =>
      rw [hp] at h
      obtain ⟨hsp, -⟩ := insertPass_split HashKey t t2 key value hi hp
      have hidx : HashKey key % 2 ^ t.global_depth < 2 ^ t.global_depth :=
        Nat.mod_lt _ (Nat.two_pow_pos _)
      have hi2 := inv0_split HashKey t t2 _ hi hidx hsp
      have hkeep := split_keeps_colliding HashKey t t2 key hi hsame hsp
      obtain ⟨h1, h2, h3, h4, h5⟩ := ih t2 hi2 (by rw [hkeep]; exact hsame) h
      have hgd := hsp.gd
      refine ⟨h1, by rw [h2, hkeep], by rw [h3, hsp.size], ?_, by rw [h5, hsp.number]; omega⟩
      split_ifs at hgd <;> omega

/-- As C++ defines `Insert`: in a table that satisfies the structural
invariant, when the key is absent, its target bucket is full (for any capacity)
and every key stored there has the hash of the key, then `Insert` returns for
no number of passes; and after any number `n` of passes that split,
the target bucket of the key holds the very entries it held at the start (so it
is still full, still without the key), the bucket count has grown by `n`, and
the next pass does not store the entry either. -/
theorem insert_colliding_never_stores (HashKey : K → Nat) (size : Nat)
    (t : ExtendibleHash K V) (key : K) (value : V)
    (h0 : Inv0 HashKey t) (hsz : t.bucket_size = size)
    (habs : mapFind (targetBucket HashKey t key).map_k key = none)
    (hfull : (targetBucket HashKey t key).map_k.length = size)
    (hsame : ∀ p ∈ (targetBucket HashKey t key).map_k, HashKey p.1 = HashKey key) :
    (∀ fuel, Insert HashKey fuel t key value = none)
    ∧ ∀ n t1, splitPasses HashKey n t key value = some t1 →
        (targetBucket HashKey t1 key).map_k = (targetBucket HashKey t key).map_k
        ∧ (targetBucket HashKey t1 key).map_k.length = t1.bucket_size
        ∧ mapFind (targetBucket HashKey t1 key).map_k key = none
        ∧ t1.bucket_number = t.bucket_number + n
        ∧ (∀ t2, InsertPass HashKey t1 key value ≠ Pass.stored t2) := by
  have key_fact : ∀ (t1 : ExtendibleHash K V), Inv0 HashKey t1 →
      (targetBucket HashKey t1 key).map_k = (targetBucket HashKey t key).map_k →
      t1.bucket_size = size → ∀ t2, InsertPass HashKey t1 key value ≠ Pass.stored t2 := by
    intro t1 h1 hm hs t2 hp
    obtain ⟨-, -, -, -, -, -, -, -, -, -, hcond⟩ := insertPass_stored HashKey t1 t2 key value h1 hp
    rw [← targetBucket_eq, hm] at hcond
    rcases hcond with e | e
    · rw [habs] at e; exact absurd e (by simp)
    · rw [hfull, hs] at e; exact lt_irrefl _ e
  constructor
  · intro fuel
    have gen : ∀ (t1 : ExtendibleHash K V), Inv0 HashKey t1 →
        (targetBucket HashKey t1 key).map_k = (targetBucket HashKey t key).map_k →
        t1.bucket_size = size → Insert HashKey fuel t1 key value = none := by
      induction fuel with
      | zero => intro t1 _ _ _; rfl
      | succ n ih =>
        intro t1 h1 hm hs
        simp only [Insert]
        cases hp : InsertPass HashKey t1 key value with
        | stored t2 => exact absurd hp (key_fact t1 h1 hm hs t2)
        | undefined => rfl
        | split t2 =>
          obtain ⟨hsp, -⟩ := insertPass_split HashKey t1 t2 key value h1 hp
          have hidx : HashKey key % 2 ^ t1.global_depth < 2 ^ t1.global_depth :=
            Nat.mod_lt _ (Nat.two_pow_pos _)
          have hi2 := inv0_split HashKey t1 t2 _ h1 hidx hsp
          have hkeep := split_keeps_colliding HashKey t1 t2 key h1 (by rw [hm]; exact hsame) hsp
          exact ih t2 hi2 (by rw [hkeep, hm]) (by rw [hsp.size, hs])
    exact gen t h0 rfl hsz
  · intro n t1 hsp
    obtain ⟨h1, h2, h3, -, h5⟩ := splitPasses_colliding HashKey n t t1 key value h0 hsame hsp
    refine ⟨h2, by rw [h2, hfull, h3, hsz], by rw [h2, habs], h5, ?_⟩
    exact key_fact t1 h1 h2 (by rw [h3, hsz])

theorem collidingTable_splits :
    ∃ t1, splitPasses (fun _ => 0) 3 collidingTable 1 7 = some t1 ∧ t1.global_depth = 3 :=
  ⟨_, rfl, rfl⟩

theorem unsplit_init (size : Nat) :
    Unsplit size (ExtendibleHash.init size : ExtendibleHash K V) [] := by
  constructor
  · rfl
  · rfl
  · rfl
  · rfl
  · rfl
  · simp [ExtendibleHash.init, MapSorted]
  · rfl
  · intro k
    simp [ExtendibleHash.init, mapFind]

/-- In a table that has not split, a pass of `Insert` for a new key stores the
entry when the bucket has room. -/
theorem insertPass_unsplit (HashKey : K → Nat) (size : Nat) (t : ExtendibleHash K V)
    (done : List K) (key : K) (value : V) (hu : Unsplit size t done)
    (hroom : done.length < size) :
    InsertPass HashKey t key value
      = Pass.stored (t.setMap 0 (mapAssign (t.heap 0).map_k key value)) := by
  unfold InsertPass
  have h1 : ¬ 31 ≤ t.global_depth := by rw [hu.gd]; omega
  have h2 : GetIndexOfBuckets HashKey t key = 0 := by
    unfold GetIndexOfBuckets
    rw [index_mask, hu.gd]
    simp [Nat.mod_one]
  have h3 : t.slot 0 = 0 := by
    unfold ExtendibleHash.slot
    rw [hu.slots]
    rfl
  have h4 : (t.heap 0).map_k.length < t.bucket_size := by
    rw [hu.count, hu.cap]; exact hroom
  simp only [h1, if_false, h2, h3, h4, or_true, if_true]

theorem unsplit_setMap (size : Nat) (t : ExtendibleHash K V) (done : List K) (key : K)
    (value : V) (hu : Unsplit size t done) (hnew : key ∉ done) :
    Unsplit size (t.setMap 0 (mapAssign (t.heap 0).map_k key value)) (done ++ [key]) := by
  have hheap : (t.setMap 0 (mapAssign (t.heap 0).map_k key value)).heap 0
      = ⟨(t.heap 0).local_depth, mapAssign (t.heap 0).map_k key value⟩ := by
    rw [heap_setMap]; simp
  have hnf : (mapFind (t.heap 0).map_k key).isSome = false := by
    cases h : (mapFind (t.heap 0).map_k key).isSome with
    | false => rfl
    | true => exact absurd ((hu.keys key).1 h) hnew
  constructor
  · exact hu.gd
  · exact hu.slots
  · exact hu.number
  · exact hu.cap
  · rw [hheap]; exact hu.depth
  · rw [hheap]; exact mapSorted_mapAssign _ _ _ hu.sorted
  · rw [hheap]
    simp only
    rw [length_mapAssign _ hu.sorted, hnf]
    simp [hu.count]
  · intro k
    rw [hheap]
    simp only
    rw [mapFind_mapAssign, List.mem_append, List.mem_singleton]
    by_cases e : key = k
    · subst e; simp
    · simp only [e, if_false, hu.keys k]
      constructor
      · intro h; exact Or.inl h
      · rintro (h | h)
        · exact h
        · exact absurd h.symm e

theorem unsplit_insertsTo (HashKey : K → Nat) (size : Nat) (t t1 : ExtendibleHash K V)
    (ops : List (K × V)) (done : List K) (hu : Unsplit size t done)
    (hn : (done ++ ops.map Prod.fst).Nodup) (hl : done.length + ops.length ≤ size)
    (h : InsertsTo HashKey t ops t1) : Unsplit size t1 (done ++ ops.map Prod.fst) := by
  induction h generalizing done with
  | nil t => simpa using hu
  | @cons t t2 t3 resume fuel key value rest hins _ ih =>
    simp only [List.map_cons, List.length_cons] at hn hl
    have hnew : key ∉ done := by
      intro hm
      rw [List.nodup_append] at hn
      exact hn.2.2 hm (List.mem_cons_self _ _)
    have hp := insertPass_unsplit HashKey size t done key value hu (by omega)
    cases fuel with
    | zero => simp [InsertWith] at hins
    | succ f =>
      simp only [InsertWith, (insertPassWith_stored_iff HashKey _ t _ key value).2 hp,
        Option.some.injEq] at hins
      subst hins
      have hu2 := unsplit_setMap size t done key value hu hnew
      have := ih (done ++ [key]) hu2 (by simpa using hn) (by simp; omega)
      simpa using this

theorem unsplit_insertAll (HashKey : K → Nat) (size fuel : Nat) (t : ExtendibleHash K V)
    (ops : List (K × V)) (done : List K) (hu : Unsplit size t done)
    (hn : (done ++ ops.map Prod.fst).Nodup) (hl : done.length + ops.length ≤ size) :
    ∃ t1, insertAll HashKey (fuel + 1) t ops = some t1 := by
  induction ops generalizing t done with
  | nil => exact ⟨t, rfl⟩
  | cons p rest ih =>
    obtain ⟨key, value⟩ := p
    simp only [List.map_cons, List.length_cons] at hn hl
    have hnew : key ∉ done := by
      intro hm
      rw [List.nodup_append] at hn
      exact hn.2.2 hm (List.mem_cons_self _ _)
    have hp := insertPass_unsplit HashKey size t done key value hu (by omega)
    have hu2 := unsplit_setMap size t done key value hu hnew
    obtain ⟨t1, h1⟩ := ih _ (done ++ [key]) hu2 (by simpa using hn) (by simp; omega)
    exact ⟨t1, by simp only [insertAll, Insert, hp, h1]⟩

theorem insertSplits_of_insert (HashKey : K → Nat) (fuel : Nat) (t t1 : ExtendibleHash K V)
    (key : K) (value : V) (h : Insert HashKey fuel t key value = some t1) :
    ∃ s, InsertSplits HashKey fuel t key value = some s := by
  induction fuel generalizing t with
  | zero => simp [Insert] at h
  | succ n ih =>
    simp only [Insert] at h
    simp only [InsertSplits]
    cases hp : InsertPass HashKey t key value with
    | stored t2 => exact ⟨0, rfl⟩
    | undefined => rw [hp] at h; exact Option.noConfusion h
    | split t2 =>
      rw [hp] at h
      obtain ⟨s, hs⟩ := ih t2 h
      exact ⟨s + 1, by simp [hs]⟩

/-- The insert of a new key into a table that has not split and whose bucket
is full: its first pass does not store, and when the call returns, it has split
at least once. -/
theorem overflow_splits (HashKey : K → Nat) (size : Nat) (t : ExtendibleHash K V)
    (done : List K) (key : K) (value : V) (hs : Shape t) (hu : Unsplit size t done)
    (hfull : done.length = size) (hnew : key ∉ done) :
    (∀ r t2, InsertPassWith HashKey r t key value ≠ Pass.stored t2)
    ∧ ∀ resume fuel t1, InsertWith HashKey resume fuel t key value = some t1 →
        (∃ s, InsertSplitsWith HashKey resume fuel t key value = some (s + 1))
        ∧ 2 ≤ t1.bucket_number ∧ 1 ≤ t1.global_depth := by
  have h3 : t.slot (HashKey key % 2 ^ t.global_depth) = 0 := by
    rw [hu.gd]
    simp only [pow_zero, Nat.mod_one]
    unfold ExtendibleHash.slot
    rw [hu.slots]
    rfl
  have hfirst : ∀ r t2, InsertPassWith HashKey r t key value ≠ Pass.stored t2 := by
    intro r t2 hp
    obtain ⟨-, -, -, hcond⟩ := insertPassWith_stored HashKey r t t2 key value hs hp
    rw [h3] at hcond
    rcases hcond with e | e
    · exact absurd ((hu.keys key).1 e) hnew
    · rw [hu.count, hu.cap, hfull] at e
      exact absurd e (lt_irrefl _)
  refine ⟨hfirst, ?_⟩
  intro resume fuel t1 hins
  cases fuel with
  | zero => simp [InsertWith] at hins
  | succ f =>
    simp only [InsertWith] at hins
    cases hp : InsertPassWith HashKey (resume.headD []) t key value with
    | undefined => rw [hp] at hins; exact Option.noConfusion hins
    | stored t2 => exact absurd hp (hfirst _ t2)
    | split t2 =>
      rw [hp] at hins
      obtain ⟨hs2, hsp, -⟩ := insertPassWith_split HashKey _ t t2 key value hs hp
      obtain ⟨-, -, -, h4, h5⟩ := insertWith_spec HashKey _ f t2 t1 key value hs2 hins
      obtain ⟨s, hsn⟩ := insertSplitsWith_of_insertWith HashKey _ f t2 t1 key value hins
      have hgd : t2.global_depth =
          if (t.heap (t.slot (HashKey key % 2 ^ t.global_depth))).local_depth + 1
            > t.global_depth then t.global_depth + 1 else t.global_depth := hsp.gd
      rw [h3, hu.depth, hu.gd] at hgd
      simp only [zero_add, gt_iff_lt, Nat.lt_one_iff, if_true] at hgd
      have hnum : t2.bucket_number = t.bucket_number + 1 := hsp.number
      rw [hu.number] at hnum
      refine ⟨⟨s, by simp only [InsertSplitsWith, hp, hsn]; rfl⟩, by omega, by omega⟩

/-- Claim C12. A table freshly constructed with bucket capacity 2 has one
bucket and depth 0, and after completed `Insert` calls of three distinct keys `GetNumBuckets()` is at least 2
and `GetGlobalDepth()` at least 1. And for every capacity `size`, when `size`
distinct keys have been inserted into a fresh table, the first pass of an
`Insert` of a further distinct key does not store the entry but enters the
split, and when the call completes it has performed at least one split. A call
counts as completed whenever its loop leaves through `break`, also when a split
of it has decremented `begin()`. -/
theorem overflow_forces_split (HashKey : K → Nat) :
    (GetNumBuckets (ExtendibleHash.init 2 : ExtendibleHash K V) = 1
      ∧ GetGlobalDepth (ExtendibleHash.init 2 : ExtendibleHash K V) = 0)
    ∧ (∀ (k1 k2 k3 : K) (v1 v2 v3 : V) (t : ExtendibleHash K V), [k1, k2, k3].Nodup →
        InsertsTo HashKey (ExtendibleHash.init 2) [(k1, v1), (k2, v2), (k3, v3)] t →
        2 ≤ GetNumBuckets t ∧ 1 ≤ GetGlobalDepth t)
    ∧ (∀ (size : Nat) (ops : List (K × V)) (key : K) (value : V) (t0 : ExtendibleHash K V),
        ops.length = size → (ops.map Prod.fst ++ [key]).Nodup →
        InsertsTo HashKey (ExtendibleHash.init size) ops t0 →
        (∀ r t2, InsertPassWith HashKey r t0 key value ≠ Pass.stored t2)
        ∧ ∀ resume fuel t1, InsertWith HashKey resume fuel t0 key value = some t1 →
            (∃ s, InsertSplitsWith HashKey resume fuel t0 key value = some (s + 1))
            ∧ 2 ≤ GetNumBuckets t1 ∧ 1 ≤ GetGlobalDepth t1) := by
  have general : ∀ (size : Nat) (ops : List (K × V)) (key : K) (value : V)
      (t0 : ExtendibleHash K V), ops.length = size → (ops.map Prod.fst ++ [key]).Nodup →
      InsertsTo HashKey (ExtendibleHash.init size) ops t0 →
      (∀ r t2, InsertPassWith HashKey r t0 key value ≠ Pass.stored t2)
      ∧ ∀ resume fuel t1, InsertWith HashKey resume fuel t0 key value = some t1 →
          (∃ s, InsertSplitsWith HashKey resume fuel t0 key value = some (s + 1))
          ∧ 2 ≤ t1.bucket_number ∧ 1 ≤ t1.global_depth := by
    intro size ops key value t0 hlen hn hrun
    have hn2 := hn
    rw [List.nodup_append] at hn2
    have hu := unsplit_insertsTo HashKey size _ t0 ops [] (unsplit_init size)
      (by simpa using hn2.1) (by simp [hlen]) hrun
    simp only [List.nil_append] at hu
    have hs := (insertsTo_shape HashKey _ t0 ops (shape_init size) hrun).1
    exact overflow_splits HashKey size t0 _ key value hs hu (by simp [hlen])
      (fun hm => hn2.2.2 hm (List.mem_singleton_self _))
  refine ⟨⟨rfl, rfl⟩, ?_, ?_⟩
  · intro k1 k2 k3 v1 v2 v3 t hd h3
    cases h3 with
    | cons r1 fuel1 _ _ _ hins1 hrest1 =>
      cases hrest1 with
      | cons r2 fuel2 _ _ _ hins2 hrest2 =>
        cases hrest2 with
        | cons r3 fuel3 _ _ _ hins3 hrest3 =>
          cases hrest3
          have hrun2 := InsertsTo.cons r1 fuel1 k1 v1 [(k2, v2)] hins1
            (InsertsTo.cons r2 fuel2 k2 v2 [] hins2 (InsertsTo.nil _))
          have := (general 2 [(k1, v1), (k2, v2)] k3 v3 _ rfl (by simpa using hd) hrun2).2
            r3 fuel3 _ hins3
          unfold GetNumBuckets GetGlobalDepth
          exact ⟨by exact_mod_cast this.2.1, by exact_mod_cast this.2.2⟩
  · intro size ops key value t0 hlen hn hrun
    obtain ⟨h1, h2⟩ := general size ops key value t0 hlen hn hrun
    refine ⟨h1, ?_⟩
    intro resume fuel t1 hins
    have := h2 resume fuel t1 hins
    unfold GetNumBuckets GetGlobalDepth
    exact ⟨this.1, by exact_mod_cast this.2.1, by exact_mod_cast this.2.2⟩

theorem oddTable_insertsTo :
    InsertsTo id (ExtendibleHash.init 2) [(1, 0), (3, 10)] oddTable :=
  insertAll_insertsTo id 1 _ _ [(1, 0), (3, 10)] rfl

theorem overflow_forces_split_witness :
    ([1, 3, 5] : List Nat).Nodup
    ∧ InsertsTo id (ExtendibleHash.init 2) [(1, 0), (3, 10), (5, 20)] strandedTable
    ∧ (2 ≤ GetNumBuckets strandedTable ∧ 1 ≤ GetGlobalDepth strandedTable)
    ∧ ([(1, 0), (3, 10)] : List (Nat × Nat)).length = 2
    ∧ (([(1, 0), (3, 10)] : List (Nat × Nat)).map Prod.fst ++ [5]).Nodup
    ∧ InsertsTo id (ExtendibleHash.init 2) [(1, 0), (3, 10)] oddTable
    ∧ InsertWith id [[1]] 2 oddTable 5 20 = some strandedTable
    ∧ (∀ r t2, InsertPassWith id r oddTable 5 20 ≠ Pass.stored t2)
    ∧ (∃ s, InsertSplitsWith id [[1]] 2 oddTable 5 20 = some (s + 1))
    ∧ 2 ≤ GetNumBuckets strandedTable ∧ 1 ≤ GetGlobalDepth strandedTable :=
  ⟨by decide, strandedTable_insertsTo,
    (@overflow_forces_split Nat Nat _ id).2.1 1 3 5 0 10 20 strandedTable (by decide)
      strandedTable_insertsTo,
    rfl, by decide, oddTable_insertsTo, strandedTable_insert,
    ((@overflow_forces_split Nat Nat _ id).2.2 2 [(1, 0), (3, 10)] 5 20 oddTable rfl (by decide)
      oddTable_insertsTo).1,
    ((@overflow_forces_split Nat Nat _ id).2.2 2 [(1, 0), (3, 10)] 5 20 oddTable rfl (by decide)
      oddTable_insertsTo).2 [[1]] 2 strandedTable strandedTable_insert⟩

/-- Claim C13 fails as stated: with capacity 4 and the identity as hash, the
inserts of the keys 1, 5, 9, 13 all complete, the fourth one without a split,
and afterwards the global depth is 0 and there is one bucket. -/
theorem fourth_insert_fits :
    InsertsTo id (ExtendibleHash.init 4) [(1, 0), (5, 0), (9, 0), (13, 0)]
      (tableOf id 4 1 [(1, 0), (5, 0), (9, 0), (13, 0)] : ExtendibleHash Nat Nat)
    ∧ InsertSplits id 1 (tableOf id 4 1 [(1, 0), (5, 0), (9, 0)] : ExtendibleHash Nat Nat) 13 0
        = some 0
    ∧ Insert id 1 (tableOf id 4 1 [(1, 0), (5, 0), (9, 0)] : ExtendibleHash Nat Nat) 13 0
        = some (tableOf id 4 1 [(1, 0), (5, 0), (9, 0), (13, 0)])
    ∧ ¬ (1 ≤ GetGlobalDepth
          (tableOf id 4 1 [(1, 0), (5, 0), (9, 0), (13, 0)] : ExtendibleHash Nat Nat)
        ∧ 2 ≤ GetNumBuckets
          (tableOf id 4 1 [(1, 0), (5, 0), (9, 0), (13, 0)] : ExtendibleHash Nat Nat))
    ∧ insertAll id 1 (ExtendibleHash.init 4) [(1, 0), (5, 0), (9, 0), (13, 0)]
        = some (tableOf id 4 1 [(1, 0), (5, 0), (9, 0), (13, 0)]) :=
  ⟨insertAll_insertsTo id 1 _ _ [(1, 0), (5, 0), (9, 0), (13, 0)] rfl, rfl, rfl, by decide, rfl⟩

/-- Claim C13, amended. On a table freshly constructed with bucket capacity 4,
the inserts of four keys whose hashes are 1, 5, 9 and 13 each complete in their
first pass, and whenever they have completed all four entries are in the bucket
of slot 0, no split has happened, `GetGlobalDepth()` is 0 and `GetNumBuckets()`
is 1. -/
theorem four_keys_fit (HashKey : K → Nat) (k1 k2 k3 k4 : K) (v1 v2 v3 v4 : V) (fuel : Nat)
    (h1 : HashKey k1 = 1) (h2 : HashKey k2 = 5) (h3 : HashKey k3 = 9) (h4 : HashKey k4 = 13) :
    (∃ t, insertAll HashKey (fuel + 1) (ExtendibleHash.init 4)
        [(k1, v1), (k2, v2), (k3, v3), (k4, v4)] = some t)
    ∧ ∀ t, InsertsTo HashKey (ExtendibleHash.init 4) [(k1, v1), (k2, v2), (k3, v3), (k4, v4)] t →
        GetGlobalDepth t = 0 ∧ GetNumBuckets t = 1 ∧ t.buckets = [0]
        ∧ (t.bucketAt 0).map_k.length = 4
        ∧ ∀ k, (mapFind (t.bucketAt 0).map_k k).isSome = true ↔ k ∈ [k1, k2, k3, k4] := by
  have hne : ∀ a b : K, HashKey a ≠ HashKey b → a ≠ b := fun a b h e => h (e ▸ rfl)
  have hnodup : ([k1, k2, k3, k4] : List K).Nodup := by
    simp only [List.nodup_cons, List.mem_cons, List.mem_singleton, not_or, List.not_mem_nil,
      not_false_eq_true, List.nodup_nil, and_true]
    refine ⟨⟨hne _ _ ?_, hne _ _ ?_, hne _ _ ?_⟩, ⟨hne _ _ ?_, hne _ _ ?_⟩, hne _ _ ?_⟩ <;>
      simp [h1, h2, h3, h4]
  constructor
  · exact unsplit_insertAll HashKey 4 fuel _ _ [] (unsplit_init 4) (by simpa using hnodup)
      (by simp)
  · intro t ht
    have hu := unsplit_insertsTo HashKey 4 _ t _ [] (unsplit_init 4) (by simpa using hnodup)
      (by simp) ht
    simp only [List.nil_append, List.map_cons, List.map_nil] at hu
    have hb : t.bucketAt 0 = t.heap 0 := by
      rw [bucketAt_eq]
      unfold ExtendibleHash.slot
      rw [hu.slots]
      rfl
    unfold GetGlobalDepth GetNumBuckets
    rw [hb]
    refine ⟨by rw [hu.gd]; rfl, by rw [hu.number]; rfl, hu.slots, by rw [hu.count]; rfl, hu.keys⟩

theorem four_keys_fit_witness :
    id 1 = 1 ∧ id 5 = 5 ∧ id 9 = 9 ∧ id 13 = 13
    ∧ (∃ t : ExtendibleHash Nat Nat, insertAll id (0 + 1) (ExtendibleHash.init 4)
        [(1, 0), (5, 0), (9, 0), (13, 0)] = some t)
    ∧ ∀ t : ExtendibleHash Nat Nat,
        InsertsTo id (ExtendibleHash.init 4) [(1, 0), (5, 0), (9, 0), (13, 0)] t →
        GetGlobalDepth t = 0 ∧ GetNumBuckets t = 1 ∧ t.buckets = [0]
        ∧ (t.bucketAt 0).map_k.length = 4
        ∧ ∀ k, (mapFind (t.bucketAt 0).map_k k).isSome = true ↔ k ∈ [1, 5, 9, 13] :=
  ⟨rfl, rfl, rfl, rfl, four_keys_fit id 1 5 9 13 0 0 0 0 0 rfl rfl rfl rfl⟩

theorem counted_init (size : Nat) :
    Counted (ExtendibleHash.init size : ExtendibleHash K V) := by
  constructor
  · rfl
  · intro a ha
    have : a = 0 := by
      have : a < 1 := ha
      omega
    subst this
    exact ⟨0, Nat.two_pow_pos _, rfl⟩

theorem counted_setMap (t : ExtendibleHash K V) (a : Nat) (m : List (K × V)) (h : Counted t) :
    Counted (t.setMap a m) :=
  ⟨h.number, h.onto⟩

/-- After a split every bucket is still held by a slot: the new bucket by a
slot with the bit of the old local depth, the split bucket by one without. -/
theorem counted_split (HashKey : K → Nat) (t t1 : ExtendibleHash K V) (idx : Nat)
    (hi : Inv0 HashKey t) (hc : Counted t) (hidx : idx < 2 ^ t.global_depth)
    (hsp : IsSplit HashKey t (t.slot idx) t1) :
    Counted t1
    ∧ (∃ i < 2 ^ t1.global_depth, t1.slot i = t.next_addr)
    ∧ (∃ j < 2 ^ t1.global_depth, t1.slot j = t.slot idx) := by
  have hd : (t.heap (t.slot idx)).local_depth ≤ t.global_depth := hi.depth idx hidx
  obtain ⟨hg, hg1⟩ := split_depth_facts HashKey t t1 _ hd hsp
  have hpow : 2 ^ t.global_depth ≤ 2 ^ t1.global_depth := Nat.pow_le_pow_right (by norm_num) hg
  have hpow1 : 2 ^ ((t.heap (t.slot idx)).local_depth + 1) ≤ 2 ^ t1.global_depth :=
    Nat.pow_le_pow_right (by norm_num) hg1
  have hpowd : 2 ^ (t.heap (t.slot idx)).local_depth ≤ 2 ^ t.global_depth :=
    Nat.pow_le_pow_right (by norm_num) hd
  have hrlt : idx % 2 ^ (t.heap (t.slot idx)).local_depth
      < 2 ^ (t.heap (t.slot idx)).local_depth := Nat.mod_lt _ (Nat.two_pow_pos _)
  -- slots of the old table that hold the split bucket
  have hsame : ∀ j, j < 2 ^ t.global_depth →
      j % 2 ^ (t.heap (t.slot idx)).local_depth = idx % 2 ^ (t.heap (t.slot idx)).local_depth →
      t.slot j = t.slot idx := by
    intro j hj he
    exact ((hi.share idx hidx j hj).2 (by rw [bucketAt_eq]; exact he.symm)).symm
  -- a slot without the bit
  have hlow : ∃ j < 2 ^ t1.global_depth, t1.slot j = t.slot idx := by
    refine ⟨idx % 2 ^ (t.heap (t.slot idx)).local_depth, by omega, ?_⟩
    have hj : idx % 2 ^ (t.heap (t.slot idx)).local_depth < 2 ^ t.global_depth := by omega
    rw [hsp.slot _ (by omega), Nat.mod_eq_of_lt hj, hsame _ hj (Nat.mod_mod _ _)]
    simp [Nat.testBit_lt_two_pow hrlt]
  -- a slot with the bit
  have hhigh : ∃ i < 2 ^ t1.global_depth, t1.slot i = t.next_addr := by
    have hlt : 2 ^ (t.heap (t.slot idx)).local_depth
        + idx % 2 ^ (t.heap (t.slot idx)).local_depth < 2 ^ t1.global_depth := by
      rw [pow_succ] at hpow1
      omega
    refine ⟨2 ^ (t.heap (t.slot idx)).local_depth
      + idx % 2 ^ (t.heap (t.slot idx)).local_depth, hlt, ?_⟩
    have hm : (2 ^ (t.heap (t.slot idx)).local_depth
        + idx % 2 ^ (t.heap (t.slot idx)).local_depth) % 2 ^ t.global_depth
        < 2 ^ t.global_depth := Nat.mod_lt _ (Nat.two_pow_pos _)
    have he : (2 ^ (t.heap (t.slot idx)).local_depth
        + idx % 2 ^ (t.heap (t.slot idx)).local_depth) % 2 ^ t.global_depth
          % 2 ^ (t.heap (t.slot idx)).local_depth
        = idx % 2 ^ (t.heap (t.slot idx)).local_depth := by
      rw [mod_mod_pow _ _ _ hd, Nat.add_mod_left, Nat.mod_mod]
    rw [hsp.slot _ hlt, hsame _ hm he, Nat.testBit_two_pow_add_eq,
      Nat.testBit_lt_two_pow hrlt]
    simp
  refine ⟨⟨?_, ?_⟩, hhigh, hlow⟩
  · rw [hsp.number, hsp.addr, hc.number]
  · intro a ha
    rw [hsp.addr] at ha
    by_cases e1 : a = t.next_addr
    · rw [e1]; exact hhigh
    · by_cases e2 : a = t.slot idx
      · rw [e2]; exact hlow
      · obtain ⟨i, hi1, hi2⟩ := hc.onto a (by omega)
        refine ⟨i, by omega, ?_⟩
        rw [hsp.slot _ (by omega), Nat.mod_eq_of_lt hi1, hi2]
        simp [e2]

theorem counted_skeleton (t : ExtendibleHash K V) : Counted t.skeleton ↔ Counted t :=
  ⟨fun h => ⟨h.number, h.onto⟩, fun h => ⟨h.number, h.onto⟩⟩

theorem counted_insertWith (HashKey : K → Nat) (resume : List (List Nat)) (fuel : Nat)
    (t t1 : ExtendibleHash K V) (key : K) (value : V) (s : Nat) (hs : Shape t) (hc : Counted t)
    (h : InsertWith HashKey resume fuel t key value = some t1)
    (hsn : InsertSplitsWith HashKey resume fuel t key value = some s) :
    Counted t1 ∧ t1.bucket_number = t.bucket_number + s := by
  induction fuel generalizing t s resume with
  | zero => simp [InsertWith] at h
  | succ n ih =>
    simp only [InsertWith] at h
    simp only [InsertSplitsWith] at hsn
    cases hp : InsertPassWith HashKey (resume.headD []) t key value with
    | stored t2 =>
      rw [hp] at h hsn
      simp only [Option.some.injEq] at h hsn
      subst h
      subst hsn
      obtain ⟨-, -, h10, -⟩ := insertPassWith_stored HashKey _ t t2 key value hs hp
      rw [h10]
      exact ⟨counted_setMap t _ _ hc, rfl⟩
    | undefined => rw [hp] at h; exact Option.noConfusion h
    | split t2 =>
      rw [hp] at h hsn
      simp only at h hsn
      obtain ⟨hs2, hsp, -⟩ := insertPassWith_split HashKey _ t t2 key value hs hp
      have hidx : HashKey key % 2 ^ t.global_depth < 2 ^ t.global_depth :=
        Nat.mod_lt _ (Nat.two_pow_pos _)
      have hc2 := (counted_skeleton t2).1 (counted_split HashKey t.skeleton t2.skeleton _
        (inv0_skeleton HashKey t hs) ((counted_skeleton t).2 hc) hidx hsp).1
      cases hs3 : InsertSplitsWith HashKey resume.tail n t2 key value with
      | none => rw [hs3] at hsn; simp at hsn
      | some s2 =>
        rw [hs3] at hsn
        simp only [Option.map_some', Option.some.injEq] at hsn
        obtain ⟨h1, h2⟩ := ih _ t2 s2 hs2 hc2 h hs3
        refine ⟨h1, ?_⟩
        have hnum : t2.bucket_number = t.bucket_number + 1 := hsp.number
        rw [h2, hnum, ← hsn]
        omega

theorem counted_remove (HashKey : K → Nat) (t : ExtendibleHash K V) (key : K)
    (hc : Counted t) :
    Counted (Remove HashKey t key).2
    ∧ (Remove HashKey t key).2.bucket_number = t.bucket_number := by
  unfold Remove
  simp only
  cases mapFind (t.heap (t.slot (HashKey key &&& (2 ^ t.global_depth - 1)))).map_k key with
  | none => exact ⟨hc, rfl⟩
  | some v => exact ⟨counted_setMap t _ _ hc, rfl⟩

theorem reachableWith_reachable (HashKey : K → Nat) (size n : Nat) (t : ExtendibleHash K V)
    (h : ReachableWith HashKey size n t) : Reachable HashKey size t := by
  induction h with
  | init => exact Reachable.init
  | insert resume fuel key value s _ hins _ ih =>
    exact Reachable.insert resume fuel key value ih hins
  | remove key _ ih => exact Reachable.remove key ih

theorem reachableWith_counted (HashKey : K → Nat) (size n : Nat) (t : ExtendibleHash K V)
    (h : ReachableWith HashKey size n t) : Counted t ∧ t.bucket_number = 1 + n := by
  induction h with
  | init => exact ⟨counted_init size, rfl⟩
  | @insert n t t1 resume fuel key value s hr hins hs ih =>
    have hi := (reachable_shape HashKey size t (reachableWith_reachable HashKey size n t hr)).1
    obtain ⟨h1, h2⟩ := counted_insertWith HashKey resume fuel t t1 key value s hi ih.1 hins hs
    exact ⟨h1, by rw [h2, ih.2]; omega⟩
  | @remove n t key hr ih =>
    obtain ⟨h1, h2⟩ := counted_remove HashKey t key ih.1
    exact ⟨h1, by rw [h2]; exact ih.2⟩

theorem reachable_reachableWith (HashKey : K → Nat) (size : Nat) (t : ExtendibleHash K V)
    (h : Reachable HashKey size t) : ∃ n, ReachableWith HashKey size n t := by
  induction h with
  | init => exact ⟨0, ReachableWith.init⟩
  | @insert t t1 resume fuel key value _ hins ih =>
    obtain ⟨n, hn⟩ := ih
    obtain ⟨s, hs⟩ := insertSplitsWith_of_insertWith HashKey resume fuel t t1 key value hins
    exact ⟨n + s, ReachableWith.insert resume fuel key value s hn hins hs⟩
  | @remove t key _ ih =>
    obtain ⟨n, hn⟩ := ih
    exact ⟨n, ReachableWith.remove key hn⟩

theorem dedup_length_of_onto (l : List Nat) (n : Nat) (h : ∀ a, a ∈ l ↔ a < n) :
    l.dedup.length = n := by
  have hp : List.Perm l.dedup (List.range n) := by
    rw [List.perm_ext_iff_of_nodup (List.nodup_dedup l) (List.nodup_range n)]
    intro a
    rw [List.mem_dedup, List.mem_range, h]
  rw [hp.length_eq, List.length_range]

theorem mem_buckets_iff (t : ExtendibleHash K V) (hi : Shape t)
    (hc : Counted t) (a : Nat) : a ∈ t.buckets ↔ a < t.next_addr := by
  constructor
  · intro ha
    obtain ⟨i, hlt, he⟩ := List.mem_iff_getElem.1 ha
    have := hi.alloc i (by rw [← hi.len]; exact hlt)
    rw [slot_eq_getD, List.getD_eq_getElem _ _ hlt, he] at this
    exact this
  · intro ha
    obtain ⟨i, hlt, he⟩ := hc.onto a ha
    rw [← hi.len] at hlt
    rw [slot_eq_getD, List.getD_eq_getElem _ _ hlt] at he
    rw [← he]
    exact List.getElem_mem hlt

/-- Claim C19. After a run that has performed `n` splits, `GetNumBuckets()` is
the number of distinct buckets in the slot vector and is `1 + n`; and when a
pass of `Insert` splits, the new bucket is held by a slot afterwards and so is
the bucket that was split. Runs and passes count also when a split decrements
`begin()`, whatever position the iterator takes then. -/
theorem bucket_count_exact (HashKey : K → Nat) (size n : Nat) (t : ExtendibleHash K V)
    (hr : ReachableWith HashKey size n t) :
    GetNumBuckets t = t.buckets.dedup.length
    ∧ GetNumBuckets t = 1 + n
    ∧ ∀ resume key value t1, InsertPassWith HashKey resume t key value = Pass.split t1 →
        (∃ i, i < t1.buckets.length ∧ t1.slot i = t.next_addr)
        ∧ (∃ j, j < t1.buckets.length ∧ t1.slot j = t.slot (GetIndexOfBuckets HashKey t key))
        ∧ t.next_addr ∉ t.buckets := by
  have hi := (reachable_shape HashKey size t (reachableWith_reachable HashKey size n t hr)).1
  obtain ⟨hc, hn⟩ := reachableWith_counted HashKey size n t hr
  refine ⟨?_, ?_, ?_⟩
  · unfold GetNumBuckets
    rw [dedup_length_of_onto t.buckets t.next_addr (mem_buckets_iff t hi hc), hc.number]
  · unfold GetNumBuckets
    rw [hn]
    push_cast
    rfl
  · intro resume key value t1 hp
    obtain ⟨-, hsp, -⟩ := insertPassWith_split HashKey resume t t1 key value hi hp
    have hidx : HashKey key % 2 ^ t.global_depth < 2 ^ t.global_depth :=
      Nat.mod_lt _ (Nat.two_pow_pos _)
    obtain ⟨-, ⟨i, h1, h2⟩, ⟨j, h3, h4⟩⟩ := counted_split HashKey t.skeleton t1.skeleton _
      (inv0_skeleton HashKey t hi) ((counted_skeleton t).2 hc) hidx hsp
    have hlen : t1.buckets.length = 2 ^ t1.global_depth := hsp.len
    refine ⟨⟨i, by rw [hlen]; exact h1, h2⟩, ⟨j, by rw [hlen]; exact h3, ?_⟩, ?_⟩
    · unfold GetIndexOfBuckets
      rw [index_mask]
      exact h4
    · intro hm
      exact lt_irrefl _ ((mem_buckets_iff t hi hc _).1 hm)

theorem strandedTable_reachableWith : ReachableWith id 2 1 strandedTable :=
  ReachableWith.insert [[1]] 2 5 20 1
    (ReachableWith.insert [] 1 3 10 0
      (ReachableWith.insert [] 1 1 0 0 ReachableWith.init
        (rfl : InsertWith id [] 1 (ExtendibleHash.init 2) 1 0 = some (tableOf id 2 1 [(1, 0)]))
        rfl)
      (rfl : InsertWith id [] 1 (tableOf id 2 1 [(1, 0)]) 3 10 = some oddTable) rfl)
    strandedTable_insert rfl

theorem bucket_count_exact_witness :
    ReachableWith id 2 1 strandedTable
    ∧ GetNumBuckets strandedTable = strandedTable.buckets.dedup.length
    ∧ GetNumBuckets strandedTable = 1 + 1
    ∧ ∀ resume key value t1, InsertPassWith id resume strandedTable key value = Pass.split t1 →
        (∃ i, i < t1.buckets.length ∧ t1.slot i = strandedTable.next_addr)
        ∧ (∃ j, j < t1.buckets.length
            ∧ t1.slot j = strandedTable.slot (GetIndexOfBuckets id strandedTable key))
        ∧ strandedTable.next_addr ∉ strandedTable.buckets :=
  ⟨strandedTable_reachableWith,
    bucket_count_exact id 2 1 strandedTable strandedTable_reachableWith⟩

theorem split_target (HashKey : K → Nat) (t t1 : ExtendibleHash K V) (key : K)
    (hi : Inv0 HashKey t)
    (hsp : IsSplit HashKey t (t.slot (HashKey key % 2 ^ t.global_depth)) t1) :
    (targetBucket HashKey t1 key).local_depth = (targetBucket HashKey t key).local_depth + 1
    ∧ (targetBucket HashKey t1 key).map_k
      = (targetBucket HashKey t key).map_k.filter (fun p =>
          (HashKey p.1).testBit (targetBucket HashKey t key).local_depth
            == (HashKey key).testBit (targetBucket HashKey t key).local_depth) := by
  have hidx : HashKey key % 2 ^ t.global_depth < 2 ^ t.global_depth :=
    Nat.mod_lt _ (Nat.two_pow_pos _)
  have hd : (t.heap (t.slot (HashKey key % 2 ^ t.global_depth))).local_depth ≤ t.global_depth :=
    hi.depth _ hidx
  obtain ⟨hg, hg1⟩ := split_depth_facts HashKey t t1 _ hd hsp
  have hlt : HashKey key % 2 ^ t1.global_depth < 2 ^ t1.global_depth :=
    Nat.mod_lt _ (Nat.two_pow_pos _)
  have hmm : HashKey key % 2 ^ t1.global_depth % 2 ^ t.global_depth
      = HashKey key % 2 ^ t.global_depth := mod_mod_pow _ _ _ hg
  have hbit : (HashKey key % 2 ^ t1.global_depth).testBit
      (t.heap (t.slot (HashKey key % 2 ^ t.global_depth))).local_depth
      = (HashKey key).testBit (t.heap (t.slot (HashKey key % 2 ^ t.global_depth))).local_depth :=
    testBit_mod_pow _ _ _ (by omega)
  rw [targetBucket_eq, targetBucket_eq, ← bucketAt_eq]
  rcases split_cases HashKey t t1 _ hi hsp _ hlt with
    ⟨a1, a2, a3⟩ | ⟨a1, a2, a3, a4⟩ | ⟨a1, a2, a3, a4⟩
  · rw [hmm] at a1
    exact absurd rfl a1
  · rw [a4]
    rw [hbit] at a2
    refine ⟨rfl, ?_⟩
    simp only [a2]
    congr 1
    funext p
    cases (HashKey p.1).testBit (t.heap (t.slot (HashKey key % 2 ^ t.global_depth))).local_depth
      <;> rfl
  · rw [a4]
    rw [hbit] at a2
    refine ⟨rfl, ?_⟩
    simp only [a2]
    congr 1
    funext p
    cases (HashKey p.1).testBit (t.heap (t.slot (HashKey key % 2 ^ t.global_depth))).local_depth
      <;> rfl

/-- A stored key agrees with the key whose target bucket it lies in on every
bit below the local depth of the bucket. -/
theorem target_agrees (HashKey : K → Nat) (t : ExtendibleHash K V) (key : K) (q : K × V)
    (b : Nat) (hi : Inv0 HashKey t) (hq : q ∈ (targetBucket HashKey t key).map_k)
    (hb : (HashKey q.1).testBit b ≠ (HashKey key).testBit b) :
    (targetBucket HashKey t key).local_depth ≤ b := by
  have hidx : HashKey key % 2 ^ t.global_depth < 2 ^ t.global_depth :=
    Nat.mod_lt _ (Nat.two_pow_pos _)
  rw [targetBucket_eq] at hq ⊢
  have hd : (t.heap (t.slot (HashKey key % 2 ^ t.global_depth))).local_depth ≤ t.global_depth :=
    hi.depth _ hidx
  have hh := hi.home _ hidx q hq
  rw [bucketAt_eq, mod_mod_pow _ _ _ hd] at hh
  by_contra hlt
  exact hb ((mod_two_pow_eq_iff _ _ _).1 hh b (by omega))

/-- The number of splits of a completed `Insert` is bounded by the first bit at
which the hash of the key differs from that of a key in its target bucket: when
some stored key of the target bucket differs from the key at bit `b`, and the
local depth of the bucket is `d`, the call performs at most `b - d + 1`
splits. -/
theorem insertSplits_le (HashKey : K → Nat) (fuel : Nat) (t : ExtendibleHash K V) (key : K)
    (value : V) (s b : Nat) (q : K × V) (hi : Inv0 HashKey t)
    (hq : q ∈ (targetBucket HashKey t key).map_k)
    (hb : (HashKey q.1).testBit b ≠ (HashKey key).testBit b)
    (hs : InsertSplits HashKey fuel t key value = some s) :
    s ≤ b + 1 - (targetBucket HashKey t key).local_depth := by
  induction fuel generalizing t s with
  | zero => simp [InsertSplits] at hs
  | succ n ih =>
    have hdb := target_agrees HashKey t key q b hi hq hb
    simp only [InsertSplits] at hs
    cases hp : InsertPass HashKey t key value with
    | stored t2 =>
      rw [hp] at hs
      simp only [Option.some.injEq] at hs
      omega
    | undefined => rw [hp] at hs; exact Option.noConfusion hs
    | split t2 =>
      rw [hp] at hs
      simp only at hs
      obtain ⟨s2, hs2, rfl⟩ := Option.map_eq_some'.1 hs
      obtain ⟨hsp, -, -, -⟩ := insertPass_split HashKey t t2 key value hi hp
      have hidx : HashKey key % 2 ^ t.global_depth < 2 ^ t.global_depth :=
        Nat.mod_lt _ (Nat.two_pow_pos _)
      have hi2 := inv0_split HashKey t t2 _ hi hidx hsp
      obtain ⟨hd2, hm2⟩ := split_target HashKey t t2 key hi hsp
      by_cases hbit : (HashKey q.1).testBit (targetBucket HashKey t key).local_depth
          = (HashKey key).testBit (targetBucket HashKey t key).local_depth
      · -- the differing key stays with the key: the bound of the rest applies
        have hne : b ≠ (targetBucket HashKey t key).local_depth := by
          intro e
          rw [e] at hb
          exact hb hbit
        have hq2 : q ∈ (targetBucket HashKey t2 key).map_k := by
          rw [hm2, List.mem_filter]
          exact ⟨hq, by simp [hbit]⟩
        have := ih t2 s2 hi2 hq2 hs2
        rw [hd2] at this
        omega
      · -- the differing key leaves: the bucket has room and the next pass stores
        have hlen : (targetBucket HashKey t2 key).map_k.length
            < (targetBucket HashKey t key).map_k.length := by
          rw [hm2]
          exact List.length_filter_lt_length_iff_exists.2 ⟨q, hq, by simp [hbit]⟩
        have hcap : (targetBucket HashKey t key).map_k.length ≤ t.bucket_size := by
          rw [targetBucket_eq]
          exact hi.cap _ hidx
        have hzero : s2 = 0 := by
          cases n with
          | zero => simp [InsertSplits] at hs2
          | succ m =>
            simp only [InsertSplits] at hs2
            cases hp2 : InsertPass HashKey t2 key value with
            | stored t3 =>
              rw [hp2] at hs2
              simp only [Option.some.injEq] at hs2
              exact hs2.symm
            | undefined => rw [hp2] at hs2; exact Option.noConfusion hs2
            | split t3 =>
              obtain ⟨-, -, -, hfull⟩ := insertPass_split HashKey t2 t3 key value hi2 hp2
              rw [← targetBucket_eq, hsp.size] at hfull
              omega
        omega

/-- The loop of `Insert` leaves within the bound: when some stored key of the
target bucket differs from the key at bit `b`, and the local depth of the bucket
is `d`, then after at most `b - d + 1` passes that split comes a pass that
stores the entry, or one that is undefined. -/
theorem insert_leaves_loop (HashKey : K → Nat) (t : ExtendibleHash K V) (key : K)
    (value : V) (b : Nat) (q : K × V) (hi : Inv0 HashKey t)
    (hq : q ∈ (targetBucket HashKey t key).map_k)
    (hb : (HashKey q.1).testBit b ≠ (HashKey key).testBit b) :
    ∃ n t1, n ≤ b + 1 - (targetBucket HashKey t key).local_depth
      ∧ splitPasses HashKey n t key value = some t1
      ∧ (InsertPass HashKey t1 key value = Pass.undefined
        ∨ ∃ t2, InsertPass HashKey t1 key value = Pass.stored t2) := by
  have gen : ∀ (j : Nat) (t : ExtendibleHash K V), Inv0 HashKey t →
      q ∈ (targetBucket HashKey t key).map_k →
      b + 1 - (targetBucket HashKey t key).local_depth ≤ j →
      ∃ n t1, n ≤ b + 1 - (targetBucket HashKey t key).local_depth
        ∧ splitPasses HashKey n t key value = some t1
        ∧ (InsertPass HashKey t1 key value = Pass.undefined
          ∨ ∃ t2, InsertPass HashKey t1 key value = Pass.stored t2) := by
    intro j
    induction j with
    | zero =>
      intro t hi hq hj
      have := target_agrees HashKey t key q b hi hq hb
      omega
    | succ j ih =>
      intro t hi hq hj
      have hdb := target_agrees HashKey t key q b hi hq hb
      cases hp : InsertPass HashKey t key value with
      | stored t2 => exact ⟨0, t, Nat.zero_le _, rfl, Or.inr ⟨t2, hp⟩⟩
      | undefined => exact ⟨0, t, Nat.zero_le _, rfl, Or.inl hp⟩
      | split t2 =>
        obtain ⟨hsp, -, -, -⟩ := insertPass_split HashKey t t2 key value hi hp
        have hidx : HashKey key % 2 ^ t.global_depth < 2 ^ t.global_depth :=
          Nat.mod_lt _ (Nat.two_pow_pos _)
        have hi2 := inv0_split HashKey t t2 _ hi hidx hsp
        obtain ⟨hd2, hm2⟩ := split_target HashKey t t2 key hi hsp
        by_cases hbit : (HashKey q.1).testBit (targetBucket HashKey t key).local_depth
            = (HashKey key).testBit (targetBucket HashKey t key).local_depth
        · have hne : b ≠ (targetBucket HashKey t key).local_depth := by
            intro e
            rw [e] at hb
            exact hb hbit
          have hq2 : q ∈ (targetBucket HashKey t2 key).map_k := by
            rw [hm2, List.mem_filter]
            exact ⟨hq, by simp [hbit]⟩
          obtain ⟨n, t1, h1, h2, h3⟩ := ih t2 hi2 hq2 (by rw [hd2]; omega)
          refine ⟨n + 1, t1, by rw [hd2] at h1; omega, ?_, h3⟩
          simp only [splitPasses, hp]
          exact h2
        · have hlen : (targetBucket HashKey t2 key).map_k.length
              < (targetBucket HashKey t key).map_k.length := by
            rw [hm2]
            exact List.length_filter_lt_length_iff_exists.2 ⟨q, hq, by simp [hbit]⟩
          have hcap : (targetBucket HashKey t key).map_k.length ≤ t.bucket_size := by
            rw [targetBucket_eq]
            exact hi.cap _ hidx
          refine ⟨1, t2, by omega, by simp only [splitPasses, hp], ?_⟩
          cases hp2 : InsertPass HashKey t2 key value with
          | stored t3 => exact Or.inr ⟨t3, rfl⟩
          | undefined => exact Or.inl rfl
          | split t3 =>
            obtain ⟨-, -, -, hfull⟩ := insertPass_split HashKey t2 t3 key value hi2 hp2
            rw [← targetBucket_eq, hsp.size] at hfull
            omega
  exact gen _ t hi hq (le_refl _)

end HashTheorems2

/-! ## LRUReplacer: the list between the sentinels -/

section LRUTheorems2

variable {T : Type} [LinearOrder T]

theorem history_rep (live : List T) (r : LRUReplacer T) (h : LRUHistory live r) :
    ∃ ps, Rep r ps ∧ List.Perm (ps.map Prod.fst) live := by
  induction h with
  | init => exact ⟨[], rep_init, List.Perm.refl _⟩
  | @insert live r r1 x _ hi ih =>
    obtain ⟨ps, hr, hp⟩ := ih
    obtain ⟨r2, ps1, h1, h2, h3, -⟩ := rep_insert r ps x hr
    rw [h1] at hi
    cases hi
    refine ⟨ps1, h2, ?_⟩
    rw [h3]
    exact (List.perm_append_comm).trans (List.Perm.cons x (hp.erase x))
  | @victim live r r1 v x b _ hv ih =>
    obtain ⟨ps, hr, hp⟩ := ih
    rcases rep_victim r ps v hr with ⟨rfl, h1⟩ | ⟨y, c, ps1, r2, rfl, h1, h2, -⟩
    · rw [h1] at hv
      cases hv
      exact ⟨[], hr, hp⟩
    · rw [h1] at hv
      cases hv
      refine ⟨ps1, h2, ?_⟩
      have := hp.erase x
      simpa using this
  | @erase live r r1 x b _ he ih =>
    obtain ⟨ps, hr, hp⟩ := ih
    obtain ⟨r2, ps1, h1, h2, h3, -⟩ := rep_erase r ps x hr
    rw [h1] at he
    cases he
    refine ⟨ps1, h2, ?_⟩
    rw [h3]
    exact hp.erase x

theorem history_reachable (live : List T) (r : LRUReplacer T) (h : LRUHistory live r) :
    LRUReachable r := by
  induction h with
  | init => exact ⟨[], LRURun.init⟩
  | insert x _ hi ih =>
    obtain ⟨log, hl⟩ := ih
    exact ⟨_, LRURun.insert x hl hi⟩
  | victim v x b _ hv ih =>
    obtain ⟨log, hl⟩ := ih
    exact ⟨_, LRURun.victim v x b hl hv⟩
  | erase x b _ he ih =>
    obtain ⟨log, hl⟩ := ih
    exact ⟨_, LRURun.erase x b hl he⟩

theorem reachable_history (r : LRUReplacer T) (h : LRUReachable r) :
    ∃ live, LRUHistory live r := by
  obtain ⟨log, hl⟩ := h
  induction hl with
  | init => exact ⟨[], LRUHistory.init⟩
  | insert x _ hi ih =>
    obtain ⟨live, hl⟩ := ih
    exact ⟨_, LRUHistory.insert x hl hi⟩
  | victim v x b _ hv ih =>
    obtain ⟨live, hl⟩ := ih
    exact ⟨_, LRUHistory.victim v x b hl hv⟩
  | erase x b _ he ih =>
    obtain ⟨live, hl⟩ := ih
    exact ⟨_, LRUHistory.erase x b hl he⟩

theorem rep_keys (r : LRUReplacer T) (ps : List (T × Nat)) (h : Rep r ps) (x : T) :
    x ∈ r.node_map.map Prod.fst ↔ x ∈ ps.map Prod.fst := by
  constructor
  · intro hx
    obtain ⟨p, hp, rfl⟩ := List.mem_map.1 hx
    exact List.mem_map.2 ⟨p, (h.map p.1 p.2).1 ((mapFind_eq_some_iff _ h.sorted _ _).2 hp), rfl⟩
  · intro hx
    obtain ⟨p, hp, rfl⟩ := List.mem_map.1 hx
    exact List.mem_map.2 ⟨p, (mapFind_eq_some_iff _ h.sorted _ _).1 ((h.map p.1 p.2).2 hp), rfl⟩

/-- Claim C16. In every state reached by a run of the public operations there
is a list `ids` of distinct nodes linked, forwards and backwards, between the
head and the tail sentinel; the keys of `node_map` are exactly the values these
nodes hold, `node_map` sends each of them to its node, no two nodes hold the
same value, `Size()` is the number of these nodes and the number of values
inserted and not since removed by `Victim` or `Erase`; and when `node_map` is
not empty, `head_node->next_node` is one of these nodes, not the tail
sentinel. -/
theorem list_matches_node_map (live : List T) (r : LRUReplacer T) (h : LRUHistory live r) :
    ∃ ids : List Nat,
      Fwd r (r.head_node :: ids ++ [r.tail_node])
      ∧ Bwd r (r.head_node :: ids ++ [r.tail_node])
      ∧ (r.head_node :: ids ++ [r.tail_node]).Nodup
      ∧ (∀ x, x ∈ r.node_map.map Prod.fst ↔ ∃ a ∈ ids, (r.mem a).value = some x)
      ∧ (∀ a ∈ ids, ∃ x, (r.mem a).value = some x ∧ mapFind r.node_map x = some a)
      ∧ (∀ a ∈ ids, ∀ b ∈ ids, (r.mem a).value = (r.mem b).value → a = b)
      ∧ r.Size = ids.length
      ∧ r.Size = live.length
      ∧ live.Nodup
      ∧ (∀ x, x ∈ r.node_map.map Prod.fst ↔ x ∈ live)
      ∧ (r.node_map ≠ [] → ∃ a, (r.mem r.head_node).next_node = some a ∧ a ∈ ids
          ∧ a ≠ r.tail_node ∧ (r.mem a).value ≠ none) := by
  obtain ⟨ps, hr, hp⟩ := history_rep live r h
  have hval : ∀ a ∈ ps.map Prod.snd, ∃ x, (r.mem a).value = some x
      ∧ mapFind r.node_map x = some a := by
    intro a ha
    obtain ⟨p, hp1, rfl⟩ := List.mem_map.1 ha
    exact ⟨p.1, hr.vals p hp1, (hr.map p.1 p.2).2 hp1⟩
  refine ⟨ps.map Prod.snd, hr.fwd, hr.bwd, hr.nodup, ?_, hval, ?_, ?_, ?_, ?_, ?_, ?_⟩
  · intro x
    rw [rep_keys r ps hr]
    constructor
    · intro hx
      obtain ⟨p, hp1, rfl⟩ := List.mem_map.1 hx
      exact ⟨p.2, List.mem_map.2 ⟨p, hp1, rfl⟩, hr.vals p hp1⟩
    · rintro ⟨a, ha, hv⟩
      obtain ⟨p, hp1, rfl⟩ := List.mem_map.1 ha
      have := hr.vals p hp1
      rw [hv] at this
      cases this
      exact List.mem_map.2 ⟨p, hp1, rfl⟩
  · intro a ha b hb hv
    obtain ⟨x, hx1, hx2⟩ := hval a ha
    obtain ⟨y, hy1, hy2⟩ := hval b hb
    rw [hx1, hy1] at hv
    cases hv
    rw [hx2] at hy2
    cases hy2
    rfl
  · unfold LRUReplacer.Size
    rw [hr.size, List.length_map]
  · unfold LRUReplacer.Size
    rw [hr.size, ← hp.length_eq, List.length_map]
  · exact hp.nodup_iff.1 hr.keys
  · intro x
    rw [rep_keys r ps hr, hp.mem_iff]
  · intro hne
    cases ps with
    | nil =>
      have := hr.size
      simp at this
      exact absurd this hne
    | cons p ps1 =>
      have hf := hr.fwd
      have hn := hr.nodup
      unfold Fwd at hf
      simp only [List.map_cons, List.cons_append, List.chain'_cons] at hf
      refine ⟨p.2, hf.1, by simp, ?_, ?_⟩
      · intro he
        simp only [List.map_cons, List.cons_append] at hn
        have hnot : p.2 ∉ ps1.map Prod.snd ++ [r.tail_node] :=
          (List.nodup_cons.1 (List.nodup_cons.1 hn).2).1
        exact hnot (by simp [he])
      · rw [hr.vals p (List.mem_cons_self _ _)]
        simp

theorem exampleReplacer_history : LRUHistory [2, 1] exampleReplacer :=
  LRUHistory.insert 2
    (LRUHistory.insert 1 LRUHistory.init
      (rfl : (LRUReplacer.init : LRUReplacer Nat).Insert 1 = some (replacerOf [1])))
    (rfl : (replacerOf [1] : LRUReplacer Nat).Insert 2 = some exampleReplacer)

theorem list_matches_node_map_witness :
    LRUHistory [2, 1] exampleReplacer
    ∧ exampleReplacer.node_map ≠ []
    ∧ ∃ ids : List Nat,
      Fwd exampleReplacer (exampleReplacer.head_node :: ids ++ [exampleReplacer.tail_node])
      ∧ Bwd exampleReplacer (exampleReplacer.head_node :: ids ++ [exampleReplacer.tail_node])
      ∧ (exampleReplacer.head_node :: ids ++ [exampleReplacer.tail_node]).Nodup
      ∧ (∀ x, x ∈ exampleReplacer.node_map.map Prod.fst
          ↔ ∃ a ∈ ids, (exampleReplacer.mem a).value = some x)
      ∧ (∀ a ∈ ids, ∃ x, (exampleReplacer.mem a).value = some x
          ∧ mapFind exampleReplacer.node_map x = some a)
      ∧ (∀ a ∈ ids, ∀ b ∈ ids,
          (exampleReplacer.mem a).value = (exampleReplacer.mem b).value → a = b)
      ∧ exampleReplacer.Size = ids.length
      ∧ exampleReplacer.Size = [2, 1].length
      ∧ [2, 1].Nodup
      ∧ (∀ x, x ∈ exampleReplacer.node_map.map Prod.fst ↔ x ∈ [2, 1])
      ∧ (exampleReplacer.node_map ≠ [] →
          ∃ a, (exampleReplacer.mem exampleReplacer.head_node).next_node = some a ∧ a ∈ ids
            ∧ a ≠ exampleReplacer.tail_node ∧ (exampleReplacer.mem a).value ≠ none) :=
  ⟨exampleReplacer_history, by decide,
    list_matches_node_map [2, 1] exampleReplacer exampleReplacer_history⟩

end LRUTheorems2

/-! ## ExtendibleHash: the order of the mutexes -/

section LockTheorems

variable {K V : Type} [LinearOrder K]

/-- Claim C20, the code evaluated against it. For every table and key, `Find`
and `Remove` lock the `latch_bucket` of the target bucket while they hold
`latch_table`. A pass of `Insert` that splits locks them in the other order:
on the example table `Insert(4, 14)` locks the latch of bucket 0 and then
`latch_table`, while `Find(0)` locks `latch_table` and then the latch of bucket
0. When the inserting thread has locked the bucket and the finding thread then
locks `latch_table`, each waits for the mutex the other holds. -/
theorem find_locks_bucket_under_table :
    (∀ (HashKey : K → Nat) (t : ExtendibleHash K V) (key : K),
      bucketUnderTable [] (FindLocks HashKey t key) = true
      ∧ bucketUnderTable [] (RemoveLocks HashKey t key) = true)
    ∧ InsertLocks id 2 exampleTable 4 14
      = some [LockEvent.lock Latch.latch_table, LockEvent.unlock Latch.latch_table,
          LockEvent.lock (Latch.latch_bucket 0), LockEvent.lock Latch.latch_table,
          LockEvent.unlock Latch.latch_table, LockEvent.unlock (Latch.latch_bucket 0),
          LockEvent.lock Latch.latch_table, LockEvent.unlock Latch.latch_table,
          LockEvent.lock (Latch.latch_bucket 0), LockEvent.unlock (Latch.latch_bucket 0)]
    ∧ tableUnderBucket [] ((InsertLocks id 2 exampleTable 4 14).getD []) = true
    ∧ bucketUnderTable [] ((InsertLocks id 2 exampleTable 4 14).getD []) = false
    ∧ FindLocks id exampleTable 0
      = [LockEvent.lock Latch.latch_table, LockEvent.lock (Latch.latch_bucket 0),
          LockEvent.unlock (Latch.latch_bucket 0), LockEvent.unlock Latch.latch_table]
    ∧ tableUnderBucket [] (FindLocks id exampleTable 0) = false
    ∧ (runThreads [true, true, true, false]
        (⟨[], (InsertLocks id 2 exampleTable 4 14).getD []⟩,
          ⟨[], FindLocks id exampleTable 0⟩)).map deadlocked = some true := by
  refine ⟨?_, rfl, rfl, rfl, rfl, rfl, rfl⟩
  intro HashKey t key
  constructor
  · simp [FindLocks, bucketUnderTable]
  · simp [RemoveLocks, bucketUnderTable]

end LockTheorems

end scudb
